import Mathlib

/-!
# Verification of the `autodiff` package

Shallow embedding of the `autodiff` Python package (forward-mode AD via dual
numbers, reverse-mode AD via a computation graph of `rNode`s, an elementary
operator library, and the `Func` orchestration layer), together with proofs
about the claims of its specification.

Modelling conventions, applied uniformly:

* Python `int`/`float` scalars are modelled by an arbitrary linearly ordered
  field `α` (instantiated with `ℚ` or `ℝ` in concrete witnesses).  The
  transcendental primitives supplied by `numpy` (`np.sin`, `np.log`, ...) and
  the Python power operator `**` are abstracted into a structure `Prim α` of
  uninterpreted total functions, because `numpy` totalises them (returning
  `nan`/`inf` instead of raising).
* Python division `/` between plain scalars raises `ZeroDivisionError` on a
  zero divisor; divisions whose divisor is produced by a `numpy` function
  (e.g. `x.dual/np.sqrt(1-x.real**2)`) follow `numpy` semantics and do not
  raise.  Accordingly plain divisions are modelled in the `Except` monad with
  an explicit zero test, while `numpy`-divisor divisions use the field's total
  division.
* Errors are modelled by the inductive type `PyErr`; the distinct `ValueError`
  messages of the source ("Dimension mismatch between inputted point and
  function number of input", "Dimension mismatch between inputted point and
  seed vector", domain-error messages) are kept as distinct constructors.
-/

namespace Autodiff

/-- Python-level errors raised by the package (`TypeError`, the `ValueError`s
with their distinct messages, `AssertionError`, `ZeroDivisionError`). -/
inductive PyErr where
  /-- `TypeError("Unsupported type ...")` -/
  | typeErr : PyErr
  /-- `ValueError` for a mathematically invalid argument (log/sqrt/arcsin...) -/
  | domainErr : PyErr
  /-- `ValueError("Dimension mismatch between inputted point and function number of input")` -/
  | dimPointErr : PyErr
  /-- `ValueError("Dimension mismatch between inputted point and seed vector")` -/
  | dimSeedErr : PyErr
  /-- a failed `assert` statement -/
  | assertErr : PyErr
  /-- `ZeroDivisionError` from plain-float division -/
  | zeroDivErr : PyErr
  deriving DecidableEq, Repr

/-- The primitive numerical functions the package takes from `numpy`
(`np.sin`, `np.cos`, ..., `np.log`, `np.sqrt`) together with the Python
power operator `**` (`pow`).  They are total functions, matching `numpy`'s
behaviour of returning `nan`/`inf` rather than raising. -/
structure Prim (α : Type) where
  sin : α → α
  cos : α → α
  tan : α → α
  exp : α → α
  log : α → α
  arcsin : α → α
  arccos : α → α
  arctan : α → α
  sinh : α → α
  cosh : α → α
  tanh : α → α
  sqrt : α → α
  pow : α → α → α

/-- `DualNumber` (dualnumber.py): immutable pair of a real and a dual part. -/
structure Dual (α : Type) where
  real : α
  dual : α
  deriving DecidableEq, Repr

variable {α : Type}

/-- The "other" operand of an overloaded binary operator: a bare Python
scalar (`int`/`float`) or another object of the same AD type.  Operand types
outside this sum raise `TypeError` in the source and are not representable. -/
abbrev Operand (β : Type) (α : Type) := α ⊕ β

section DualOps

variable [LinearOrderedField α] (P : Prim α)

/-- `DualNumber.__neg__`: `DualNumber(-self.real, -self.dual)`. -/
def dNeg (z : Dual α) : Dual α := ⟨-z.real, -z.dual⟩

/-- `DualNumber.__add__` (also `__radd__`, which delegates to it):
scalar branch `(other+self.real, self.dual)`, dual branch componentwise. -/
def dAdd (z : Dual α) : Operand (Dual α) α → Dual α
  | .inl c => ⟨c + z.real, z.dual⟩
  | .inr w => ⟨z.real + w.real, z.dual + w.dual⟩

/-- `DualNumber.__mul__` (also `__rmul__`): scalar branch
`(other*self.real, other*self.dual)`, dual branch product rule. -/
def dMul (z : Dual α) : Operand (Dual α) α → Dual α
  | .inl c => ⟨c * z.real, c * z.dual⟩
  | .inr w => ⟨z.real * w.real, z.real * w.dual + z.dual * w.real⟩

/-- `DualNumber.__sub__`: implemented in the source as
`self.__add__(other*(-1))`. -/
def dSub (z : Dual α) : Operand (Dual α) α → Dual α
  | .inl c => dAdd z (.inl (c * (-1)))
  | .inr w => dAdd z (.inr (dMul w (.inl (-1))))

/-- `DualNumber.__rsub__`: implemented as `(-1*self).__add__(other)`. -/
def dRsub (c : α) (z : Dual α) : Dual α := dAdd (dMul z (.inl (-1))) (.inl c)

/-- `DualNumber.__truediv__`: scalar branch `(a/c, a′/c)` (plain division,
raises on `c = 0`); dual branch `(a/b, (a′*b − a*b′)/b**2)` (plain divisions,
raise on `b = 0` resp. `b**2 = 0`). -/
def dDiv (z : Dual α) : Operand (Dual α) α → Except PyErr (Dual α)
  | .inl c =>
      if c = 0 then .error .zeroDivErr else
      .ok ⟨z.real / c, z.dual / c⟩
  | .inr w =>
      if w.real = 0 then .error .zeroDivErr else
      if P.pow w.real 2 = 0 then .error .zeroDivErr else
      .ok ⟨z.real / w.real,
           (z.dual * w.real - z.real * w.dual) / P.pow w.real 2⟩

/-- `DualNumber.__rtruediv__`: `(other/self.real, -other*self.dual/(self.real**2))`
(plain divisions, raise on `a = 0` resp. `a**2 = 0`). -/
def dRdiv (c : α) (z : Dual α) : Except PyErr (Dual α) :=
  if z.real = 0 then .error .zeroDivErr else
  if P.pow z.real 2 = 0 then .error .zeroDivErr else
  .ok ⟨c / z.real, -c * z.dual / P.pow z.real 2⟩

/-- `DualNumber.__pow__`: scalar branch
`(self.real**other, other * pow(self.real, other-1) * self.dual)`;
dual branch
`(a**b, a**b * (b′*np.log(a) + a′*b/a))` where `a′*b/a` is a plain division
raising on `a = 0`. -/
def dPow (z : Dual α) : Operand (Dual α) α → Except PyErr (Dual α)
  | .inl c => .ok ⟨P.pow z.real c, c * P.pow z.real (c - 1) * z.dual⟩
  | .inr w =>
      if z.real = 0 then .error .zeroDivErr else
      .ok ⟨P.pow z.real w.real,
           P.pow z.real w.real *
             (w.dual * P.log z.real + z.dual * w.real / z.real)⟩

/-- `DualNumber.__rpow__`:
`(other**self.real, other**self.real * self.dual * np.log(other))`. -/
def dRpow (c : α) (z : Dual α) : Dual α :=
  ⟨P.pow c z.real, P.pow c z.real * z.dual * P.log c⟩

end DualOps

/-! ## Graph nodes (rNode.py)

A Python `rNode` is a mutable object; the graph is embedded as an arena: a
`GState` holds the global counter `rNode.increment` together with the list of
all nodes created so far (in creation order), and an `rNode` reference is the
node's position in that list.  A node's `name` field stores the numeric part
of the source's `'v' + str(rNode.increment)`; `int(node.name[1:])` is then
just `name`.  The `backward_func` closures of the source capture references
to `self`, `other` and `res` and read their `val`/`der` fields at call time;
they are embedded as the first-order rule datatype `BRule` interpreted by
`runRule`. -/

/-- The elementary operators of operators.py that take one node argument. -/
inductive UOp (α : Type) where
  | sin | cos | tan | exp | log
  | logBase (base : α)
  | arcsin | arccos | arctan | sinh | cosh | tanh | logistic | sqrt
  deriving DecidableEq, Repr

/-- The backward closure of an `rNode`, as data: each constructor records the
arena indices captured by the corresponding `_backward_fn` of the source
(`s` = `self`, `o` = `other`, `r` = `res`), plus the captured scalar for
`__rpow__` / the operator tag for unary operators. -/
inductive BRule (α : Type) where
  /-- leaf nodes: `backward_func = lambda: None` -/
  | none
  | add (s o r : Nat)
  | sub (s o r : Nat)
  | rsub (s o r : Nat)
  | mul (s o r : Nat)
  | div (s o r : Nat)
  | rdiv (s o r : Nat)
  | pow (s o r : Nat)
  | rpow (base : α) (s r : Nat)
  | unary (u : UOp α) (s r : Nat)
  deriving DecidableEq, Repr

/-- One `rNode` (rNode.py constructor): value, adjoint (`der`), the numeric
part of the `name`, the operation tag, the deduplicated parents
(`set(parents)`), and the backward rule. -/
structure RNode (α : Type) where
  val : α
  der : α
  name : Nat
  oper : String
  parents : List Nat
  rule : BRule α
  deriving DecidableEq, Repr

/-- The mutable global/graph state: the class attribute `rNode.increment`
plus the arena of all nodes created so far, in creation order. -/
structure GState (α : Type) where
  increment : Nat
  nodes : List (RNode α)
  deriving DecidableEq, Repr

section GraphOps

variable [LinearOrderedField α]

/-- Look up a node by arena index (out-of-range indices, which cannot arise
from source-created references, give an inert leaf). -/
def getNode (st : GState α) (i : Nat) : RNode α :=
  st.nodes.getD i ⟨0, 0, 0, "", [], .none⟩

def getVal (st : GState α) (i : Nat) : α := (getNode st i).val

def getDer (st : GState α) (i : Nat) : α := (getNode st i).der

def nameOf (st : GState α) (i : Nat) : Nat := (getNode st i).name

def parentsOf (st : GState α) (i : Nat) : List Nat := (getNode st i).parents

def ruleOf (st : GState α) (i : Nat) : BRule α := (getNode st i).rule

/-- Overwrite the adjoint of node `i` (`node.der = d`). -/
def setDer (st : GState α) (i : Nat) (d : α) : GState α :=
  { st with nodes := st.nodes.set i { getNode st i with der := d } }

/-- Accumulate into the adjoint of node `i` (`node.der += d`). -/
def addDer (st : GState α) (i : Nat) (d : α) : GState α :=
  setDer st i (getDer st i + d)

/-- `set(parents)` for the two-operand constructors `(self, other)`. -/
def parentsPair (a b : Nat) : List Nat := if a = b then [a] else [a, b]

/-- `rNode.__init__` followed by the `res.backward_func = _backward_fn`
assignment: append a node whose `name` is `'v' + str(rNode.increment)` and
bump the counter; returns the new node's arena index. -/
def mkNode (st : GState α) (v : α) (ps : List Nat) (op : String)
    (rule : BRule α) : GState α × Nat :=
  (⟨st.increment + 1, st.nodes ++ [⟨v, 0, st.increment, op, ps, rule⟩]⟩,
   st.nodes.length)

/-- A leaf node `rNode(c)`. -/
def mkLeaf (st : GState α) (c : α) : GState α × Nat := mkNode st c [] "" .none

/-- `if isinstance(other, (int, float)): other = rNode(other)` — promote a
bare scalar operand to a fresh leaf node. -/
def promote (st : GState α) : Operand Nat α → GState α × Nat
  | .inl c => mkLeaf st c
  | .inr i => (st, i)

/-- `rNode.__add__` (and `__radd__`, which returns `self + other`). -/
def rnAdd (st : GState α) (self : Nat) (other : Operand Nat α) :
    GState α × Nat :=
  let (st1, o) := promote st other
  mkNode st1 (getVal st1 self + getVal st1 o) (parentsPair self o) "+"
    (.add self o st1.nodes.length)

/-- `rNode.__radd__`: `return self + other`. -/
def rnRadd (st : GState α) (self : Nat) (c : α) : GState α × Nat :=
  rnAdd st self (.inl c)

/-- `rNode.__sub__`. -/
def rnSub (st : GState α) (self : Nat) (other : Operand Nat α) :
    GState α × Nat :=
  let (st1, o) := promote st other
  mkNode st1 (getVal st1 self - getVal st1 o) (parentsPair self o) "-"
    (.sub self o st1.nodes.length)

/-- `rNode.__rsub__`: promotes the scalar, value `other.val - self.val`. -/
def rnRsub (st : GState α) (self : Nat) (c : α) : GState α × Nat :=
  let (st1, o) := mkLeaf st c
  mkNode st1 (getVal st1 o - getVal st1 self) (parentsPair self o) "-"
    (.rsub self o st1.nodes.length)

/-- `rNode.__mul__` (and `__rmul__`, which returns `self * other`). -/
def rnMul (st : GState α) (self : Nat) (other : Operand Nat α) :
    GState α × Nat :=
  let (st1, o) := promote st other
  mkNode st1 (getVal st1 self * getVal st1 o) (parentsPair self o) "x"
    (.mul self o st1.nodes.length)

/-- `rNode.__rmul__`: `return self * other`. -/
def rnRmul (st : GState α) (self : Nat) (c : α) : GState α × Nat :=
  rnMul st self (.inl c)

/-- `rNode.__neg__`: `return self * -1`. -/
def rnNeg (st : GState α) (self : Nat) : GState α × Nat :=
  rnMul st self (.inl (-1))

/-- `rNode.__truediv__`: plain division `self.val / other.val` raises
`ZeroDivisionError` on a zero divisor. -/
def rnDiv (st : GState α) (self : Nat) (other : Operand Nat α) :
    Except PyErr (GState α × Nat) :=
  let (st1, o) := promote st other
  if getVal st1 o = 0 then .error .zeroDivErr else
  .ok (mkNode st1 (getVal st1 self / getVal st1 o) (parentsPair self o) "/"
        (.div self o st1.nodes.length))

/-- `rNode.__rtruediv__`: promotes the scalar, value `other.val / self.val`. -/
def rnRdiv (st : GState α) (self : Nat) (c : α) :
    Except PyErr (GState α × Nat) :=
  let (st1, o) := mkLeaf st c
  if getVal st1 self = 0 then .error .zeroDivErr else
  .ok (mkNode st1 (getVal st1 o / getVal st1 self) (parentsPair self o) "/"
        (.rdiv self o st1.nodes.length))

/-- `rNode.__pow__` (value `self.val ** other.val`). -/
def rnPow (P : Prim α) (st : GState α) (self : Nat) (other : Operand Nat α) :
    GState α × Nat :=
  let (st1, o) := promote st other
  mkNode st1 (P.pow (getVal st1 self) (getVal st1 o)) (parentsPair self o) "^"
    (.pow self o st1.nodes.length)

/-- `rNode.__rpow__`: the numeric base is *not* promoted to a node; the
result's parents are `(self,)` only, and the backward rule captures the bare
scalar `other`.  (The source's `oper` tag is the interpolated string
`f'{other}^'`; the base cannot be rendered for an abstract scalar, so the
tag is kept as `"^"`.) -/
def rnRpow (P : Prim α) (st : GState α) (self : Nat) (c : α) :
    GState α × Nat :=
  mkNode st (P.pow c (getVal st self)) [self] "^"
    (.rpow c self st.nodes.length)

/-- The scalar factor `f′(x.val)` that a unary operator's `_backward_fn`
multiplies `res.der` by (operators.py). -/
def uCoeff (P : Prim α) (u : UOp α) (v : α) : α :=
  match u with
  | .sin => P.cos v
  | .cos => -P.sin v
  | .tan => 1 / P.pow (P.cos v) 2
  | .exp => P.exp v
  | .log => 1 / v
  | .logBase b => 1 / (v * P.log b)
  | .arcsin => 1 / P.sqrt (1 - P.pow v 2)
  | .arccos => -1 / P.sqrt (1 - P.pow v 2)
  | .arctan => 1 / (1 + P.pow v 2)
  | .sinh => P.cosh v
  | .cosh => P.sinh v
  | .tanh => 1 / P.pow (P.cosh v) 2
  | .logistic => P.exp v / P.pow (P.exp v + 1) 2
  | .sqrt => 1 / (2 * P.sqrt v)

/-- Execute a unary operator's backward closure
(`x.der += f′(x.val) * res.der`).  For `log` and `arctan` the divisor of the
local derivative is a plain Python float (`x.val`, `1+x.val**2`), so those
divisions raise `ZeroDivisionError` on zero; all other divisors are `numpy`
values and do not raise. -/
def runURule (P : Prim α) (st : GState α) (u : UOp α) (s r : Nat) :
    Except PyErr (GState α) :=
  match u with
  | .log =>
      if getVal st s = 0 then .error .zeroDivErr else
      .ok (addDer st s (uCoeff P .log (getVal st s) * getDer st r))
  | .arctan =>
      if 1 + P.pow (getVal st s) 2 = 0 then .error .zeroDivErr else
      .ok (addDer st s (uCoeff P .arctan (getVal st s) * getDer st r))
  | u => .ok (addDer st s (uCoeff P u (getVal st s) * getDer st r))

/-- Execute a node's backward closure (`node.backward_func()`): the adjoint
accumulations of the corresponding `_backward_fn`, statement by statement
(each statement re-reads `res.der` from the current state, as the closure
does).  Plain-float divisions raise `ZeroDivisionError` on zero divisors. -/
def runRule (P : Prim α) (st : GState α) : BRule α → Except PyErr (GState α)
  | .none => .ok st
  | .add s o r =>
      let st1 := addDer st s (1 * getDer st r)
      .ok (addDer st1 o (1 * getDer st1 r))
  | .sub s o r =>
      let st1 := addDer st s (1 * getDer st r)
      .ok (addDer st1 o (-1 * getDer st1 r))
  | .rsub s o r =>
      let st1 := addDer st s (-1 * getDer st r)
      .ok (addDer st1 o (1 * getDer st1 r))
  | .mul s o r =>
      let st1 := addDer st s (getVal st o * getDer st r)
      .ok (addDer st1 o (getVal st1 s * getDer st1 r))
  | .div s o r =>
      if getVal st o = 0 then .error .zeroDivErr else
      let st1 := addDer st s (1 / getVal st o * getDer st r)
      if P.pow (getVal st1 o) 2 = 0 then .error .zeroDivErr else
      .ok (addDer st1 o (-getVal st1 s / P.pow (getVal st1 o) 2 *
            getDer st1 r))
  | .rdiv s o r =>
      if P.pow (getVal st s) 2 = 0 then .error .zeroDivErr else
      let st1 := addDer st s (-getVal st o / P.pow (getVal st s) 2 *
            getDer st r)
      if getVal st1 s = 0 then .error .zeroDivErr else
      .ok (addDer st1 o (1 / getVal st1 s * getDer st1 r))
  | .pow s o r =>
      let st1 := addDer st s (getVal st o *
            P.pow (getVal st s) (getVal st o - 1) * getDer st r)
      .ok (addDer st1 o (P.pow (getVal st1 s) (getVal st1 o) *
            P.log (getVal st1 s) * getDer st1 r))
  | .rpow c s r =>
      .ok (addDer st s (P.pow c (getVal st s) * P.log c * getDer st r))
  | .unary u s r => runURule P st u s r

/-- `toposort(node)` of `rNode._sort_nodes`: mark `node` visited, iterate
`for parent_node in node.parents: toposort(parent_node)`, then append
`node`.  The state is the pair `(visited_nodes, topo_sorted)`.  Recursion is
bounded by explicit fuel; since every parent's arena index is strictly
smaller than its child's, fuel `i + 1` suffices to visit node `i` (proved
below). -/
def sortVisit (st : GState α) : Nat → Nat → List Nat × List Nat →
    List Nat × List Nat
  | 0, _, vs => vs
  | fuel + 1, i, vs =>
    if i ∈ vs.1 then vs
    else
      let vs1 := (parentsOf st i).foldl (fun acc p => sortVisit st fuel p acc)
        (i :: vs.1, vs.2)
      (vs1.1, vs1.2 ++ [i])

/-- The parent loop of `toposort`, as a named function for the proofs. -/
def sortVisitList (st : GState α) (fuel : Nat) (ps : List Nat)
    (vs : List Nat × List Nat) : List Nat × List Nat :=
  ps.foldl (fun acc p => sortVisit st fuel p acc) vs

/-- `rNode._sort_nodes`: the depth-first post-order topological sort rooted
at `root`. -/
def sortNodes (st : GState α) (root : Nat) : List Nat :=
  (sortVisit st (root + 1) root ([], [])).2

/-- The adjoint-reset loop of `rNode.backward`:
`for node in topo_order: node.der = 0`. -/
def zeroDers (st : GState α) (l : List Nat) : GState α :=
  l.foldl (fun st i => setDer st i 0) st

/-- One iteration of the reversed walk of `rNode.backward`: write the
adjoint into the Jacobian row when `int(node.name[1:]) < num_inputs`, then
invoke the backward closure. -/
def sweepStep (P : Prim α) (numInputs : Nat) (acc : List α × GState α)
    (i : Nat) : Except PyErr (List α × GState α) :=
  let row :=
    if nameOf acc.2 i < numInputs then
      acc.1.set (nameOf acc.2 i) (getDer acc.2 i)
    else acc.1
  do pure (row, ← runRule P acc.2 (ruleOf acc.2 i))

/-- `rNode.backward(num_inputs)`: topological order, zero all adjoints in it,
seed the root's adjoint with 1, then walk the order in reverse, recording
input adjoints into the row (initially `np.zeros(num_inputs)`) before
invoking each node's backward closure. -/
def backward (P : Prim α) (numInputs : Nat) (self : Nat) (st : GState α) :
    Except PyErr (List α × GState α) :=
  let topo := sortNodes st self
  let st1 := zeroDers st topo
  let st2 := setDer st1 self 1
  (topo.reverse).foldlM (sweepStep P numInputs)
    (List.replicate numInputs 0, st2)

end GraphOps

/-! ## The elementary operator library (operators.py)

Each operator dispatches on the runtime representation of its argument:
plain scalar, `DualNumber`, or `rNode`.  The three branches share the value
formula (`opVal`) and the domain check (`uDomErr`). -/

section OperatorLib

variable [LinearOrderedField α]

/-- The operation tag string recorded on the result node. -/
def uOperStr : UOp α → String
  | .sin => "sin" | .cos => "cos" | .tan => "tan" | .exp => "exp"
  | .log => "log" | .logBase _ => "log_b" | .arcsin => "arcsin"
  | .arccos => "arccos" | .arctan => "arctan" | .sinh => "sinh"
  | .cosh => "cosh" | .tanh => "tanh" | .logistic => "logistic"
  | .sqrt => "sqrt"

/-- The value formula of each operator (the `numpy` evaluation; `log_base`
applies the change-of-base formula `np.log(x)/np.log(base)`, a `numpy`
division that does not raise). -/
def opVal (P : Prim α) (u : UOp α) (v : α) : α :=
  match u with
  | .sin => P.sin v
  | .cos => P.cos v
  | .tan => P.tan v
  | .exp => P.exp v
  | .log => P.log v
  | .logBase b => P.log v / P.log b
  | .arcsin => P.arcsin v
  | .arccos => P.arccos v
  | .arctan => P.arctan v
  | .sinh => P.sinh v
  | .cosh => P.cosh v
  | .tanh => P.tanh v
  | .logistic => 1 / (1 + P.exp (-v))
  | .sqrt => P.sqrt v

/-- The domain test that makes the operator raise
`ValueError` (`log`/`log_base`: argument `<= 0`; `arcsin`/`arccos`:
argument outside `[-1, 1]`; `sqrt`: argument `< 0`). -/
def uDomErr (u : UOp α) (v : α) : Bool :=
  match u with
  | .log => v ≤ 0
  | .logBase _ => v ≤ 0
  | .arcsin => v < -1 ∨ v > 1
  | .arccos => v < -1 ∨ v > 1
  | .sqrt => v < 0
  | _ => false

/-- An operator applied to a plain scalar: domain check, then direct
evaluation. -/
def sUnary (P : Prim α) (u : UOp α) (x : α) : Except PyErr α :=
  if uDomErr u x then .error .domainErr else .ok (opVal P u x)

/-- The dual part of an operator applied to a `DualNumber`, given that the
domain check passed.  The divisors in `log`'s and `arctan`'s chain-rule
factors are plain Python floats (`x.real`, `1+x.real**2`) and raise
`ZeroDivisionError` on zero; all other divisors are `numpy` values. -/
def dUnaryDual (P : Prim α) (u : UOp α) (a d : α) : Except PyErr α :=
  match u with
  | .sin => .ok (d * P.cos a)
  | .cos => .ok (-d * P.sin a)
  | .tan => .ok (d / P.pow (P.cos a) 2)
  | .exp => .ok (d * P.exp a)
  | .log => if a = 0 then .error .zeroDivErr else .ok (d / a)
  | .logBase b => .ok (d / (P.log b * a))
  | .arcsin => .ok (d / P.sqrt (1 - P.pow a 2))
  | .arccos => .ok (-d / P.sqrt (1 - P.pow a 2))
  | .arctan =>
      if 1 + P.pow a 2 = 0 then .error .zeroDivErr
      else .ok (d / (1 + P.pow a 2))
  | .sinh => .ok (d * P.cosh a)
  | .cosh => .ok (d * P.sinh a)
  | .tanh => .ok (d / P.pow (P.cosh a) 2)
  | .logistic => .ok (d * P.exp a / P.pow (P.exp a + 1) 2)
  | .sqrt => .ok (d / (2 * P.sqrt a))

/-- An operator applied to a `DualNumber`: domain check, then
`DualNumber(f(a), f′(a)·a′)`. -/
def dUnary (P : Prim α) (u : UOp α) (z : Dual α) : Except PyErr (Dual α) :=
  if uDomErr u z.real then .error .domainErr else
  do pure ⟨opVal P u z.real, ← dUnaryDual P u z.real z.dual⟩

/-- An operator applied to an `rNode`: domain check, then a fresh node with
the operator's value, the single parent `(x,)`, and the unary backward
rule. -/
def rnUnary (P : Prim α) (u : UOp α) (st : GState α) (x : Nat) :
    Except PyErr (GState α × Nat) :=
  if uDomErr u (getVal st x) then .error .domainErr else
  .ok (mkNode st (opVal P u (getVal st x)) [x] (uOperStr u)
        (.unary u x st.nodes.length))

end OperatorLib

/-! ## User functions

A user-supplied function body is a composition of the overloaded operators
and the operator library over the function's inputs; it is represented by the
expression type `Expr n α`.  Each constructor corresponds to one Python
dunder dispatch: `addC e c` is `e + c` (and, via `__radd__`, `c + e`),
`rsubC c e` is `c - e` (`__rsub__`), etc.  Evaluating the same body over
plain scalars, `DualNumber`s, or `rNode`s replays exactly the corresponding
branch of every operator. -/

/-- A function body over `n` inputs, built from the overloaded operators
(with bare-scalar operands where the source supports them) and the
elementary operator library. -/
inductive Expr (n : Nat) (α : Type) where
  | var : Fin n → Expr n α
  | addE : Expr n α → Expr n α → Expr n α
  | addC : Expr n α → α → Expr n α
  | subE : Expr n α → Expr n α → Expr n α
  | subC : Expr n α → α → Expr n α
  | rsubC : α → Expr n α → Expr n α
  | mulE : Expr n α → Expr n α → Expr n α
  | mulC : Expr n α → α → Expr n α
  | divE : Expr n α → Expr n α → Expr n α
  | divC : Expr n α → α → Expr n α
  | rdivC : α → Expr n α → Expr n α
  | powE : Expr n α → Expr n α → Expr n α
  | powC : Expr n α → α → Expr n α
  | rpowC : α → Expr n α → Expr n α
  | un : UOp α → Expr n α → Expr n α

section Evaluators

variable [LinearOrderedField α] {n : Nat}

/-- Evaluate a body over `DualNumber` inputs (the forward-mode trace). -/
def evalD (P : Prim α) (input : Fin n → Dual α) :
    Expr n α → Except PyErr (Dual α)
  | .var i => .ok (input i)
  | .addE e₁ e₂ => do pure (dAdd (← evalD P input e₁) (.inr (← evalD P input e₂)))
  | .addC e c => do pure (dAdd (← evalD P input e) (.inl c))
  | .subE e₁ e₂ => do pure (dSub (← evalD P input e₁) (.inr (← evalD P input e₂)))
  | .subC e c => do pure (dSub (← evalD P input e) (.inl c))
  | .rsubC c e => do pure (dRsub c (← evalD P input e))
  | .mulE e₁ e₂ => do pure (dMul (← evalD P input e₁) (.inr (← evalD P input e₂)))
  | .mulC e c => do pure (dMul (← evalD P input e) (.inl c))
  | .divE e₁ e₂ => do dDiv P (← evalD P input e₁) (.inr (← evalD P input e₂))
  | .divC e c => do dDiv P (← evalD P input e) (.inl c)
  | .rdivC c e => do dRdiv P c (← evalD P input e)
  | .powE e₁ e₂ => do dPow P (← evalD P input e₁) (.inr (← evalD P input e₂))
  | .powC e c => do dPow P (← evalD P input e) (.inl c)
  | .rpowC c e => do pure (dRpow P c (← evalD P input e))
  | .un u e => do dUnary P u (← evalD P input e)

/-- Evaluate a body over plain scalars (plain Python arithmetic: `/` raises
on a zero divisor, `**` is the abstract power, operators domain-check). -/
def evalS (P : Prim α) (x : Fin n → α) : Expr n α → Except PyErr α
  | .var i => .ok (x i)
  | .addE e₁ e₂ => do pure ((← evalS P x e₁) + (← evalS P x e₂))
  | .addC e c => do pure ((← evalS P x e) + c)
  | .subE e₁ e₂ => do pure ((← evalS P x e₁) - (← evalS P x e₂))
  | .subC e c => do pure ((← evalS P x e) - c)
  | .rsubC c e => do pure (c - (← evalS P x e))
  | .mulE e₁ e₂ => do pure ((← evalS P x e₁) * (← evalS P x e₂))
  | .mulC e c => do pure ((← evalS P x e) * c)
  | .divE e₁ e₂ => do
      let a ← evalS P x e₁
      let b ← evalS P x e₂
      if b = 0 then .error .zeroDivErr else pure (a / b)
  | .divC e c => do
      let a ← evalS P x e
      if c = 0 then .error .zeroDivErr else pure (a / c)
  | .rdivC c e => do
      let a ← evalS P x e
      if a = 0 then .error .zeroDivErr else pure (c / a)
  | .powE e₁ e₂ => do pure (P.pow (← evalS P x e₁) (← evalS P x e₂))
  | .powC e c => do pure (P.pow (← evalS P x e) c)
  | .rpowC c e => do pure (P.pow c (← evalS P x e))
  | .un u e => do sUnary P u (← evalS P x e)

/-- Evaluate a body over `rNode` inputs: replay every operator's graph
branch, threading the graph state; input `i` is the node at arena index
`i`. -/
def buildG (P : Prim α) : Expr n α → GState α → Except PyErr (GState α × Nat)
  | .var i, st => .ok (st, i.val)
  | .addE e₁ e₂, st => do
      let (st, r₁) ← buildG P e₁ st
      let (st, r₂) ← buildG P e₂ st
      pure (rnAdd st r₁ (.inr r₂))
  | .addC e c, st => do
      let (st, r) ← buildG P e st
      pure (rnAdd st r (.inl c))
  | .subE e₁ e₂, st => do
      let (st, r₁) ← buildG P e₁ st
      let (st, r₂) ← buildG P e₂ st
      pure (rnSub st r₁ (.inr r₂))
  | .subC e c, st => do
      let (st, r) ← buildG P e st
      pure (rnSub st r (.inl c))
  | .rsubC c e, st => do
      let (st, r) ← buildG P e st
      pure (rnRsub st r c)
  | .mulE e₁ e₂, st => do
      let (st, r₁) ← buildG P e₁ st
      let (st, r₂) ← buildG P e₂ st
      pure (rnMul st r₁ (.inr r₂))
  | .mulC e c, st => do
      let (st, r) ← buildG P e st
      pure (rnMul st r (.inl c))
  | .divE e₁ e₂, st => do
      let (st, r₁) ← buildG P e₁ st
      let (st, r₂) ← buildG P e₂ st
      rnDiv st r₁ (.inr r₂)
  | .divC e c, st => do
      let (st, r) ← buildG P e st
      rnDiv st r (.inl c)
  | .rdivC c e, st => do
      let (st, r) ← buildG P e st
      rnRdiv st r c
  | .powE e₁ e₂, st => do
      let (st, r₁) ← buildG P e₁ st
      let (st, r₂) ← buildG P e₂ st
      pure (rnPow P st r₁ (.inr r₂))
  | .powC e c, st => do
      let (st, r) ← buildG P e st
      pure (rnPow P st r (.inl c))
  | .rpowC c e, st => do
      let (st, r) ← buildG P e st
      pure (rnRpow P st r c)
  | .un u e, st => do
      let (st, r) ← buildG P e st
      rnUnary P u st r

end Evaluators

/-! ## The Function Orchestrator (func.py) -/

/-- The wrapped user function's body: a Python function returning either a
single expression (`.one`) or a tuple/list of expressions (`.many`), which
is what the `isinstance(res, DualNumber)` / `isinstance(res, rNode)`
dispatch in func.py distinguishes. -/
inductive FBody (n : Nat) (α : Type) where
  | one : Expr n α → FBody n α
  | many : List (Expr n α) → FBody n α

/-- A Python argument that is either a bare number or a sequence
(`list`/`np.ndarray`). -/
inductive PyArg (α : Type) where
  | num : α → PyArg α
  | seq : List α → PyArg α

/-- `if isinstance(point, (int, float)): point = [point]`. -/
def PyArg.toList : PyArg α → List α
  | .num c => [c]
  | .seq l => l

/-- The value `Func.__call__` returns: the function's raw result when
`num_outputs == 1` (a bare scalar or, on an arity mismatch, the raw tuple),
or the `np.array(...)` of the result otherwise (a 0-d array when the
function actually returned a scalar). -/
inductive CallRet (α : Type) where
  | raw : α → CallRet α
  | rawSeq : List α → CallRet α
  | arr : List α → CallRet α
  | arr0d : α → CallRet α
  deriving DecidableEq, Repr

section FuncModel

variable [LinearOrderedField α] {n : Nat}

/-- The start of `Func._reverse`: `rNode.increment = 0`, then wrap every
input coordinate in a fresh leaf node, in input order. -/
def reverseInit (point : List α) : GState α :=
  point.foldl (fun st p => (mkLeaf st p).1) ⟨0, []⟩

/-- `res = self.func(*zs)` over `rNode`s: build every output expression in
order, collecting the output root indices. -/
def buildBody (P : Prim α) (body : FBody n α) (st : GState α) :
    Except PyErr (GState α × List Nat) :=
  match body with
  | .one e => do
      let (st, r) ← buildG P e st
      pure (st, [r])
  | .many es =>
      es.foldlM (fun acc e => do
        let (st, r) ← buildG P e acc.1
        pure (st, acc.2 ++ [r])) (st, [])

/-- `Func._reverse` for a function with declared output arity `m`: reset the
counter, create the input leaves, evaluate the body once, assert the output
arity, then run one backward pass per output (threading the shared graph),
collecting `(values, jacobian rows)`. -/
def reverseRun (P : Prim α) (m : Nat) (body : FBody n α) (x : Fin n → α) :
    Except PyErr (List α × List (List α)) :=
  let st := reverseInit (List.ofFn x)
  match body with
  | .one e => do
      let (st, r) ← buildG P e st
      if 1 = m then do
        let (row, _) ← backward P n r st
        pure ([getVal st r], [row])
      else .error .assertErr
  | .many es => do
      let (st, rs) ← buildBody P (.many es) st
      if es.length = m then do
        let (rows, _) ← rs.foldlM (fun acc r => do
              let (row, st') ← backward P n r acc.2
              pure (acc.1 ++ [row], st')) (([] : List (List α)), st)
        pure (rs.map (getVal st), rows)
      else .error .assertErr

/-- The dual-number seed for Jacobian column `i`: `identity[:, i]`. -/
def seedDuals (x : Fin n → α) (i : Fin n) : Fin n → Dual α :=
  fun j => ⟨x j, if j = i then 1 else 0⟩

/-- The body of the `_forward` loop for one input index: evaluate over the
seeded duals, assert the output arity, return `(values, jacobian column)`.
`Func.trace` performs the same evaluation with its caller-supplied seeds. -/
def forwardCol (P : Prim α) (m : Nat) (body : FBody n α)
    (input : Fin n → Dual α) : Except PyErr (List α × List α) :=
  match body with
  | .one e => do
      let d ← evalD P input e
      if 1 = m then pure ([d.real], [d.dual]) else .error .assertErr
  | .many es => do
      let ds ← es.mapM (evalD P input)
      if ds.length = m then pure (ds.map Dual.real, ds.map Dual.dual)
      else .error .assertErr

/-- `Func._forward`: one seeded evaluation per input index, assembling the
value vector (overwritten each iteration) and the Jacobian as its list of
columns. -/
def forwardRun (P : Prim α) (m : Nat) (body : FBody n α) (x : Fin n → α) :
    Except PyErr (List α × List (List α)) :=
  (List.finRange n).foldlM (fun acc i => do
      let (vals, col) ← forwardCol P m body (seedDuals x i)
      pure (vals, acc.2 ++ [col]))
    (List.replicate m 0, ([] : List (List α)))

/-- `Func.trace(point, seed_vector)`: promote a bare-number `point` to a
one-element list; `seed_vector` must already be a sequence (a bare number
fails the `isinstance` assertion); check `len(point) == num_inputs` and then
`len(point) == len(seed_vector)`; only then do the numeric work of seeding
`DualNumber`s and evaluating the function. -/
def traceRun (P : Prim α) (m : Nat) (body : FBody n α)
    (point seedArg : PyArg α) : Except PyErr (List α × List α) :=
  let pointL := point.toList
  match seedArg with
  | .num _ => .error .assertErr
  | .seq seed =>
      if pointL.length ≠ n then .error .dimPointErr else
      if pointL.length ≠ seed.length then .error .dimSeedErr else
      forwardCol P m body (fun j => ⟨pointL.getD j 0, seed.getD j 0⟩)

/-- `Func.__call__`: promote a bare-number point, check its length, evaluate
the wrapped function over plain scalars, and return the raw result when
`num_outputs == 1` or `np.array(result)` otherwise — with no check that the
result's arity matches `num_outputs`. -/
def callRun (P : Prim α) (m : Nat) (body : FBody n α) (point : PyArg α) :
    Except PyErr (CallRet α) :=
  let pointL := point.toList
  if pointL.length ≠ n then .error .dimPointErr else
  match body with
  | .one e => do
      let v ← evalS P (fun j => pointL.getD j 0) e
      if m = 1 then pure (.raw v) else pure (.arr0d v)
  | .many es => do
      let vs ← es.mapM (evalS P (fun j => pointL.getD j 0))
      if m = 1 then pure (.rawSeq vs) else pure (.arr vs)

/-- `build(node)` of `rNode.graph_object`: collect the reachable nodes and
the `(parent, child)` edges (sets modelled as accumulation lists);
`for parent in node.parents: edges.add((parent, node)); build(parent)`. -/
def gobjVisit (st : GState α) : Nat → Nat → List Nat × List (Nat × Nat) →
    List Nat × List (Nat × Nat)
  | 0, _, acc => acc
  | fuel + 1, node, acc =>
    if node ∈ acc.1 then acc
    else (parentsOf st node).foldl
      (fun a p => gobjVisit st fuel p (a.1, (p, node) :: a.2))
      (node :: acc.1, acc.2)

/-- `rNode.graph_object`. -/
def graphObject (st : GState α) (root : Nat) : List Nat × List (Nat × Nat) :=
  gobjVisit st (root + 1) root ([], [])

/-- `Func.graph(point, ...)`: assert `num_outputs == 1`, validate the point,
wrap the coordinates in fresh leaf nodes — *without* resetting
`rNode.increment`, whose inherited value is the parameter `inc0` — evaluate
the body once, assert the result is a single node, and extract the node/edge
set (the rendering itself is the external collaborator's job).  The final
graph state is returned alongside for inspection. -/
def graphRun (P : Prim α) (m : Nat) (body : FBody n α) (point : PyArg α)
    (inc0 : Nat) :
    Except PyErr (GState α × Nat × (List Nat × List (Nat × Nat))) :=
  if m ≠ 1 then .error .assertErr else
  let pointL := point.toList
  if pointL.length ≠ n then .error .dimPointErr else
  let st := pointL.foldl (fun st p => (mkLeaf st p).1) ⟨inc0, []⟩
  match body with
  | .one e => do
      let (st, r) ← buildG P e st
      pure (st, r, graphObject st r)
  | .many _ => .error .assertErr

end FuncModel

/-! ## Concrete witness instances -/

/-- A concrete computable primitive table over `ℚ` (all transcendental
primitives constantly `0`), used to evaluate witnesses on concrete inputs;
the theorems below never rely on properties of these functions unless
explicitly hypothesised. -/
def qPrim : Prim ℚ where
  sin := fun _ => 0
  cos := fun _ => 0
  tan := fun _ => 0
  exp := fun _ => 0
  log := fun _ => 0
  arcsin := fun _ => 0
  arccos := fun _ => 0
  arctan := fun _ => 0
  sinh := fun _ => 0
  cosh := fun _ => 0
  tanh := fun _ => 0
  sqrt := fun _ => 0
  pow := fun _ _ => 0

section Claims

variable [LinearOrderedField α]

/-- **C8**: for dual numbers `z = (a, a′)` and `w = (b, b′)` with `a > 0`,
`z ** w` returns the dual number `(a^b, a^b * (b′ * ln(a) + a′ * b / a))`. -/
theorem C8_dual_pow_dual (P : Prim α) (z w : Dual α) (h : 0 < z.real) :
    dPow P z (.inr w) =
      .ok ⟨P.pow z.real w.real,
           P.pow z.real w.real *
             (w.dual * P.log z.real + z.dual * w.real / z.real)⟩ := by
  simp [dPow, ne_of_gt h]

/-- Witness for C8 at the concrete input `z = (2, 5)`, `w = (3, 7)`. -/
theorem C8_witness :
    (0 : ℚ) < 2 ∧
      dPow qPrim ⟨2, 5⟩ (.inr ⟨3, 7⟩) =
        .ok ⟨qPrim.pow 2 3,
             qPrim.pow 2 3 * (7 * qPrim.log 2 + 5 * 3 / 2)⟩ :=
  ⟨by norm_num, C8_dual_pow_dual qPrim ⟨2, 5⟩ ⟨3, 7⟩ (by norm_num)⟩

/-! ### C6: domain errors in the operator library -/

theorem sUnary_err_iff (P : Prim α) (u : UOp α) (x : α) :
    sUnary P u x = .error .domainErr ↔ uDomErr u x := by
  unfold sUnary
  split_ifs with h <;> simp [h]

theorem sUnary_ok (P : Prim α) (u : UOp α) (x : α) (h : ¬ uDomErr u x) :
    sUnary P u x = .ok (opVal P u x) := by
  unfold sUnary
  simp [h]

theorem rnUnary_err_iff (P : Prim α) (u : UOp α) (st : GState α) (i : Nat) :
    rnUnary P u st i = .error .domainErr ↔ uDomErr u (getVal st i) := by
  unfold rnUnary
  split_ifs with h <;> simp [h]

theorem rnUnary_ok (P : Prim α) (u : UOp α) (st : GState α) (i : Nat)
    (h : ¬ uDomErr u (getVal st i)) :
    rnUnary P u st i =
      .ok (mkNode st (opVal P u (getVal st i)) [i] (uOperStr u)
            (.unary u i st.nodes.length)) := by
  unfold rnUnary
  simp [h]

theorem dUnary_err_iff (P : Prim α) (u : UOp α) (z : Dual α) :
    dUnary P u z = .error .domainErr ↔ uDomErr u z.real := by
  unfold dUnary
  split_ifs with h <;> simp [h]
  cases u <;> simp [dUnaryDual, Except.bind] <;> split_ifs <;> simp

/-- **C6**: for every supported representation (plain scalar, dual number,
graph node), `log` and `log_base` raise a `DomainError` (a `ValueError`)
iff the argument's real value is `≤ 0`, `arcsin` and `arccos` iff it lies
outside `[-1, 1]`, and `sqrt` iff it is `< 0`; otherwise each returns
normally. -/
theorem C6_domain_errors (P : Prim α) :
    (∀ x : α, (sUnary P .log x = .error .domainErr ↔ x ≤ 0) ∧
      (¬ x ≤ 0 → sUnary P .log x = .ok (P.log x))) ∧
    (∀ z : Dual α, (dUnary P .log z = .error .domainErr ↔ z.real ≤ 0) ∧
      (¬ z.real ≤ 0 → dUnary P .log z = .ok ⟨P.log z.real, z.dual / z.real⟩)) ∧
    (∀ (st : GState α) (i : Nat),
      (rnUnary P .log st i = .error .domainErr ↔ getVal st i ≤ 0) ∧
      (¬ getVal st i ≤ 0 → ∃ out, rnUnary P .log st i = .ok out)) ∧
    (∀ b x : α, (sUnary P (.logBase b) x = .error .domainErr ↔ x ≤ 0) ∧
      (¬ x ≤ 0 → sUnary P (.logBase b) x = .ok (P.log x / P.log b))) ∧
    (∀ (b : α) (z : Dual α),
      (dUnary P (.logBase b) z = .error .domainErr ↔ z.real ≤ 0) ∧
      (¬ z.real ≤ 0 → dUnary P (.logBase b) z =
        .ok ⟨P.log z.real / P.log b, z.dual / (P.log b * z.real)⟩)) ∧
    (∀ (b : α) (st : GState α) (i : Nat),
      (rnUnary P (.logBase b) st i = .error .domainErr ↔ getVal st i ≤ 0) ∧
      (¬ getVal st i ≤ 0 → ∃ out, rnUnary P (.logBase b) st i = .ok out)) ∧
    (∀ x : α, (sUnary P .arcsin x = .error .domainErr ↔ (x < -1 ∨ 1 < x)) ∧
      ((¬ x < -1) → (¬ 1 < x) → sUnary P .arcsin x = .ok (P.arcsin x))) ∧
    (∀ z : Dual α,
      (dUnary P .arcsin z = .error .domainErr ↔ (z.real < -1 ∨ 1 < z.real)) ∧
      ((¬ z.real < -1) → (¬ 1 < z.real) → dUnary P .arcsin z =
        .ok ⟨P.arcsin z.real, z.dual / P.sqrt (1 - P.pow z.real 2)⟩)) ∧
    (∀ (st : GState α) (i : Nat),
      (rnUnary P .arcsin st i = .error .domainErr ↔
        (getVal st i < -1 ∨ 1 < getVal st i)) ∧
      ((¬ getVal st i < -1) → (¬ 1 < getVal st i) →
        ∃ out, rnUnary P .arcsin st i = .ok out)) ∧
    (∀ x : α, (sUnary P .arccos x = .error .domainErr ↔ (x < -1 ∨ 1 < x)) ∧
      ((¬ x < -1) → (¬ 1 < x) → sUnary P .arccos x = .ok (P.arccos x))) ∧
    (∀ z : Dual α,
      (dUnary P .arccos z = .error .domainErr ↔ (z.real < -1 ∨ 1 < z.real)) ∧
      ((¬ z.real < -1) → (¬ 1 < z.real) → dUnary P .arccos z =
        .ok ⟨P.arccos z.real, -z.dual / P.sqrt (1 - P.pow z.real 2)⟩)) ∧
    (∀ (st : GState α) (i : Nat),
      (rnUnary P .arccos st i = .error .domainErr ↔
        (getVal st i < -1 ∨ 1 < getVal st i)) ∧
      ((¬ getVal st i < -1) → (¬ 1 < getVal st i) →
        ∃ out, rnUnary P .arccos st i = .ok out)) ∧
    (∀ x : α, (sUnary P .sqrt x = .error .domainErr ↔ x < 0) ∧
      (¬ x < 0 → sUnary P .sqrt x = .ok (P.sqrt x))) ∧
    (∀ z : Dual α, (dUnary P .sqrt z = .error .domainErr ↔ z.real < 0) ∧
      (¬ z.real < 0 → dUnary P .sqrt z =
        .ok ⟨P.sqrt z.real, z.dual / (2 * P.sqrt z.real)⟩)) ∧
    (∀ (st : GState α) (i : Nat),
      (rnUnary P .sqrt st i = .error .domainErr ↔ getVal st i < 0) ∧
      (¬ getVal st i < 0 → ∃ out, rnUnary P .sqrt st i = .ok out)) := by
  refine ⟨fun x => ⟨?_, fun h => ?_⟩, fun z => ⟨?_, fun h => ?_⟩,
    fun st i => ⟨?_, fun h => ⟨_, rnUnary_ok P _ st i (by simp [uDomErr, h])⟩⟩,
    fun b x => ⟨?_, fun h => ?_⟩, fun b z => ⟨?_, fun h => ?_⟩,
    fun b st i => ⟨?_, fun h => ⟨_, rnUnary_ok P _ st i (by simp [uDomErr, h])⟩⟩,
    fun x => ⟨?_, fun h₁ h₂ => ?_⟩, fun z => ⟨?_, fun h₁ h₂ => ?_⟩,
    fun st i => ⟨?_, fun h₁ h₂ =>
      ⟨_, rnUnary_ok P _ st i (by simp [uDomErr, h₁, h₂])⟩⟩,
    fun x => ⟨?_, fun h₁ h₂ => ?_⟩, fun z => ⟨?_, fun h₁ h₂ => ?_⟩,
    fun st i => ⟨?_, fun h₁ h₂ =>
      ⟨_, rnUnary_ok P _ st i (by simp [uDomErr, h₁, h₂])⟩⟩,
    fun x => ⟨?_, fun h => ?_⟩, fun z => ⟨?_, fun h => ?_⟩,
    fun st i => ⟨?_, fun h => ⟨_, rnUnary_ok P _ st i (by simp [uDomErr, h])⟩⟩⟩
  all_goals
    first
    | (rw [sUnary_err_iff]; simp [uDomErr])
    | (rw [dUnary_err_iff]; simp [uDomErr])
    | (rw [rnUnary_err_iff]; simp [uDomErr])
    | (rw [sUnary_ok P _ _ (by simp [uDomErr, *])]; simp [opVal])
    | (unfold dUnary dUnaryDual;
       simp [uDomErr, opVal, *, Except.bind];
       try simp [ne_of_gt (lt_of_not_le (by assumption) : (0:α) < _)])

/-- Witness for C6 at concrete inputs (the spec's Scenario 4 plus
normal returns): `log(-5)`, `sqrt(-1)` and `arcsin(2)` raise the domain
`ValueError`, while `log(5)` evaluates normally. -/
theorem C6_witness :
    sUnary qPrim .log (-5 : ℚ) = .error .domainErr ∧
    sUnary qPrim .sqrt (-1 : ℚ) = .error .domainErr ∧
    sUnary qPrim .arcsin (2 : ℚ) = .error .domainErr ∧
    sUnary qPrim .log (5 : ℚ) = .ok (qPrim.log 5) :=
  ⟨((C6_domain_errors qPrim).1 (-5)).1.mpr (by norm_num),
   ((C6_domain_errors qPrim).2.2.2.2.2.2.2.2.2.2.2.2.1 (-1)).1.mpr
     (by norm_num),
   ((C6_domain_errors qPrim).2.2.2.2.2.2.1 2).1.mpr (by norm_num),
   ((C6_domain_errors qPrim).1 5).2 (by norm_num)⟩

/-! ### C7: validation in `Func.trace` -/

theorem bindOk {β γ : Type} (a : β) (f : β → Except PyErr γ) :
    (Except.ok a >>= f) = f a := rfl

theorem bindErr {β γ : Type} (ε : PyErr) (f : β → Except PyErr γ) :
    (Except.error ε >>= f : Except PyErr γ) = Except.error ε := rfl

theorem pureBind {β γ : Type} (a : β) (f : β → Except PyErr γ) :
    ((pure a : Except PyErr β) >>= f) = f a := rfl

instance {ε β : Type} [DecidableEq ε] [DecidableEq β] :
    DecidableEq (Except ε β) := fun a b =>
  match a, b with
  | .error e₁, .error e₂ =>
      if h : e₁ = e₂ then .isTrue (by rw [h]) else .isFalse (by simp [h])
  | .error _, .ok _ => .isFalse (by simp)
  | .ok _, .error _ => .isFalse (by simp)
  | .ok a₁, .ok a₂ =>
      if h : a₁ = a₂ then .isTrue (by rw [h]) else .isFalse (by simp [h])

theorem dDiv_err (P : Prim α) (z : Dual α) (o : Operand (Dual α) α)
    (err : PyErr) (h : dDiv P z o = .error err) : err = .zeroDivErr := by
  cases o <;> simp only [dDiv] at h <;> split_ifs at h <;> simp_all

theorem dRdiv_err (P : Prim α) (c : α) (z : Dual α) (err : PyErr)
    (h : dRdiv P c z = .error err) : err = .zeroDivErr := by
  unfold dRdiv at h
  split_ifs at h <;> simp_all

theorem dPow_err (P : Prim α) (z : Dual α) (o : Operand (Dual α) α)
    (err : PyErr) (h : dPow P z o = .error err) : err = .zeroDivErr := by
  cases o <;> simp only [dPow] at h <;> (try split_ifs at h) <;> simp_all

theorem dUnary_err (P : Prim α) (u : UOp α) (z : Dual α) (err : PyErr)
    (h : dUnary P u z = .error err) :
    err = .domainErr ∨ err = .zeroDivErr := by
  unfold dUnary at h
  split_ifs at h with hd
  · simp_all
  · cases u <;> simp only [dUnaryDual] at h <;>
      (try split_ifs at h) <;> simp_all [bindOk, bindErr, pure, Except.pure]

/-- The forward-mode evaluator can fail only with a domain `ValueError` or a
`ZeroDivisionError` — never with a dimension error. -/
theorem evalD_err {n : Nat} (P : Prim α) (input : Fin n → Dual α) :
    ∀ (e : Expr n α) (err : PyErr), evalD P input e = .error err →
      err = .domainErr ∨ err = .zeroDivErr := by
  intro e
  induction e with
  | var i => intro err h; simp [evalD] at h
  | un u e ih =>
      intro err h
      simp only [evalD] at h
      cases h₁ : evalD P input e with
      | error ε => rw [h₁, bindErr] at h; injection h with h; exact h ▸ ih _ h₁
      | ok z => rw [h₁, bindOk] at h; exact dUnary_err P u z err h
  | addE e₁ e₂ ih₁ ih₂ =>
      intro err h
      simp only [evalD] at h
      cases h₁ : evalD P input e₁ with
      | error ε => rw [h₁, bindErr] at h; injection h with h; exact h ▸ ih₁ _ h₁
      | ok z =>
          rw [h₁, bindOk] at h
          cases h₂ : evalD P input e₂ with
          | error ε =>
              rw [h₂, bindErr] at h; injection h with h; exact h ▸ ih₂ _ h₂
          | ok w => rw [h₂, bindOk] at h; simp [pure, Except.pure] at h
  | subE e₁ e₂ ih₁ ih₂ =>
      intro err h
      simp only [evalD] at h
      cases h₁ : evalD P input e₁ with
      | error ε => rw [h₁, bindErr] at h; injection h with h; exact h ▸ ih₁ _ h₁
      | ok z =>
          rw [h₁, bindOk] at h
          cases h₂ : evalD P input e₂ with
          | error ε =>
              rw [h₂, bindErr] at h; injection h with h; exact h ▸ ih₂ _ h₂
          | ok w => rw [h₂, bindOk] at h; simp [pure, Except.pure] at h
  | mulE e₁ e₂ ih₁ ih₂ =>
      intro err h
      simp only [evalD] at h
      cases h₁ : evalD P input e₁ with
      | error ε => rw [h₁, bindErr] at h; injection h with h; exact h ▸ ih₁ _ h₁
      | ok z =>
          rw [h₁, bindOk] at h
          cases h₂ : evalD P input e₂ with
          | error ε =>
              rw [h₂, bindErr] at h; injection h with h; exact h ▸ ih₂ _ h₂
          | ok w => rw [h₂, bindOk] at h; simp [pure, Except.pure] at h
  | divE e₁ e₂ ih₁ ih₂ =>
      intro err h
      simp only [evalD] at h
      cases h₁ : evalD P input e₁ with
      | error ε => rw [h₁, bindErr] at h; injection h with h; exact h ▸ ih₁ _ h₁
      | ok z =>
          rw [h₁, bindOk] at h
          cases h₂ : evalD P input e₂ with
          | error ε =>
              rw [h₂, bindErr] at h; injection h with h; exact h ▸ ih₂ _ h₂
          | ok w => rw [h₂, bindOk] at h; exact .inr (dDiv_err P z _ err h)
  | powE e₁ e₂ ih₁ ih₂ =>
      intro err h
      simp only [evalD] at h
      cases h₁ : evalD P input e₁ with
      | error ε => rw [h₁, bindErr] at h; injection h with h; exact h ▸ ih₁ _ h₁
      | ok z =>
          rw [h₁, bindOk] at h
          cases h₂ : evalD P input e₂ with
          | error ε =>
              rw [h₂, bindErr] at h; injection h with h; exact h ▸ ih₂ _ h₂
          | ok w => rw [h₂, bindOk] at h; exact .inr (dPow_err P z _ err h)
  | addC e c ih =>
      intro err h
      simp only [evalD] at h
      cases h₁ : evalD P input e with
      | error ε => rw [h₁, bindErr] at h; injection h with h; exact h ▸ ih _ h₁
      | ok z => rw [h₁, bindOk] at h; simp [pure, Except.pure] at h
  | subC e c ih =>
      intro err h
      simp only [evalD] at h
      cases h₁ : evalD P input e with
      | error ε => rw [h₁, bindErr] at h; injection h with h; exact h ▸ ih _ h₁
      | ok z => rw [h₁, bindOk] at h; simp [pure, Except.pure] at h
  | rsubC c e ih =>
      intro err h
      simp only [evalD] at h
      cases h₁ : evalD P input e with
      | error ε => rw [h₁, bindErr] at h; injection h with h; exact h ▸ ih _ h₁
      | ok z => rw [h₁, bindOk] at h; simp [pure, Except.pure] at h
  | mulC e c ih =>
      intro err h
      simp only [evalD] at h
      cases h₁ : evalD P input e with
      | error ε => rw [h₁, bindErr] at h; injection h with h; exact h ▸ ih _ h₁
      | ok z => rw [h₁, bindOk] at h; simp [pure, Except.pure] at h
  | divC e c ih =>
      intro err h
      simp only [evalD] at h
      cases h₁ : evalD P input e with
      | error ε => rw [h₁, bindErr] at h; injection h with h; exact h ▸ ih _ h₁
      | ok z => rw [h₁, bindOk] at h; exact .inr (dDiv_err P z _ err h)
  | rdivC c e ih =>
      intro err h
      simp only [evalD] at h
      cases h₁ : evalD P input e with
      | error ε => rw [h₁, bindErr] at h; injection h with h; exact h ▸ ih _ h₁
      | ok z => rw [h₁, bindOk] at h; exact .inr (dRdiv_err P c z err h)
  | powC e c ih =>
      intro err h
      simp only [evalD] at h
      cases h₁ : evalD P input e with
      | error ε => rw [h₁, bindErr] at h; injection h with h; exact h ▸ ih _ h₁
      | ok z => rw [h₁, bindOk] at h; exact .inr (dPow_err P z _ err h)
  | rpowC c e ih =>
      intro err h
      simp only [evalD] at h
      cases h₁ : evalD P input e with
      | error ε => rw [h₁, bindErr] at h; injection h with h; exact h ▸ ih _ h₁
      | ok z => rw [h₁, bindOk] at h; simp [pure, Except.pure] at h

theorem mapM_evalD_err {n : Nat} (P : Prim α) (input : Fin n → Dual α) :
    ∀ (es : List (Expr n α)) (err : PyErr),
      es.mapM (evalD P input) = .error err →
      err = .domainErr ∨ err = .zeroDivErr := by
  intro es
  induction es with
  | nil => intro err h; simp [List.mapM, List.mapM.loop, pure, Except.pure] at h
  | cons e es ih =>
      intro err h
      rw [List.mapM_cons] at h
      cases h₁ : evalD P input e with
      | error ε => rw [h₁, bindErr] at h; injection h with h; exact h ▸ evalD_err P input e _ h₁
      | ok z =>
          rw [h₁, bindOk] at h
          cases h₂ : es.mapM (evalD P input) with
          | error ε => rw [h₂, bindErr] at h; injection h with h; exact h ▸ ih _ h₂
          | ok zs => rw [h₂, bindOk] at h; simp [pure, Except.pure] at h

/-- The shared evaluation step of `_forward` and `trace` can fail only with
a domain error, a zero-division error, or the output-arity assertion. -/
theorem forwardCol_err {n : Nat} (P : Prim α) (m : Nat) (body : FBody n α)
    (input : Fin n → Dual α) (err : PyErr)
    (h : forwardCol P m body input = .error err) :
    err = .domainErr ∨ err = .zeroDivErr ∨ err = .assertErr := by
  cases body with
  | one e =>
      simp only [forwardCol] at h
      cases h₁ : evalD P input e with
      | error ε =>
          rw [h₁, bindErr] at h; injection h with h
          rcases h ▸ evalD_err P input e _ h₁ with h' | h'
          · exact .inl h'
          · exact .inr (.inl h')
      | ok d =>
          rw [h₁, bindOk] at h
          split_ifs at h <;> simp_all [pure, Except.pure]
  | many es =>
      simp only [forwardCol] at h
      cases h₁ : es.mapM (evalD P input) with
      | error ε =>
          rw [h₁, bindErr] at h; injection h with h
          rcases h ▸ mapM_evalD_err P input es _ h₁ with h' | h'
          · exact .inl h'
          · exact .inr (.inl h')
      | ok ds =>
          rw [h₁, bindOk] at h
          split_ifs at h <;> simp_all [pure, Except.pure]

/-- **C7 (amended)**: `trace` promotes a bare-number `point` to a one-element
sequence, but a bare-number `direction` is *not* promoted — it is rejected
with an assertion error; given a valid point, `trace` fails with the
dimension `ValueError` exactly when the direction's length differs from
`num_inputs`, and this happens before any numeric work (for every function
body, including ones whose evaluation would itself fail). -/
theorem C7_trace_validation {n : Nat} (P : Prim α) (m : Nat)
    (body : FBody n α) :
    (∀ (c : α) (seedArg : PyArg α),
      traceRun P m body (.num c) seedArg =
        traceRun P m body (.seq [c]) seedArg) ∧
    (∀ (point : PyArg α) (c : α),
      traceRun P m body point (.num c) = .error .assertErr) ∧
    (∀ (point : PyArg α) (seed : List α), point.toList.length = n →
      (seed.length ≠ n →
        traceRun P m body point (.seq seed) = .error .dimSeedErr) ∧
      (seed.length = n → ∀ err,
        traceRun P m body point (.seq seed) = .error err →
        err ≠ .dimSeedErr ∧ err ≠ .dimPointErr)) := by
  refine ⟨fun c seedArg => rfl, fun point c => rfl,
    fun point seed hp => ⟨fun hs => ?_, fun hs err herr => ?_⟩⟩
  · simp only [traceRun, hp]
    rw [if_neg (by simp), if_pos (by omega)]
  · simp only [traceRun, hp] at herr
    rw [if_neg (by simp), if_neg (by omega)] at herr
    rcases forwardCol_err P m body _ err herr with h | h | h <;>
      simp [h]

/-- Counterexample to C7 as stated: at the concrete call
`trace([3], 1)` on the identity function of one input, a bare-number
direction is *not* promoted to `[1]` — the call fails with an
`AssertionError` — whereas the already-promoted call `trace([3], [1])`
succeeds. -/
theorem C7_counterexample :
    traceRun qPrim 1 (.one (.var (0 : Fin 1))) (.seq [(3 : ℚ)]) (.num 1) =
      .error .assertErr ∧
    traceRun qPrim 1 (.one (.var (0 : Fin 1))) (.seq [(3 : ℚ)]) (.seq [1]) =
      .ok ([3], [1]) := by
  constructor <;> rfl

/-- Witness for the amended C7: the bare-number direction is rejected, and a
length-2 direction against a length-1 input fails with the dimension
`ValueError`. -/
theorem C7_witness :
    traceRun qPrim 1 (.one (.var (0 : Fin 1))) (.seq [(5 : ℚ)]) (.num 2) =
      .error .assertErr ∧
    traceRun qPrim 1 (.one (.var (0 : Fin 1))) (.seq [(5 : ℚ)])
      (.seq [1, 2]) = .error .dimSeedErr :=
  ⟨(@C7_trace_validation ℚ _ 1 qPrim 1 (.one (.var 0))).2.1 (.seq [5]) 2,
   ((@C7_trace_validation ℚ _ 1 qPrim 1 (.one (.var 0))).2.2 (.seq [(5 : ℚ)])
       [1, 2] rfl).1 (by decide)⟩

/-! ### C10: `Func.__call__` performs no output-arity check -/

theorem mapM_ok_length {β γ : Type} (f : β → Except PyErr γ) :
    ∀ (l : List β) (out : List γ), l.mapM f = .ok out →
      out.length = l.length := by
  intro l
  induction l with
  | nil =>
      intro out h
      simp [List.mapM, List.mapM.loop, pure, Except.pure] at h
      simp [← h]
  | cons b l ih =>
      intro out h
      rw [List.mapM_cons] at h
      cases h₁ : f b with
      | error ε => rw [h₁, bindErr] at h; cases h
      | ok c =>
          rw [h₁, bindOk] at h
          cases h₂ : l.mapM f with
          | error ε => rw [h₂, bindErr] at h; cases h
          | ok cs =>
              rw [h₂, bindOk] at h
              simp only [pure, Except.pure, Except.ok.injEq] at h
              simp [← h, ih cs h₂]

/-- **C10**: plain evaluation via `Func.__call__` performs no check that the
wrapped function's returned arity matches the declared `num_outputs`: with
`num_outputs == 1` it returns the raw result whatever its arity, and
otherwise wraps the result in an array (a 0-d array for a scalar result) —
while the same arity mismatches are fatal assertion errors in the
forward-mode Jacobian path and in `trace`. -/
theorem C10_call_no_arity_check {n : Nat} (P : Prim α) (m : Nat)
    (es : List (Expr n α)) (e : Expr n α) (pl : List α)
    (hlen : pl.length = n) (hn : 0 < n) :
    (∀ v, evalS P (fun j => pl.getD j 0) e = .ok v →
      callRun P 1 (.one e) (.seq pl) = .ok (.raw v)) ∧
    (∀ vs, es.mapM (evalS P (fun j => pl.getD j 0)) = .ok vs →
      callRun P 1 (.many es) (.seq pl) = .ok (.rawSeq vs)) ∧
    (∀ v, evalS P (fun j => pl.getD j 0) e = .ok v → m ≠ 1 →
      callRun P m (.one e) (.seq pl) = .ok (.arr0d v)) ∧
    (∀ vs, es.mapM (evalS P (fun j => pl.getD j 0)) = .ok vs → m ≠ 1 →
      callRun P m (.many es) (.seq pl) = .ok (.arr vs)) ∧
    (∀ ds, es.mapM
        (evalD P (seedDuals (fun j => pl.getD j 0) ⟨0, hn⟩)) = .ok ds →
      es.length ≠ 1 →
      forwardRun P 1 (.many es) (fun j => pl.getD j 0) =
        .error .assertErr) ∧
    (∀ d, evalD P (seedDuals (fun j => pl.getD j 0) ⟨0, hn⟩) e = .ok d →
      m ≠ 1 →
      forwardRun P m (.one e) (fun j => pl.getD j 0) =
        .error .assertErr) ∧
    (∀ (sl : List α) ds, sl.length = n →
      es.mapM (evalD P (fun j => ⟨pl.getD j 0, sl.getD j 0⟩)) = .ok ds →
      es.length ≠ 1 →
      traceRun P 1 (.many es) (.seq pl) (.seq sl) = .error .assertErr) := by
  obtain ⟨k, rfl⟩ : ∃ k, n = k + 1 :=
    ⟨n - 1, (Nat.succ_pred_eq_of_pos hn).symm⟩
  refine ⟨fun v hv => ?_, fun vs hvs => ?_, fun v hv hm => ?_,
    fun vs hvs hm => ?_, fun ds hds hne => ?_, fun d hd hm => ?_,
    fun sl ds hsl hds hne => ?_⟩
  · simp only [callRun, PyArg.toList]
    rw [if_neg (by simp [hlen]), hv, bindOk]
    simp [pure, Except.pure]
  · simp only [callRun, PyArg.toList]
    rw [if_neg (by simp [hlen]), hvs, bindOk]
    simp [pure, Except.pure]
  · simp only [callRun, PyArg.toList]
    rw [if_neg (by simp [hlen]), hv, bindOk]
    simp [hm, pure, Except.pure]
  · simp only [callRun, PyArg.toList]
    rw [if_neg (by simp [hlen]), hvs, bindOk]
    simp [hm, pure, Except.pure]
  · have hlen' := mapM_ok_length _ _ _ hds
    rw [forwardRun, List.finRange_succ_eq_map, List.foldlM_cons]
    have hcol : forwardCol P 1 (.many es)
        (seedDuals (fun j => pl.getD j 0) 0) = .error .assertErr := by
      rw [forwardCol, show (0 : Fin (k+1)) = ⟨0, hn⟩ from rfl, hds, bindOk,
        if_neg (by omega)]
    rw [hcol]
    exact bindErr _ _
  · rw [forwardRun, List.finRange_succ_eq_map, List.foldlM_cons]
    have hcol : forwardCol P m (.one e)
        (seedDuals (fun j => pl.getD j 0) 0) = .error .assertErr := by
      rw [forwardCol, show (0 : Fin (k+1)) = ⟨0, hn⟩ from rfl, hd, bindOk,
        if_neg (by omega)]
    rw [hcol]
    exact bindErr _ _
  · have hlen' := mapM_ok_length _ _ _ hds
    rw [traceRun]
    simp only [PyArg.toList]
    rw [if_neg (by simp [hlen]), if_neg (by simp [hlen, hsl]), forwardCol,
      hds, bindOk, if_neg (by omega)]

/-- Witness for C10 at the concrete mismatches: a function of one input
returning two values, declared with `num_outputs = 1` (and a scalar-valued
function declared with `num_outputs = 2`): `__call__` silently returns the
raw/wrapped result, while `_forward` and `trace` abort with the arity
assertion. -/
theorem C10_witness :
    callRun qPrim 1 (.many [.var (0 : Fin 1), .var 0]) (.seq [(2 : ℚ)]) =
      .ok (.rawSeq [2, 2]) ∧
    callRun qPrim 2 (.one (.var (0 : Fin 1))) (.seq [(2 : ℚ)]) =
      .ok (.arr0d 2) ∧
    forwardRun qPrim 1 (.many [.var (0 : Fin 1), .var 0])
      (fun j => [(2 : ℚ)].getD j 0) = .error .assertErr ∧
    traceRun qPrim 1 (.many [.var (0 : Fin 1), .var 0]) (.seq [(2 : ℚ)])
      (.seq [1]) = .error .assertErr :=
  ⟨(@C10_call_no_arity_check ℚ _ 1 qPrim 2 [.var 0, .var 0] (.var 0) [2]
      rfl (by omega)).2.1 [2, 2] rfl,
   (@C10_call_no_arity_check ℚ _ 1 qPrim 2 [.var 0, .var 0] (.var 0) [2]
      rfl (by omega)).2.2.1 2 rfl (by omega),
   (@C10_call_no_arity_check ℚ _ 1 qPrim 2 [.var 0, .var 0] (.var 0) [2]
      rfl (by omega)).2.2.2.2.1 [⟨2, 1⟩, ⟨2, 1⟩] rfl (by decide),
   (@C10_call_no_arity_check ℚ _ 1 qPrim 2 [.var 0, .var 0] (.var 0) [2]
      rfl (by omega)).2.2.2.2.2.2 [1] [⟨2, 1⟩, ⟨2, 1⟩] rfl rfl (by decide)⟩

end Claims

/-! ## State lemmas for the graph arena -/

section StateLemmas

variable [LinearOrderedField α]

theorem length_setDer (st : GState α) (i : Nat) (d : α) :
    (setDer st i d).nodes.length = st.nodes.length := by
  simp [setDer]

theorem setDer_oob (st : GState α) (i : Nat) (d : α)
    (h : st.nodes.length ≤ i) : setDer st i d = st := by
  cases st
  simp [setDer, List.set_eq_of_length_le h]

theorem getNode_setDer_self (st : GState α) (i : Nat) (d : α)
    (h : i < st.nodes.length) :
    getNode (setDer st i d) i = { getNode st i with der := d } := by
  simp [getNode, setDer, List.getD, List.getElem?_set, h]

theorem getNode_setDer_ne (st : GState α) (i j : Nat) (d : α) (h : j ≠ i) :
    getNode (setDer st i d) j = getNode st j := by
  simp only [getNode, setDer, List.getD, List.get?_eq_getElem?]
  rw [List.getElem?_set_ne (Ne.symm h)]

theorem getNode_oob (st : GState α) (i : Nat) (h : st.nodes.length ≤ i) :
    getNode st i = ⟨0, 0, 0, "", [], .none⟩ := by
  simp only [getNode]
  exact List.getD_eq_default _ _ h

theorem getVal_setDer (st : GState α) (i j : Nat) (d : α) :
    getVal (setDer st i d) j = getVal st j := by
  by_cases h : j = i
  · subst h
    by_cases hl : j < st.nodes.length
    · simp [getVal, getNode_setDer_self st j d hl]
    · rw [setDer_oob st j d (by omega)]
  · simp [getVal, getNode_setDer_ne st i j d h]

theorem nameOf_setDer (st : GState α) (i j : Nat) (d : α) :
    nameOf (setDer st i d) j = nameOf st j := by
  by_cases h : j = i
  · subst h
    by_cases hl : j < st.nodes.length
    · simp [nameOf, getNode_setDer_self st j d hl]
    · rw [setDer_oob st j d (by omega)]
  · simp [nameOf, getNode_setDer_ne st i j d h]

theorem parentsOf_setDer (st : GState α) (i j : Nat) (d : α) :
    parentsOf (setDer st i d) j = parentsOf st j := by
  by_cases h : j = i
  · subst h
    by_cases hl : j < st.nodes.length
    · simp [parentsOf, getNode_setDer_self st j d hl]
    · rw [setDer_oob st j d (by omega)]
  · simp [parentsOf, getNode_setDer_ne st i j d h]

theorem ruleOf_setDer (st : GState α) (i j : Nat) (d : α) :
    ruleOf (setDer st i d) j = ruleOf st j := by
  by_cases h : j = i
  · subst h
    by_cases hl : j < st.nodes.length
    · simp [ruleOf, getNode_setDer_self st j d hl]
    · rw [setDer_oob st j d (by omega)]
  · simp [ruleOf, getNode_setDer_ne st i j d h]

theorem getDer_setDer_self (st : GState α) (i : Nat) (d : α)
    (h : i < st.nodes.length) : getDer (setDer st i d) i = d := by
  simp [getDer, getNode_setDer_self st i d h]

theorem getDer_setDer_ne (st : GState α) (i j : Nat) (d : α) (h : j ≠ i) :
    getDer (setDer st i d) j = getDer st j := by
  simp [getDer, getNode_setDer_ne st i j d h]

theorem length_addDer (st : GState α) (i : Nat) (d : α) :
    (addDer st i d).nodes.length = st.nodes.length :=
  length_setDer _ _ _

theorem getDer_addDer_self (st : GState α) (i : Nat) (d : α)
    (h : i < st.nodes.length) :
    getDer (addDer st i d) i = getDer st i + d :=
  getDer_setDer_self st i _ h

theorem getDer_addDer_ne (st : GState α) (i j : Nat) (d : α) (h : j ≠ i) :
    getDer (addDer st i d) j = getDer st j :=
  getDer_setDer_ne st i j _ h

/-- The parts of the state the backward pass never changes: length and each
node's value, name, parents and rule. -/
def SEq (st st' : GState α) : Prop :=
  st'.nodes.length = st.nodes.length ∧
  ∀ j, getVal st' j = getVal st j ∧ nameOf st' j = nameOf st j ∧
    parentsOf st' j = parentsOf st j ∧ ruleOf st' j = ruleOf st j

theorem seqRefl (st : GState α) : SEq st st :=
  ⟨Eq.refl _, fun _ => ⟨Eq.refl _, Eq.refl _, Eq.refl _, Eq.refl _⟩⟩

theorem except_ok_eq {β : Type} {a b : β}
    (h : (Except.ok a : Except PyErr β) = .ok b) : a = b := by
  injection h

theorem seqTrans {s1 s2 s3 : GState α} (h12 : SEq s1 s2) (h23 : SEq s2 s3) :
    SEq s1 s3 :=
  ⟨h23.1.trans h12.1, fun j =>
    ⟨(h23.2 j).1.trans (h12.2 j).1,
     (h23.2 j).2.1.trans (h12.2 j).2.1,
     (h23.2 j).2.2.1.trans (h12.2 j).2.2.1,
     (h23.2 j).2.2.2.trans (h12.2 j).2.2.2⟩⟩

theorem setDer_SEq (st : GState α) (i : Nat) (d : α) :
    SEq st (setDer st i d) :=
  ⟨length_setDer st i d, fun j =>
    ⟨getVal_setDer st i j d, nameOf_setDer st i j d,
     parentsOf_setDer st i j d, ruleOf_setDer st i j d⟩⟩

theorem addDer_SEq (st : GState α) (i : Nat) (d : α) :
    SEq st (addDer st i d) :=
  setDer_SEq st i _

theorem runURule_SEq (P : Prim α) (st : GState α) (u : UOp α) (s r : Nat)
    (st' : GState α) (h : runURule P st u s r = .ok st') : SEq st st' := by
  cases u <;> simp only [runURule] at h <;> (try split_ifs at h) <;>
    first
      | exact Except.noConfusion h
      | exact (except_ok_eq h) ▸ addDer_SEq st s _

theorem runRule_SEq (P : Prim α) (st : GState α) (rule : BRule α)
    (st' : GState α) (h : runRule P st rule = .ok st') : SEq st st' := by
  cases rule <;> simp only [runRule] at h <;> (try split_ifs at h) <;>
    first
      | exact Except.noConfusion h
      | exact runURule_SEq P st _ _ _ st' h
      | exact (except_ok_eq h) ▸ seqRefl st
      | exact (except_ok_eq h) ▸ addDer_SEq st _ _
      | exact (except_ok_eq h) ▸
          seqTrans (addDer_SEq st _ _) (addDer_SEq _ _ _)

theorem zeroDers_SEq (st : GState α) (l : List Nat) :
    SEq st (zeroDers st l) := by
  induction l generalizing st with
  | nil => exact seqRefl st
  | cons i l ih =>
      exact seqTrans (setDer_SEq st i 0) (ih (setDer st i 0))

end StateLemmas

/-! ## Local derivative coefficients of backward rules -/

section RuleCoeff

variable [LinearOrderedField α]

/-- The node id a rule reads its `res.der` from (`0` for the leaf rule,
whose contribution is zero anyway). -/
def ruleResD : BRule α → Nat
  | .none => 0
  | .add _ _ r => r
  | .sub _ _ r => r
  | .rsub _ _ r => r
  | .mul _ _ r => r
  | .div _ _ r => r
  | .rdiv _ _ r => r
  | .pow _ _ r => r
  | .rpow _ _ r => r
  | .unary _ _ r => r

/-- The node ids whose adjoints a rule accumulates into. -/
def ruleTargets : BRule α → List Nat
  | .none => []
  | .add s o _ => [s, o]
  | .sub s o _ => [s, o]
  | .rsub s o _ => [s, o]
  | .mul s o _ => [s, o]
  | .div s o _ => [s, o]
  | .rdiv s o _ => [s, o]
  | .pow s o _ => [s, o]
  | .rpow _ s _ => [s]
  | .unary _ s _ => [s]

/-- The total factor a rule adds to node `p`'s adjoint per unit of
`res.der` (summing the rule's two statements when both target `p`). -/
def ruleCoeff (P : Prim α) (st : GState α) : BRule α → Nat → α
  | .none, _ => 0
  | .add s o _, p => (if p = s then 1 else 0) + (if p = o then 1 else 0)
  | .sub s o _, p => (if p = s then 1 else 0) + (if p = o then -1 else 0)
  | .rsub s o _, p => (if p = s then -1 else 0) + (if p = o then 1 else 0)
  | .mul s o _, p =>
      (if p = s then getVal st o else 0) +
      (if p = o then getVal st s else 0)
  | .div s o _, p =>
      (if p = s then 1 / getVal st o else 0) +
      (if p = o then -getVal st s / P.pow (getVal st o) 2 else 0)
  | .rdiv s o _, p =>
      (if p = s then -getVal st o / P.pow (getVal st s) 2 else 0) +
      (if p = o then 1 / getVal st s else 0)
  | .pow s o _, p =>
      (if p = s then getVal st o * P.pow (getVal st s) (getVal st o - 1)
       else 0) +
      (if p = o then P.pow (getVal st s) (getVal st o) * P.log (getVal st s)
       else 0)
  | .rpow c s _, p => if p = s then P.pow c (getVal st s) * P.log c else 0
  | .unary u s _, p => if p = s then uCoeff P u (getVal st s) else 0

theorem getVal_addDer (st : GState α) (i j : Nat) (d : α) :
    getVal (addDer st i d) j = getVal st j :=
  getVal_setDer st i j _

/-- The net effect on node `j`'s adjoint of the two sequential accumulation
statements `s.der += c₁ * r.der; o.der += c₂ * r.der` (re-reading `r.der`
in between, as the closures do). -/
theorem addDer_addDer_der (st : GState α) (s o r : Nat) (c₁ c₂ : α)
    (hs : s < st.nodes.length) (ho : o < st.nodes.length)
    (hsr : s ≠ r) (hor : o ≠ r) (j : Nat) :
    getDer (addDer (addDer st s (c₁ * getDer st r)) o
        (c₂ * getDer (addDer st s (c₁ * getDer st r)) r)) j =
      getDer st j +
        ((if j = s then c₁ else 0) + (if j = o then c₂ else 0)) *
          getDer st r := by
  have hrs : getDer (addDer st s (c₁ * getDer st r)) r = getDer st r :=
    getDer_addDer_ne st s r _ (Ne.symm hsr)
  by_cases hjo : j = o
  · subst hjo
    rw [getDer_addDer_self _ j _ (by rw [length_addDer]; exact ho), hrs]
    by_cases hjs : j = s
    · subst hjs
      rw [getDer_addDer_self st j _ hs]
      simp
      ring
    · rw [getDer_addDer_ne st s j _ hjs]
      simp [hjs]
      try ring
  · rw [getDer_addDer_ne _ o j _ hjo]
    by_cases hjs : j = s
    · subst hjs
      rw [getDer_addDer_self st j _ hs]
      simp [hjo]
      try ring
    · rw [getDer_addDer_ne st s j _ hjs]
      simp [hjs, hjo]

/-- Executing a backward rule whose targets exist and differ from its
result node adds `ruleCoeff · p * res.der` to every node `p`'s adjoint. -/
theorem runRule_ok_der (P : Prim α) (st : GState α) (rule : BRule α)
    (st' : GState α) (h : runRule P st rule = .ok st')
    (htgt : ∀ t ∈ ruleTargets rule, t < st.nodes.length ∧ t ≠ ruleResD rule) :
    ∀ j, getDer st' j =
      getDer st j + ruleCoeff P st rule j * getDer st (ruleResD rule) := by
  intro j
  cases rule with
  | none =>
      simp only [runRule, Except.ok.injEq] at h
      simp [← h, ruleCoeff]
  | rpow c s r =>
      simp only [runRule, Except.ok.injEq] at h
      obtain ⟨hs, hsr⟩ := htgt s (by simp [ruleTargets])
      subst h
      by_cases hj : j = s
      · subst hj
        rw [getDer_addDer_self st j _ hs]
        simp [ruleCoeff, ruleResD]
      · rw [getDer_addDer_ne st s j _ hj]
        simp [ruleCoeff, ruleResD, hj]
  | unary u s r =>
      obtain ⟨hs, hsr⟩ := htgt s (by simp [ruleTargets])
      have hder : getDer st' j =
          getDer st j +
            (if j = s then uCoeff P u (getVal st s) else 0) * getDer st r := by
        have key : ∀ d, st' = addDer st s (uCoeff P u (getVal st s) * d) →
            d = getDer st r → getDer st' j =
              getDer st j + (if j = s then uCoeff P u (getVal st s) else 0)
                * getDer st r := by
          intro d hst hd
          subst hst hd
          by_cases hj : j = s
          · subst hj; rw [getDer_addDer_self st j _ hs]; simp
          · rw [getDer_addDer_ne st s j _ hj]; simp [hj]
        simp only [runRule, runURule] at h
        cases u <;> (try split_ifs at h) <;>
          simp only [Except.ok.injEq] at h <;>
          exact key _ h.symm rfl
      simpa [ruleCoeff, ruleResD] using hder
  | add s o r =>
      obtain ⟨hs, hsr⟩ := htgt s (by simp [ruleTargets])
      obtain ⟨ho, hor⟩ := htgt o (by simp [ruleTargets])
      simp only [runRule, Except.ok.injEq] at h
      subst h
      simpa [ruleCoeff, ruleResD] using
        addDer_addDer_der st s o r 1 1 hs ho hsr hor j
  | sub s o r =>
      obtain ⟨hs, hsr⟩ := htgt s (by simp [ruleTargets])
      obtain ⟨ho, hor⟩ := htgt o (by simp [ruleTargets])
      simp only [runRule, Except.ok.injEq] at h
      subst h
      simpa [ruleCoeff, ruleResD] using
        addDer_addDer_der st s o r 1 (-1) hs ho hsr hor j
  | rsub s o r =>
      obtain ⟨hs, hsr⟩ := htgt s (by simp [ruleTargets])
      obtain ⟨ho, hor⟩ := htgt o (by simp [ruleTargets])
      simp only [runRule, Except.ok.injEq] at h
      subst h
      simpa [ruleCoeff, ruleResD] using
        addDer_addDer_der st s o r (-1) 1 hs ho hsr hor j
  | mul s o r =>
      obtain ⟨hs, hsr⟩ := htgt s (by simp [ruleTargets])
      obtain ⟨ho, hor⟩ := htgt o (by simp [ruleTargets])
      simp only [runRule, Except.ok.injEq] at h
      subst h
      simpa [ruleCoeff, ruleResD, getVal_addDer] using
        addDer_addDer_der st s o r (getVal st o) (getVal st s) hs ho hsr hor j
  | div s o r =>
      obtain ⟨hs, hsr⟩ := htgt s (by simp [ruleTargets])
      obtain ⟨ho, hor⟩ := htgt o (by simp [ruleTargets])
      simp only [runRule] at h
      split_ifs at h
      simp only [Except.ok.injEq] at h
      subst h
      simpa [ruleCoeff, ruleResD, getVal_addDer] using
        addDer_addDer_der st s o r (1 / getVal st o)
          (-getVal st s / P.pow (getVal st o) 2) hs ho hsr hor j
  | rdiv s o r =>
      obtain ⟨hs, hsr⟩ := htgt s (by simp [ruleTargets])
      obtain ⟨ho, hor⟩ := htgt o (by simp [ruleTargets])
      simp only [runRule] at h
      split_ifs at h
      simp only [Except.ok.injEq] at h
      subst h
      simpa [ruleCoeff, ruleResD, getVal_addDer] using
        addDer_addDer_der st s o r (-getVal st o / P.pow (getVal st s) 2)
          (1 / getVal st s) hs ho hsr hor j
  | pow s o r =>
      obtain ⟨hs, hsr⟩ := htgt s (by simp [ruleTargets])
      obtain ⟨ho, hor⟩ := htgt o (by simp [ruleTargets])
      simp only [runRule, Except.ok.injEq] at h
      subst h
      simpa [ruleCoeff, ruleResD, getVal_addDer] using
        addDer_addDer_der st s o r
          (getVal st o * P.pow (getVal st s) (getVal st o - 1))
          (P.pow (getVal st s) (getVal st o) * P.log (getVal st s))
          hs ho hsr hor j

end RuleCoeff

/-! ## Correctness of the depth-first topological sort -/

section DFS

variable [LinearOrderedField α]

/-- Reachability from a node by repeatedly following parent edges. -/
inductive Reach (st : GState α) : Nat → Nat → Prop where
  | refl (i : Nat) : Reach st i i
  | step {i p j : Nat} : p ∈ parentsOf st i → Reach st p j → Reach st i j

/-- The invariant of the DFS state `(visited_nodes, topo_sorted)`:
the sorted output is contained in the visited set, has no duplicates, never
lists a parent after its child, and all parents of listed nodes have been
visited. -/
structure DFSInv (st : GState α) (v s : List Nat) : Prop where
  sub : ∀ x ∈ s, x ∈ v
  nd : s.Nodup
  pw : s.Pairwise (fun a b => b ∉ parentsOf st a)
  cl : ∀ x ∈ s, ∀ p ∈ parentsOf st x, p ∈ v

theorem sortVisit_zero (st : GState α) (i : Nat) (vs : List Nat × List Nat) :
    sortVisit st 0 i vs = vs := rfl

theorem sortVisit_succ (st : GState α) (fuel i : Nat) (v s : List Nat) :
    sortVisit st (fuel + 1) i (v, s) =
      if i ∈ v then (v, s)
      else ((sortVisitList st fuel (parentsOf st i) (i :: v, s)).1,
            (sortVisitList st fuel (parentsOf st i) (i :: v, s)).2 ++ [i]) :=
  rfl

theorem sortVisitList_nil (st : GState α) (fuel : Nat)
    (vs : List Nat × List Nat) : sortVisitList st fuel [] vs = vs := rfl

theorem sortVisitList_cons (st : GState α) (fuel p : Nat) (ps : List Nat)
    (vs : List Nat × List Nat) :
    sortVisitList st fuel (p :: ps) vs =
      sortVisitList st fuel ps (sortVisit st fuel p vs) := rfl

/-- The main induction for `_sort_nodes`: simultaneous specification of
`toposort(node)` and the loop over a node's parents.  `Δ` is the batch of
nodes appended by the call; the visited set grows by exactly `Δ`, so the
"gray" nodes (visited but not yet emitted) are unchanged. -/
theorem dfs_spec (st : GState α)
    (hwf : ∀ x, ∀ p ∈ parentsOf st x, p < x) :
    ∀ fuel : Nat,
      (∀ i v s, i < fuel → DFSInv st v s → (∀ g ∈ v, g ∉ s → i < g) →
        ∃ Δ, (sortVisit st fuel i (v, s)).2 = s ++ Δ ∧
          Δ.Nodup ∧
          (∀ x ∈ Δ, x ∉ v ∧ x ≤ i ∧ Reach st i x) ∧
          (∀ x, x ∈ (sortVisit st fuel i (v, s)).1 ↔ x ∈ v ∨ x ∈ Δ) ∧
          i ∈ (sortVisit st fuel i (v, s)).1 ∧
          DFSInv st (sortVisit st fuel i (v, s)).1
            (sortVisit st fuel i (v, s)).2) ∧
      (∀ B ps v s, B ≤ fuel → (∀ p ∈ ps, p < B) → DFSInv st v s →
        (∀ g ∈ v, g ∉ s → B ≤ g) →
        ∃ Δ, (sortVisitList st fuel ps (v, s)).2 = s ++ Δ ∧
          Δ.Nodup ∧
          (∀ x ∈ Δ, x ∉ v ∧ x < B ∧ ∃ q ∈ ps, Reach st q x) ∧
          (∀ x, x ∈ (sortVisitList st fuel ps (v, s)).1 ↔ x ∈ v ∨ x ∈ Δ) ∧
          (∀ q ∈ ps, q ∈ (sortVisitList st fuel ps (v, s)).1) ∧
          DFSInv st (sortVisitList st fuel ps (v, s)).1
            (sortVisitList st fuel ps (v, s)).2) := by
  intro fuel
  induction fuel with
  | zero =>
      constructor
      · intro i v s hi
        omega
      · intro B ps v s hB hps hinv hgray
        cases ps with
        | nil =>
            rw [sortVisitList_nil]
            exact ⟨[], by simp, List.nodup_nil, by simp, by simp,
              by simp, hinv⟩
        | cons p ps => exact absurd (hps p (by simp)) (by omega)
  | succ fuel ih =>
      have part1 : ∀ i v s, i < fuel + 1 → DFSInv st v s →
          (∀ g ∈ v, g ∉ s → i < g) →
          ∃ Δ, (sortVisit st (fuel + 1) i (v, s)).2 = s ++ Δ ∧
            Δ.Nodup ∧
            (∀ x ∈ Δ, x ∉ v ∧ x ≤ i ∧ Reach st i x) ∧
            (∀ x, x ∈ (sortVisit st (fuel + 1) i (v, s)).1 ↔
              x ∈ v ∨ x ∈ Δ) ∧
            i ∈ (sortVisit st (fuel + 1) i (v, s)).1 ∧
            DFSInv st (sortVisit st (fuel + 1) i (v, s)).1
              (sortVisit st (fuel + 1) i (v, s)).2 := by
        intro i v s hi hinv hgray
        by_cases hiv : i ∈ v
        · rw [sortVisit_succ, if_pos hiv]
          exact ⟨[], by simp, List.nodup_nil, by simp,
            by simp, hiv, hinv⟩
        · rw [sortVisit_succ, if_neg hiv]
          have hinv' : DFSInv st (i :: v) s :=
            ⟨fun x hx => .tail _ (hinv.sub x hx), hinv.nd, hinv.pw,
             fun x hx p hp => .tail _ (hinv.cl x hx p hp)⟩
          have hgray' : ∀ g ∈ i :: v, g ∉ s → i ≤ g := by
            intro g hg hgs
            rcases List.mem_cons.mp hg with h | h
            · omega
            · exact le_of_lt (hgray g h hgs)
          obtain ⟨Δ₁, hs₁, hnd₁, hx₁, hv₁, hq₁, hinv₁⟩ :=
            ih.2 i (parentsOf st i) (i :: v) s (by omega)
              (fun p hp => hwf i p hp) hinv' hgray'
          refine ⟨Δ₁ ++ [i], by rw [hs₁, List.append_assoc], ?_, ?_, ?_, ?_,
            ?_⟩
          · rw [List.nodup_append]
            exact ⟨hnd₁, List.nodup_singleton i,
              fun x hx hx' => (hx₁ x hx).1
                (by simp_all [List.mem_singleton])⟩
          · intro x hx
            rcases List.mem_append.mp hx with h | h
            · obtain ⟨hxv, hxi, q, hq, hr⟩ := hx₁ x h
              exact ⟨fun hxv' => hxv (.tail _ hxv'), le_of_lt hxi,
                .step hq hr⟩
            · have : x = i := by simpa using h
              subst this
              exact ⟨hiv, le_refl x, .refl x⟩
          · intro x
            rw [hv₁ x]
            constructor
            · rintro (h | h)
              · rcases List.mem_cons.mp h with h | h
                · exact .inr (by simp [h])
                · exact .inl h
              · exact .inr (by simp [h])
            · rintro (h | h)
              · exact .inl (.tail _ h)
              · rcases List.mem_append.mp h with h | h
                · exact .inr h
                · exact .inl (by simp_all [List.mem_singleton])
          · exact (hv₁ i).mpr (.inl (List.mem_cons_self i v))
          · constructor
            · intro x hx
              rcases List.mem_append.mp hx with h | h
              · exact hinv₁.sub x h
              · have : x = i := by simpa using h
                subst this
                exact (hv₁ x).mpr (.inl (List.mem_cons_self x v))
            · rw [List.nodup_append]
              refine ⟨hinv₁.nd, List.nodup_singleton i, ?_⟩
              intro x hx hx'
              have hxi : x = i := by simpa using hx'
              subst hxi
              rw [hs₁] at hx
              rcases List.mem_append.mp hx with h | h
              · exact hiv (hinv.sub x h)
              · exact (hx₁ x h).1 (List.mem_cons_self x v)
            · rw [List.pairwise_append]
              refine ⟨hinv₁.pw, List.pairwise_singleton _ i, ?_⟩
              intro a ha b hb hba
              have hbi : b = i := by simpa using hb
              subst hbi
              rw [hs₁] at ha
              rcases List.mem_append.mp ha with h | h
              · exact hiv (hinv.cl a h b hba)
              · have h1 : b < a := hwf a b hba
                have h2 : a ≤ b := le_of_lt (hx₁ a h).2.1
                omega
            · intro x hx p hp
              rcases List.mem_append.mp hx with h | h
              · exact hinv₁.cl x h p hp
              · have : x = i := by simpa using h
                subst this
                exact hq₁ p hp
      refine ⟨part1, ?_⟩
      intro B ps
      induction ps with
      | nil =>
          intro v s hB hps hinv hgray
          rw [sortVisitList_nil]
          exact ⟨[], by simp, List.nodup_nil, by simp, by simp,
            by simp, hinv⟩
      | cons p ps ihps =>
          intro v s hB hps hinv hgray
          have hpB : p < B := hps p (by simp)
          obtain ⟨Δp, hsp, hndp, hxp, hvp, hip, hinvp⟩ :=
            part1 p v s (by omega) hinv
              (fun g hg hgs => lt_of_lt_of_le hpB (hgray g hg hgs))
          set K := sortVisit st (fuel + 1) p (v, s) with hK
          have hgray2 : ∀ g ∈ K.1, g ∉ K.2 → B ≤ g := by
            intro g hg hgs
            rcases (hvp g).mp hg with h | h
            · refine hgray g h (fun hgs' => hgs ?_)
              rw [hsp]
              exact List.mem_append.mpr (.inl hgs')
            · exact absurd (by rw [hsp]; exact List.mem_append.mpr (.inr h))
                hgs
          obtain ⟨Δq, hsq, hndq, hxq, hvq, hiq, hinvq⟩ :=
            ihps K.1 K.2 hB (fun q hq => hps q (.tail _ hq)) hinvp hgray2
          simp only [Prod.mk.eta] at hsq hvq hiq hinvq
          rw [sortVisitList_cons, ← hK]
          rw [hsp] at hsq
          refine ⟨Δp ++ Δq, ?_, ?_, ?_, ?_, ?_, hinvq⟩
          · rw [hsq, List.append_assoc]
          · rw [List.nodup_append]
            refine ⟨hndp, hndq, ?_⟩
            intro x hx hx'
            exact (hxq x hx').1 ((hvp x).mpr (.inr hx))
          · intro x hx
            rcases List.mem_append.mp hx with h | h
            · obtain ⟨h1, h2, h3⟩ := hxp x h
              exact ⟨h1, by omega, p, by simp, h3⟩
            · obtain ⟨h1, h2, q, hq, hr⟩ := hxq x h
              refine ⟨fun hxv => h1 ((hvp x).mpr (.inl hxv)), h2,
                q, .tail _ hq, hr⟩
          · intro x
            rw [hvq x, hvp x]
            constructor
            · rintro ((h | h) | h)
              · exact .inl h
              · exact .inr (List.mem_append.mpr (.inl h))
              · exact .inr (List.mem_append.mpr (.inr h))
            · rintro (h | h)
              · exact .inl (.inl h)
              · rcases List.mem_append.mp h with h | h
                · exact .inl (.inr h)
                · exact .inr h
          · intro q hq
            rcases List.mem_cons.mp hq with h | h
            · subst h
              exact (hvq q).mpr (.inl hip)
            · exact hiq q h

/-- Specification of `rNode._sort_nodes`: the returned order has no
duplicates, contains exactly the nodes reachable from the root, never lists
a parent after its child, is closed under parents, and contains the root. -/
theorem sortNodes_spec (st : GState α)
    (hwf : ∀ x, ∀ p ∈ parentsOf st x, p < x) (root : Nat) :
    (sortNodes st root).Nodup ∧
    (∀ x, x ∈ sortNodes st root ↔ Reach st root x) ∧
    (sortNodes st root).Pairwise (fun a b => b ∉ parentsOf st a) ∧
    (∀ x ∈ sortNodes st root, ∀ p ∈ parentsOf st x,
      p ∈ sortNodes st root) ∧
    root ∈ sortNodes st root := by
  obtain ⟨Δ, hs, hnd, hx, hv, hroot, hinv⟩ :=
    (dfs_spec st hwf (root + 1)).1 root [] []
      (by omega)
      ⟨by simp, List.nodup_nil, List.Pairwise.nil, by simp⟩
      (by simp)
  have hsn : sortNodes st root = Δ := by
    rw [sortNodes, hs, List.nil_append]
  have hvs : ∀ x, x ∈ (sortVisit st (root + 1) root ([], [])).1 ↔ x ∈ Δ := by
    intro x
    rw [hv x]
    simp
  have hmem : ∀ x ∈ Δ, ∀ p ∈ parentsOf st x, p ∈ Δ := by
    intro x hxd p hp
    have h1 : x ∈ (sortVisit st (root + 1) root ([], [])).2 := by
      rw [hs]; simpa using hxd
    have := hinv.cl x h1 p hp
    exact (hvs p).mp this
  have hrootd : root ∈ Δ := (hvs root).mp hroot
  have hcomplete : ∀ i, i ∈ Δ → ∀ x, Reach st i x → x ∈ Δ := by
    intro i hi x hr
    induction hr with
    | refl j => exact hi
    | step hp _ ih => exact ih (hmem _ hi _ hp)
  rw [hsn]
  refine ⟨hnd, fun x => ⟨fun hxd => ?_, fun hr => hcomplete root hrootd x hr⟩,
    ?_, hmem, hrootd⟩
  · exact (hx x hxd).2.2
  · have := hinv.pw
    rw [hs, List.nil_append] at this
    exact this

/-- Out-of-range nodes have no parents, so bounded well-formedness (which is
decidable on a concrete state) gives the unbounded form. -/
theorem wf_of_bounded (st : GState α)
    (h : ∀ i < st.nodes.length, ∀ p ∈ parentsOf st i, p < i) :
    ∀ x, ∀ p ∈ parentsOf st x, p < x := by
  intro x p hp
  by_cases hx : x < st.nodes.length
  · exact h x hx p hp
  · rw [parentsOf, getNode_oob st x (by omega)] at hp
    simp at hp

end DFS

section ClaimsGraph

variable [LinearOrderedField α]

/-- **C5**: on every well-formed graph (each node's parents were created
before it), the list returned by the depth-first post-order topological sort
rooted at a node contains each reachable node exactly once, and every node
in the list appears strictly after all of its parents that occur in the
list (no later element is a parent of an earlier one). -/
theorem C5_toposort (st : GState α) (root : Nat)
    (hwf : ∀ x, ∀ p ∈ parentsOf st x, p < x) :
    (sortNodes st root).Nodup ∧
    (∀ x, x ∈ sortNodes st root ↔ Reach st root x) ∧
    (sortNodes st root).Pairwise (fun a b => b ∉ parentsOf st a) :=
  ⟨(sortNodes_spec st hwf root).1, (sortNodes_spec st hwf root).2.1,
   (sortNodes_spec st hwf root).2.2.1⟩

/-- The concrete two-node graph of `x + x` at `x = 3` (one leaf, one sum
node with the deduplicated parent set `{x}`). -/
def stW : GState ℚ := (rnAdd (mkLeaf ⟨0, []⟩ 3).1 0 (.inr 0)).1

/-- Witness for C5 on the concrete graph `stW`, rooted at the sum node. -/
theorem C5_witness :
    (sortNodes stW 1).Nodup ∧
    (0 ∈ sortNodes stW 1 ↔ Reach stW 1 0) ∧
    (sortNodes stW 1).Pairwise (fun a b => b ∉ parentsOf stW a) :=
  ⟨(C5_toposort stW 1 (wf_of_bounded stW (by decide))).1,
   (C5_toposort stW 1 (wf_of_bounded stW (by decide))).2.1 0,
   (C5_toposort stW 1 (wf_of_bounded stW (by decide))).2.2⟩

/-! ### C1: the backward pass follows the specified steps exactly -/

/-- Step 2 of the claimed pass, written as plain recursion: set the adjoint
of every node in the order to 0. -/
def zeroSpec (st : GState α) : List Nat → GState α
  | [] => st
  | i :: l => zeroSpec (setDer st i 0) l

/-- Steps 4–5 of the claimed pass: walk the (already reversed) order; for
each node whose creation index is below `numInputs`, write its current
adjoint into the row at that column, then invoke its backward rule. -/
def walkSpec (P : Prim α) (numInputs : Nat) :
    List Nat → List α → GState α → Except PyErr (List α × GState α)
  | [], row, st => .ok (row, st)
  | i :: l, row, st =>
      let row' :=
        if nameOf st i < numInputs then row.set (nameOf st i) (getDer st i)
        else row
      match runRule P st (ruleOf st i) with
      | .error e => .error e
      | .ok st' => walkSpec P numInputs l row' st'

/-- The claimed backward pass: topological order from the root, zero the
adjoints of every node in the order, seed the root's adjoint with 1, walk
the order in reverse writing input adjoints before firing rules, starting
from the all-zero row of length `numInputs`. -/
def backwardSpec (P : Prim α) (numInputs root : Nat) (st : GState α) :
    Except PyErr (List α × GState α) :=
  let order := sortNodes st root
  walkSpec P numInputs order.reverse (List.replicate numInputs 0)
    (setDer (zeroSpec st order) root 1)

theorem zeroDers_eq_zeroSpec (l : List Nat) :
    ∀ st : GState α, zeroDers st l = zeroSpec st l := by
  induction l with
  | nil => intro st; rfl
  | cons i l ih =>
      intro st
      rw [zeroDers, List.foldl_cons]
      exact ih (setDer st i 0)

theorem foldlM_sweep_eq_walkSpec (P : Prim α) (n : Nat) (l : List Nat) :
    ∀ (row : List α) (st : GState α),
      l.foldlM (sweepStep P n) (row, st) = walkSpec P n l row st := by
  induction l with
  | nil => intro row st; rfl
  | cons i l ih =>
      intro row st
      rw [List.foldlM_cons, walkSpec]
      simp only [sweepStep]
      cases h : runRule P st (ruleOf st i) with
      | error e => simp only [bindErr, pureBind]
      | ok st' =>
          simp only [bindOk, pureBind]
          exact ih _ st'

theorem walkSpec_row_length (P : Prim α) (n : Nat) (l : List Nat) :
    ∀ (row row' : List α) (st st' : GState α),
      walkSpec P n l row st = .ok (row', st') →
      row'.length = row.length := by
  induction l with
  | nil =>
      intro row row' st st' h
      simp only [walkSpec, Except.ok.injEq, Prod.mk.injEq] at h
      rw [← h.1]
  | cons i l ih =>
      intro row row' st st' h
      simp only [walkSpec] at h
      cases hr : runRule P st (ruleOf st i) with
      | error e => rw [hr] at h; cases h
      | ok st1 =>
          rw [hr] at h
          have := ih _ row' st1 st' h
          rw [this]
          split_ifs <;> simp [List.length_set]

/-- **C1**: `rNode.backward(num_inputs)` is exactly the claimed pass —
topological order, zero every adjoint in the order, seed the root with 1,
walk in reverse writing each input-node adjoint at the column given by its
creation index before firing its rule — and any row it returns has length
`num_inputs`. -/
theorem C1_backward_pass (P : Prim α) (numInputs root : Nat) (st : GState α) :
    backward P numInputs root st = backwardSpec P numInputs root st ∧
    (∀ (row : List α) (st' : GState α),
      backward P numInputs root st = .ok (row, st') →
      row.length = numInputs) := by
  have heq : backward P numInputs root st = backwardSpec P numInputs root st := by
    rw [backward, backwardSpec, zeroDers_eq_zeroSpec]
    exact foldlM_sweep_eq_walkSpec P numInputs _ _ _
  refine ⟨heq, fun row st' h => ?_⟩
  rw [heq, backwardSpec] at h
  have := walkSpec_row_length P numInputs _ _ row _ st' h
  rw [this, List.length_replicate]

/-- The graph state produced by running `backward` on `stW` (the `x + x`
graph at `x = 3`): `x` ends with adjoint 2, the sum node with adjoint 1. -/
def stWfin : GState ℚ :=
  ⟨2, [⟨3, 2, 0, "", [], .none⟩, ⟨6, 1, 1, "+", [0], .add 0 0 1⟩]⟩

/-- Witness for C1 on the concrete graph `stW`: the pass agrees with the
claimed steps and the returned row `[2]` has length `num_inputs = 1`. -/
theorem C1_witness :
    backward qPrim 1 1 stW = backwardSpec qPrim 1 1 stW ∧
    ([(2 : ℚ)]).length = 1 :=
  ⟨(C1_backward_pass qPrim 1 1 stW).1,
   (C1_backward_pass qPrim 1 1 stW).2 [2] stWfin (by with_unfolding_all rfl)⟩

end ClaimsGraph

/-! ## Invariants of graph construction -/

section BuildInv

variable [LinearOrderedField α]

theorem mkNode_len (st : GState α) (v : α) (ps : List Nat) (op : String)
    (rule : BRule α) :
    (mkNode st v ps op rule).1.nodes.length = st.nodes.length + 1 := by
  simp [mkNode]

theorem mkNode_inc (st : GState α) (v : α) (ps : List Nat) (op : String)
    (rule : BRule α) :
    (mkNode st v ps op rule).1.increment = st.increment + 1 := rfl

theorem mkNode_idx (st : GState α) (v : α) (ps : List Nat) (op : String)
    (rule : BRule α) : (mkNode st v ps op rule).2 = st.nodes.length := rfl

theorem getNode_mkNode_old (st : GState α) (v : α) (ps : List Nat)
    (op : String) (rule : BRule α) (j : Nat) (h : j < st.nodes.length) :
    getNode (mkNode st v ps op rule).1 j = getNode st j := by
  simp only [getNode, mkNode]
  exact List.getD_append _ _ _ _ h

theorem getNode_mkNode_new (st : GState α) (v : α) (ps : List Nat)
    (op : String) (rule : BRule α) :
    getNode (mkNode st v ps op rule).1 st.nodes.length =
      ⟨v, 0, st.increment, op, ps, rule⟩ := by
  simp only [getNode, mkNode]
  rw [List.getD_append_right _ _ _ _ (le_refl _)]
  simp

/-- The nodes of `st` survive unchanged in `st'` (graph construction only
appends). -/
def Pres (st st' : GState α) : Prop :=
  st.nodes.length ≤ st'.nodes.length ∧
  ∀ j < st.nodes.length, getNode st' j = getNode st j

theorem presRefl (st : GState α) : Pres st st :=
  ⟨le_refl _, fun _ _ => Eq.refl _⟩

theorem presTrans {s1 s2 s3 : GState α} (h12 : Pres s1 s2)
    (h23 : Pres s2 s3) : Pres s1 s3 :=
  ⟨le_trans h12.1 h23.1,
   fun j hj => (h23.2 j (lt_of_lt_of_le hj h12.1)).trans (h12.2 j hj)⟩

theorem mkNode_pres (st : GState α) (v : α) (ps : List Nat) (op : String)
    (rule : BRule α) : Pres st (mkNode st v ps op rule).1 :=
  ⟨by rw [mkNode_len]; omega,
   fun j hj => getNode_mkNode_old st v ps op rule j hj⟩

/-- Well-formedness of the rule stored on node `i` with parents `ps`. -/
def RuleWF (rule : BRule α) (i : Nat) (ps : List Nat) : Prop :=
  match rule with
  | .none => True
  | r => ruleResD r = i ∧ ∀ t ∈ ruleTargets r, t ∈ ps

/-- Well-formedness of a graph state: every node's parents were created
before it, its rule reads `res.der` from the node itself and accumulates
only into its parents, and its parent list (a Python `set`) has no
duplicates. -/
structure GoodG (st : GState α) : Prop where
  wf : ∀ i, ∀ p ∈ parentsOf st i, p < i
  rules : ∀ i, RuleWF (ruleOf st i) i (parentsOf st i)
  pnodup : ∀ i, (parentsOf st i).Nodup

/-- The counter/name discipline of a reverse-mode evaluation that began with
`rNode.increment = 0`: the counter equals the number of nodes created, and
node `i`'s name is `i`. -/
def CounterInv (st : GState α) : Prop :=
  st.increment = st.nodes.length ∧ ∀ i < st.nodes.length, nameOf st i = i

/-- Creating one node preserves all construction invariants, provided the
new node's parents exist, are duplicate-free, and its rule is well-formed
at the new index. -/
theorem mkNode_spec (st : GState α) (v : α) (ps : List Nat) (op : String)
    (rule : BRule α) (hps : ∀ p ∈ ps, p < st.nodes.length) (hnd : ps.Nodup)
    (hrule : RuleWF rule st.nodes.length ps) :
    Pres st (mkNode st v ps op rule).1 ∧
    (GoodG st → GoodG (mkNode st v ps op rule).1) ∧
    (CounterInv st → CounterInv (mkNode st v ps op rule).1) := by
  refine ⟨mkNode_pres st v ps op rule, fun hg => ⟨?_, ?_, ?_⟩, fun hc => ⟨?_, ?_⟩⟩
  · intro i p hp
    rcases lt_trichotomy i st.nodes.length with hi | hi | hi
    · rw [parentsOf, getNode_mkNode_old st v ps op rule i hi] at hp
      exact hg.wf i p hp
    · subst hi
      rw [parentsOf, getNode_mkNode_new] at hp
      exact hps p hp
    · rw [parentsOf, getNode_oob _ i (by rw [mkNode_len]; omega)] at hp
      simp at hp
  · intro i
    rcases lt_trichotomy i st.nodes.length with hi | hi | hi
    · rw [ruleOf, parentsOf, getNode_mkNode_old st v ps op rule i hi]
      exact hg.rules i
    · subst hi
      rw [ruleOf, parentsOf, getNode_mkNode_new]
      exact hrule
    · rw [ruleOf, parentsOf, getNode_oob _ i (by rw [mkNode_len]; omega)]
      trivial
  · intro i
    rcases lt_trichotomy i st.nodes.length with hi | hi | hi
    · rw [parentsOf, getNode_mkNode_old st v ps op rule i hi]
      exact hg.pnodup i
    · subst hi
      rw [parentsOf, getNode_mkNode_new]
      exact hnd
    · rw [parentsOf, getNode_oob _ i (by rw [mkNode_len]; omega)]
      exact List.nodup_nil
  · rw [mkNode_len, mkNode_inc, hc.1]
  · intro i hi
    rw [mkNode_len] at hi
    rcases lt_trichotomy i st.nodes.length with h | h | h
    · rw [nameOf, getNode_mkNode_old st v ps op rule i h]
      exact hc.2 i h
    · subst h
      rw [nameOf, getNode_mkNode_new]
      exact hc.1
    · omega

theorem parentsPair_lt (a b n : Nat) (ha : a < n) (hb : b < n) :
    ∀ p ∈ parentsPair a b, p < n := by
  intro p hp
  unfold parentsPair at hp
  split_ifs at hp <;> simp at hp <;> rcases hp with h | h <;> omega

theorem parentsPair_nodup (a b : Nat) : (parentsPair a b).Nodup := by
  unfold parentsPair
  split_ifs with h
  · exact List.nodup_singleton a
  · exact List.nodup_cons.mpr ⟨by simp [h], List.nodup_singleton b⟩

theorem parentsPair_mem (a b : Nat) :
    a ∈ parentsPair a b ∧ b ∈ parentsPair a b := by
  unfold parentsPair
  split_ifs with h <;> simp [h]

/-- Validity of a binary operand: a bare scalar, or a reference to an
existing node. -/
def OperandOK (st : GState α) : Operand Nat α → Prop
  | .inl _ => True
  | .inr i => i < st.nodes.length

/-- The bundle of facts every node-creating operation provides. -/
def OpOut (st : GState α) (out : GState α × Nat) : Prop :=
  Pres st out.1 ∧ out.2 < out.1.nodes.length ∧
  (GoodG st → GoodG out.1) ∧ (CounterInv st → CounterInv out.1)

theorem mkLeaf_spec (st : GState α) (c : α) : OpOut st (mkLeaf st c) := by
  obtain ⟨hp, hg, hc⟩ := mkNode_spec st c [] "" .none (by simp)
    List.nodup_nil trivial
  exact ⟨hp, by rw [mkLeaf, mkNode_idx, mkNode_len]; omega, hg, hc⟩

theorem promote_spec (st : GState α) (other : Operand Nat α)
    (hop : OperandOK st other) : OpOut st (promote st other) := by
  cases other with
  | inl c => exact mkLeaf_spec st c
  | inr i => exact ⟨presRefl st, hop, fun g => g, fun c => c⟩

/-- Creating the result node of a two-parent operation on top of a promoted
state. -/
theorem binNode_spec (st st1 : GState α) (s o : Nat) (v : α) (opstr : String)
    (rule : BRule α) (hpre : Pres st st1)
    (hg1 : GoodG st → GoodG st1) (hc1 : CounterInv st → CounterInv st1)
    (hs : s < st.nodes.length) (ho : o < st1.nodes.length)
    (hrule : RuleWF rule st1.nodes.length (parentsPair s o)) :
    OpOut st (mkNode st1 v (parentsPair s o) opstr rule) := by
  obtain ⟨hp, hg, hc⟩ := mkNode_spec st1 v (parentsPair s o) opstr rule
    (parentsPair_lt s o _ (lt_of_lt_of_le hs hpre.1) ho)
    (parentsPair_nodup s o) hrule
  exact ⟨presTrans hpre hp, by rw [mkNode_idx, mkNode_len]; omega,
    fun g => hg (hg1 g), fun c => hc (hc1 c)⟩

theorem rnAdd_spec (st : GState α) (s : Nat) (other : Operand Nat α)
    (hs : s < st.nodes.length) (hop : OperandOK st other) :
    OpOut st (rnAdd st s other) := by
  obtain ⟨hpre, ho, hg1, hc1⟩ := promote_spec st other hop
  exact binNode_spec st _ s _ _ _ _ hpre hg1 hc1 hs ho
    (by constructor <;> simp [ruleResD, ruleTargets, parentsPair_mem])

theorem rnSub_spec (st : GState α) (s : Nat) (other : Operand Nat α)
    (hs : s < st.nodes.length) (hop : OperandOK st other) :
    OpOut st (rnSub st s other) := by
  obtain ⟨hpre, ho, hg1, hc1⟩ := promote_spec st other hop
  exact binNode_spec st _ s _ _ _ _ hpre hg1 hc1 hs ho
    (by constructor <;> simp [ruleResD, ruleTargets, parentsPair_mem])

theorem rnMul_spec (st : GState α) (s : Nat) (other : Operand Nat α)
    (hs : s < st.nodes.length) (hop : OperandOK st other) :
    OpOut st (rnMul st s other) := by
  obtain ⟨hpre, ho, hg1, hc1⟩ := promote_spec st other hop
  exact binNode_spec st _ s _ _ _ _ hpre hg1 hc1 hs ho
    (by constructor <;> simp [ruleResD, ruleTargets, parentsPair_mem])

theorem rnPow_spec (P : Prim α) (st : GState α) (s : Nat)
    (other : Operand Nat α) (hs : s < st.nodes.length)
    (hop : OperandOK st other) : OpOut st (rnPow P st s other) := by
  obtain ⟨hpre, ho, hg1, hc1⟩ := promote_spec st other hop
  exact binNode_spec st _ s _ _ _ _ hpre hg1 hc1 hs ho
    (by constructor <;> simp [ruleResD, ruleTargets, parentsPair_mem])

theorem rnRsub_spec (st : GState α) (s : Nat) (c : α)
    (hs : s < st.nodes.length) : OpOut st (rnRsub st s c) := by
  obtain ⟨hpre, ho, hg1, hc1⟩ := mkLeaf_spec st c
  exact binNode_spec st _ s _ _ _ _ hpre hg1 hc1 hs ho
    (by constructor <;> simp [ruleResD, ruleTargets, parentsPair_mem])

theorem rnDiv_spec (st : GState α) (s : Nat) (other : Operand Nat α)
    (out : GState α × Nat) (hs : s < st.nodes.length)
    (hop : OperandOK st other) (h : rnDiv st s other = .ok out) :
    OpOut st out := by
  obtain ⟨hpre, ho, hg1, hc1⟩ := promote_spec st other hop
  cases hpr : promote st other with
  | mk st1 o =>
      rw [rnDiv, hpr] at h
      simp only [hpr] at hpre ho hg1 hc1
      dsimp only at h
      split_ifs at h
      simp only [Except.ok.injEq] at h
      subst h
      exact binNode_spec st _ s _ _ _ _ hpre hg1 hc1 hs ho
        (by constructor <;> simp [ruleResD, ruleTargets, parentsPair_mem])

theorem rnRdiv_spec (st : GState α) (s : Nat) (c : α)
    (out : GState α × Nat) (hs : s < st.nodes.length)
    (h : rnRdiv st s c = .ok out) : OpOut st out := by
  obtain ⟨hpre, ho, hg1, hc1⟩ := mkLeaf_spec st c
  cases hpr : mkLeaf st c with
  | mk st1 o =>
      rw [rnRdiv, hpr] at h
      simp only [hpr] at hpre ho hg1 hc1
      dsimp only at h
      split_ifs at h
      simp only [Except.ok.injEq] at h
      subst h
      exact binNode_spec st _ s _ _ _ _ hpre hg1 hc1 hs ho
        (by constructor <;> simp [ruleResD, ruleTargets, parentsPair_mem])

theorem rnRpow_spec (P : Prim α) (st : GState α) (s : Nat) (c : α)
    (hs : s < st.nodes.length) : OpOut st (rnRpow P st s c) := by
  obtain ⟨hp, hg, hc⟩ := mkNode_spec st (P.pow c (getVal st s)) [s] "^"
    (.rpow c s st.nodes.length) (by simpa using hs)
    (List.nodup_singleton s)
    (by constructor <;> simp [ruleResD, ruleTargets])
  exact ⟨hp, by rw [rnRpow, mkNode_idx, mkNode_len]; omega, hg, hc⟩

theorem rnUnary_spec (P : Prim α) (u : UOp α) (st : GState α) (s : Nat)
    (out : GState α × Nat) (hs : s < st.nodes.length)
    (h : rnUnary P u st s = .ok out) : OpOut st out := by
  rw [rnUnary] at h
  split_ifs at h
  simp only [Except.ok.injEq] at h
  subst h
  obtain ⟨hp, hg, hc⟩ := mkNode_spec st _ [s] (uOperStr u)
    (.unary u s st.nodes.length) (by simpa using hs)
    (List.nodup_singleton s)
    (by constructor <;> simp [ruleResD, ruleTargets])
  exact ⟨hp, by rw [mkNode_idx, mkNode_len]; omega, hg, hc⟩

/-- Building any expression preserves the construction invariants, and its
root is a node of the resulting state. -/
theorem buildG_spec (P : Prim α) {n : Nat} :
    ∀ (e : Expr n α) (st st' : GState α) (r : Nat),
      n ≤ st.nodes.length → buildG P e st = .ok (st', r) →
      Pres st st' ∧ r < st'.nodes.length ∧
      (GoodG st → GoodG st') ∧ (CounterInv st → CounterInv st') := by
  intro e
  induction e with
  | var i =>
      intro st st' r hn h
      simp only [buildG, Except.ok.injEq, Prod.mk.injEq] at h
      obtain ⟨h1, h2⟩ := h
      subst h1 h2
      exact ⟨presRefl st, by omega, fun g => g, fun c => c⟩
  | addE e₁ e₂ ih₁ ih₂ =>
      intro st st' r hn h
      simp only [buildG] at h
      cases h₁ : buildG P e₁ st with
      | error ε => rw [h₁, bindErr] at h; cases h
      | ok out₁ =>
          obtain ⟨st₁, r₁⟩ := out₁
          rw [h₁, bindOk] at h
          cases h₂ : buildG P e₂ st₁ with
          | error ε => rw [h₂, bindErr] at h; cases h
          | ok out₂ =>
              obtain ⟨st₂, r₂⟩ := out₂
              rw [h₂, bindOk] at h
              simp only [pure, Except.pure, Except.ok.injEq] at h
              obtain ⟨hp₁, hr₁, hg₁, hc₁⟩ := ih₁ st st₁ r₁ hn h₁
              obtain ⟨hp₂, hr₂, hg₂, hc₂⟩ :=
                ih₂ st₁ st₂ r₂ (le_trans hn hp₁.1) h₂
              have hsp := rnAdd_spec st₂ r₁ (.inr r₂)
                (lt_of_lt_of_le hr₁ hp₂.1) hr₂
              rw [h] at hsp
              exact ⟨presTrans (presTrans hp₁ hp₂) hsp.1, hsp.2.1,
                fun g => hsp.2.2.1 (hg₂ (hg₁ g)),
                fun c => hsp.2.2.2 (hc₂ (hc₁ c))⟩
  | subE e₁ e₂ ih₁ ih₂ =>
      intro st st' r hn h
      simp only [buildG] at h
      cases h₁ : buildG P e₁ st with
      | error ε => rw [h₁, bindErr] at h; cases h
      | ok out₁ =>
          obtain ⟨st₁, r₁⟩ := out₁
          rw [h₁, bindOk] at h
          cases h₂ : buildG P e₂ st₁ with
          | error ε => rw [h₂, bindErr] at h; cases h
          | ok out₂ =>
              obtain ⟨st₂, r₂⟩ := out₂
              rw [h₂, bindOk] at h
              simp only [pure, Except.pure, Except.ok.injEq] at h
              obtain ⟨hp₁, hr₁, hg₁, hc₁⟩ := ih₁ st st₁ r₁ hn h₁
              obtain ⟨hp₂, hr₂, hg₂, hc₂⟩ :=
                ih₂ st₁ st₂ r₂ (le_trans hn hp₁.1) h₂
              have hsp := rnSub_spec st₂ r₁ (.inr r₂)
                (lt_of_lt_of_le hr₁ hp₂.1) hr₂
              rw [h] at hsp
              exact ⟨presTrans (presTrans hp₁ hp₂) hsp.1, hsp.2.1,
                fun g => hsp.2.2.1 (hg₂ (hg₁ g)),
                fun c => hsp.2.2.2 (hc₂ (hc₁ c))⟩
  | mulE e₁ e₂ ih₁ ih₂ =>
      intro st st' r hn h
      simp only [buildG] at h
      cases h₁ : buildG P e₁ st with
      | error ε => rw [h₁, bindErr] at h; cases h
      | ok out₁ =>
          obtain ⟨st₁, r₁⟩ := out₁
          rw [h₁, bindOk] at h
          cases h₂ : buildG P e₂ st₁ with
          | error ε => rw [h₂, bindErr] at h; cases h
          | ok out₂ =>
              obtain ⟨st₂, r₂⟩ := out₂
              rw [h₂, bindOk] at h
              simp only [pure, Except.pure, Except.ok.injEq] at h
              obtain ⟨hp₁, hr₁, hg₁, hc₁⟩ := ih₁ st st₁ r₁ hn h₁
              obtain ⟨hp₂, hr₂, hg₂, hc₂⟩ :=
                ih₂ st₁ st₂ r₂ (le_trans hn hp₁.1) h₂
              have hsp := rnMul_spec st₂ r₁ (.inr r₂)
                (lt_of_lt_of_le hr₁ hp₂.1) hr₂
              rw [h] at hsp
              exact ⟨presTrans (presTrans hp₁ hp₂) hsp.1, hsp.2.1,
                fun g => hsp.2.2.1 (hg₂ (hg₁ g)),
                fun c => hsp.2.2.2 (hc₂ (hc₁ c))⟩
  | powE e₁ e₂ ih₁ ih₂ =>
      intro st st' r hn h
      simp only [buildG] at h
      cases h₁ : buildG P e₁ st with
      | error ε => rw [h₁, bindErr] at h; cases h
      | ok out₁ =>
          obtain ⟨st₁, r₁⟩ := out₁
          rw [h₁, bindOk] at h
          cases h₂ : buildG P e₂ st₁ with
          | error ε => rw [h₂, bindErr] at h; cases h
          | ok out₂ =>
              obtain ⟨st₂, r₂⟩ := out₂
              rw [h₂, bindOk] at h
              simp only [pure, Except.pure, Except.ok.injEq] at h
              obtain ⟨hp₁, hr₁, hg₁, hc₁⟩ := ih₁ st st₁ r₁ hn h₁
              obtain ⟨hp₂, hr₂, hg₂, hc₂⟩ :=
                ih₂ st₁ st₂ r₂ (le_trans hn hp₁.1) h₂
              have hsp := rnPow_spec P st₂ r₁ (.inr r₂)
                (lt_of_lt_of_le hr₁ hp₂.1) hr₂
              rw [h] at hsp
              exact ⟨presTrans (presTrans hp₁ hp₂) hsp.1, hsp.2.1,
                fun g => hsp.2.2.1 (hg₂ (hg₁ g)),
                fun c => hsp.2.2.2 (hc₂ (hc₁ c))⟩
  | divE e₁ e₂ ih₁ ih₂ =>
      intro st st' r hn h
      simp only [buildG] at h
      cases h₁ : buildG P e₁ st with
      | error ε => rw [h₁, bindErr] at h; cases h
      | ok out₁ =>
          obtain ⟨st₁, r₁⟩ := out₁
          rw [h₁, bindOk] at h
          cases h₂ : buildG P e₂ st₁ with
          | error ε => rw [h₂, bindErr] at h; cases h
          | ok out₂ =>
              obtain ⟨st₂, r₂⟩ := out₂
              rw [h₂, bindOk] at h
              obtain ⟨hp₁, hr₁, hg₁, hc₁⟩ := ih₁ st st₁ r₁ hn h₁
              obtain ⟨hp₂, hr₂, hg₂, hc₂⟩ :=
                ih₂ st₁ st₂ r₂ (le_trans hn hp₁.1) h₂
              have hsp := rnDiv_spec st₂ r₁ (.inr r₂) (st', r)
                (lt_of_lt_of_le hr₁ hp₂.1) hr₂ h
              exact ⟨presTrans (presTrans hp₁ hp₂) hsp.1, hsp.2.1,
                fun g => hsp.2.2.1 (hg₂ (hg₁ g)),
                fun c => hsp.2.2.2 (hc₂ (hc₁ c))⟩
  | addC e c ih =>
      intro st st' r hn h
      simp only [buildG] at h
      cases h₁ : buildG P e st with
      | error ε => rw [h₁, bindErr] at h; cases h
      | ok out₁ =>
          obtain ⟨st₁, r₁⟩ := out₁
          rw [h₁, bindOk] at h
          simp only [pure, Except.pure, Except.ok.injEq] at h
          obtain ⟨hp₁, hr₁, hg₁, hc₁⟩ := ih st st₁ r₁ hn h₁
          have hsp := rnAdd_spec st₁ r₁ (.inl c) hr₁ trivial
          rw [h] at hsp
          exact ⟨presTrans hp₁ hsp.1, hsp.2.1, fun g => hsp.2.2.1 (hg₁ g),
            fun c' => hsp.2.2.2 (hc₁ c')⟩
  | subC e c ih =>
      intro st st' r hn h
      simp only [buildG] at h
      cases h₁ : buildG P e st with
      | error ε => rw [h₁, bindErr] at h; cases h
      | ok out₁ =>
          obtain ⟨st₁, r₁⟩ := out₁
          rw [h₁, bindOk] at h
          simp only [pure, Except.pure, Except.ok.injEq] at h
          obtain ⟨hp₁, hr₁, hg₁, hc₁⟩ := ih st st₁ r₁ hn h₁
          have hsp := rnSub_spec st₁ r₁ (.inl c) hr₁ trivial
          rw [h] at hsp
          exact ⟨presTrans hp₁ hsp.1, hsp.2.1, fun g => hsp.2.2.1 (hg₁ g),
            fun c' => hsp.2.2.2 (hc₁ c')⟩
  | rsubC c e ih =>
      intro st st' r hn h
      simp only [buildG] at h
      cases h₁ : buildG P e st with
      | error ε => rw [h₁, bindErr] at h; cases h
      | ok out₁ =>
          obtain ⟨st₁, r₁⟩ := out₁
          rw [h₁, bindOk] at h
          simp only [pure, Except.pure, Except.ok.injEq] at h
          obtain ⟨hp₁, hr₁, hg₁, hc₁⟩ := ih st st₁ r₁ hn h₁
          have hsp := rnRsub_spec st₁ r₁ c hr₁
          rw [h] at hsp
          exact ⟨presTrans hp₁ hsp.1, hsp.2.1, fun g => hsp.2.2.1 (hg₁ g),
            fun c' => hsp.2.2.2 (hc₁ c')⟩
  | mulC e c ih =>
      intro st st' r hn h
      simp only [buildG] at h
      cases h₁ : buildG P e st with
      | error ε => rw [h₁, bindErr] at h; cases h
      | ok out₁ =>
          obtain ⟨st₁, r₁⟩ := out₁
          rw [h₁, bindOk] at h
          simp only [pure, Except.pure, Except.ok.injEq] at h
          obtain ⟨hp₁, hr₁, hg₁, hc₁⟩ := ih st st₁ r₁ hn h₁
          have hsp := rnMul_spec st₁ r₁ (.inl c) hr₁ trivial
          rw [h] at hsp
          exact ⟨presTrans hp₁ hsp.1, hsp.2.1, fun g => hsp.2.2.1 (hg₁ g),
            fun c' => hsp.2.2.2 (hc₁ c')⟩
  | divC e c ih =>
      intro st st' r hn h
      simp only [buildG] at h
      cases h₁ : buildG P e st with
      | error ε => rw [h₁, bindErr] at h; cases h
      | ok out₁ =>
          obtain ⟨st₁, r₁⟩ := out₁
          rw [h₁, bindOk] at h
          obtain ⟨hp₁, hr₁, hg₁, hc₁⟩ := ih st st₁ r₁ hn h₁
          have hsp := rnDiv_spec st₁ r₁ (.inl c) (st', r) hr₁ trivial h
          exact ⟨presTrans hp₁ hsp.1, hsp.2.1, fun g => hsp.2.2.1 (hg₁ g),
            fun c' => hsp.2.2.2 (hc₁ c')⟩
  | rdivC c e ih =>
      intro st st' r hn h
      simp only [buildG] at h
      cases h₁ : buildG P e st with
      | error ε => rw [h₁, bindErr] at h; cases h
      | ok out₁ =>
          obtain ⟨st₁, r₁⟩ := out₁
          rw [h₁, bindOk] at h
          obtain ⟨hp₁, hr₁, hg₁, hc₁⟩ := ih st st₁ r₁ hn h₁
          have hsp := rnRdiv_spec st₁ r₁ c (st', r) hr₁ h
          exact ⟨presTrans hp₁ hsp.1, hsp.2.1, fun g => hsp.2.2.1 (hg₁ g),
            fun c' => hsp.2.2.2 (hc₁ c')⟩
  | powC e c ih =>
      intro st st' r hn h
      simp only [buildG] at h
      cases h₁ : buildG P e st with
      | error ε => rw [h₁, bindErr] at h; cases h
      | ok out₁ =>
          obtain ⟨st₁, r₁⟩ := out₁
          rw [h₁, bindOk] at h
          simp only [pure, Except.pure, Except.ok.injEq] at h
          obtain ⟨hp₁, hr₁, hg₁, hc₁⟩ := ih st st₁ r₁ hn h₁
          have hsp := rnPow_spec P st₁ r₁ (.inl c) hr₁ trivial
          rw [h] at hsp
          exact ⟨presTrans hp₁ hsp.1, hsp.2.1, fun g => hsp.2.2.1 (hg₁ g),
            fun c' => hsp.2.2.2 (hc₁ c')⟩
  | rpowC c e ih =>
      intro st st' r hn h
      simp only [buildG] at h
      cases h₁ : buildG P e st with
      | error ε => rw [h₁, bindErr] at h; cases h
      | ok out₁ =>
          obtain ⟨st₁, r₁⟩ := out₁
          rw [h₁, bindOk] at h
          simp only [pure, Except.pure, Except.ok.injEq] at h
          obtain ⟨hp₁, hr₁, hg₁, hc₁⟩ := ih st st₁ r₁ hn h₁
          have hsp := rnRpow_spec P st₁ r₁ c hr₁
          rw [h] at hsp
          exact ⟨presTrans hp₁ hsp.1, hsp.2.1, fun g => hsp.2.2.1 (hg₁ g),
            fun c' => hsp.2.2.2 (hc₁ c')⟩
  | un u e ih =>
      intro st st' r hn h
      simp only [buildG] at h
      cases h₁ : buildG P e st with
      | error ε => rw [h₁, bindErr] at h; cases h
      | ok out₁ =>
          obtain ⟨st₁, r₁⟩ := out₁
          rw [h₁, bindOk] at h
          obtain ⟨hp₁, hr₁, hg₁, hc₁⟩ := ih st st₁ r₁ hn h₁
          have hsp := rnUnary_spec P u st₁ r₁ (st', r) hr₁ h
          exact ⟨presTrans hp₁ hsp.1, hsp.2.1, fun g => hsp.2.2.1 (hg₁ g),
            fun c' => hsp.2.2.2 (hc₁ c')⟩

/-- Wrapping a list of input coordinates in fresh leaf nodes, starting from
an arbitrary state: the counter advances by the number of inputs, old nodes
are untouched, and the `j`-th new leaf carries value `point[j]` and creation
index `initial counter + j`. -/
theorem foldLeaves_spec (point : List α) : ∀ st : GState α,
    (point.foldl (fun st p => (mkLeaf st p).1) st).increment =
      st.increment + point.length ∧
    (point.foldl (fun st p => (mkLeaf st p).1) st).nodes.length =
      st.nodes.length + point.length ∧
    (∀ j < st.nodes.length,
      getNode (point.foldl (fun st p => (mkLeaf st p).1) st) j =
        getNode st j) ∧
    (∀ j < point.length,
      getNode (point.foldl (fun st p => (mkLeaf st p).1) st)
          (st.nodes.length + j) =
        ⟨point.getD j 0, 0, st.increment + j, "", [], .none⟩) := by
  induction point with
  | nil => intro st; simp
  | cons p point ih =>
      intro st
      rw [List.foldl_cons]
      obtain ⟨h1, h2, h3, h4⟩ := ih (mkLeaf st p).1
      have hlen : (mkLeaf st p).1.nodes.length = st.nodes.length + 1 :=
        mkNode_len st p [] "" .none
      have hinc : (mkLeaf st p).1.increment = st.increment + 1 := rfl
      refine ⟨?_, ?_, ?_, ?_⟩
      · rw [h1, hinc, List.length_cons]; omega
      · rw [h2, hlen, List.length_cons]; omega
      · intro j hj
        rw [h3 j (by omega), mkLeaf, getNode_mkNode_old st p [] "" .none j hj]
      · intro j hj
        cases j with
        | zero =>
            have := h3 st.nodes.length (by omega)
            rw [Nat.add_zero, this, mkLeaf, getNode_mkNode_new]
            simp
        | succ j =>
            have hj' : j < point.length := by
              rw [List.length_cons] at hj; omega
            have := h4 j hj'
            rw [show st.nodes.length + (j + 1) =
              (mkLeaf st p).1.nodes.length + j by rw [hlen]; omega, this,
              hinc]
            simp [Nat.add_assoc, Nat.add_comm 1 j]

/-- Building all outputs of a body preserves the construction invariants;
output roots are nodes of the final state. -/
theorem buildBody_spec (P : Prim α) {n : Nat} (body : FBody n α) :
    ∀ (st st' : GState α) (rs : List Nat), n ≤ st.nodes.length →
      buildBody P body st = .ok (st', rs) →
      Pres st st' ∧ (∀ r ∈ rs, r < st'.nodes.length) ∧
      (GoodG st → GoodG st') ∧ (CounterInv st → CounterInv st') := by
  cases body with
  | one e =>
      intro st st' rs hn h
      simp only [buildBody] at h
      cases h₁ : buildG P e st with
      | error ε => rw [h₁, bindErr] at h; cases h
      | ok out =>
          obtain ⟨st₁, r₁⟩ := out
          rw [h₁, bindOk] at h
          simp only [pure, Except.pure, Except.ok.injEq, Prod.mk.injEq] at h
          obtain ⟨rfl, rfl⟩ := h
          obtain ⟨hp, hr, hg, hc⟩ := buildG_spec P e st st₁ r₁ hn h₁
          exact ⟨hp, by simpa using hr, hg, hc⟩
  | many es =>
      suffices key : ∀ (es' : List (Expr n α)) (st : GState α)
          (acc : List Nat) (st' : GState α) (rs : List Nat),
          n ≤ st.nodes.length → (∀ r ∈ acc, r < st.nodes.length) →
          es'.foldlM (fun acc e => do
            let (st, r) ← buildG P e acc.1
            pure (st, acc.2 ++ [r])) (st, acc) = .ok (st', rs) →
          Pres st st' ∧ (∀ r ∈ rs, r < st'.nodes.length) ∧
          (GoodG st → GoodG st') ∧ (CounterInv st → CounterInv st') by
        intro st st' rs hn h
        exact key es st [] st' rs hn (by simp) h
      intro es'
      induction es' with
      | nil =>
          intro st acc st' rs hn hacc h
          simp only [List.foldlM_nil, pure, Except.pure, Except.ok.injEq,
            Prod.mk.injEq] at h
          obtain ⟨rfl, rfl⟩ := h
          exact ⟨presRefl st, hacc, fun g => g, fun c => c⟩
      | cons e es' ih =>
          intro st acc st' rs hn hacc h
          rw [List.foldlM_cons] at h
          cases h₁ : buildG P e st with
          | error ε => rw [h₁, bindErr] at h; cases h
          | ok out =>
              obtain ⟨st₁, r₁⟩ := out
              rw [h₁, bindOk, pureBind] at h
              obtain ⟨hp₁, hr₁, hg₁, hc₁⟩ := buildG_spec P e st st₁ r₁ hn h₁
              obtain ⟨hp₂, hr₂, hg₂, hc₂⟩ :=
                ih st₁ (acc ++ [r₁]) st' rs (le_trans hn hp₁.1)
                  (by
                    intro r hr
                    rcases List.mem_append.mp hr with hr | hr
                    · exact lt_of_lt_of_le (hacc r hr) hp₁.1
                    · simpa [List.mem_singleton.mp hr] using hr₁) h
              exact ⟨presTrans hp₁ hp₂, hr₂, fun g => hg₂ (hg₁ g),
                fun c => hc₂ (hc₁ c)⟩

/-- `Func._reverse`'s initial state satisfies the counter discipline. -/
theorem reverseInit_counterInv (point : List α) :
    CounterInv (reverseInit point : GState α) ∧
    (reverseInit point : GState α).increment = point.length ∧
    (reverseInit point : GState α).nodes.length = point.length ∧
    (∀ j < point.length, getNode (reverseInit point : GState α) j =
      ⟨point.getD j 0, 0, j, "", [], .none⟩) := by
  obtain ⟨h1, h2, h3, h4⟩ := foldLeaves_spec point (⟨0, []⟩ : GState α)
  rw [reverseInit]
  simp only [List.length_nil, Nat.zero_add] at h1 h2 h4
  refine ⟨⟨by rw [h1, h2], fun i hi => ?_⟩, h1, h2, fun j hj => by
    simpa using h4 j hj⟩
  rw [h2] at hi
  have := h4 i hi
  simp only [Nat.zero_add] at this
  rw [nameOf, this]

/-- **C2 (amended)**: the reverse-mode Jacobian path resets the node counter
to 0 and creates the declared inputs as the very first nodes, in input
order; consequently, throughout that evaluation a node's creation index is
below `num_inputs` iff the node is one of the declared inputs, and then the
index is the input's ordinal position.  The `graph` entry point, however,
does **not** reset the counter: its first created node carries whatever
counter value was inherited from earlier evaluations. -/
theorem C2_counter_reset (P : Prim α) {n : Nat} (x : Fin n → α)
    (body : FBody n α) :
    ((reverseInit (List.ofFn x) : GState α).increment = n ∧
      (reverseInit (List.ofFn x) : GState α).nodes.length = n ∧
      ∀ j < n, getNode (reverseInit (List.ofFn x) : GState α) j =
        ⟨(List.ofFn x).getD j 0, 0, j, "", [], .none⟩) ∧
    (∀ (st' : GState α) (rs : List Nat),
      buildBody P body (reverseInit (List.ofFn x)) = .ok (st', rs) →
      ∀ u < st'.nodes.length,
        (nameOf st' u < n ↔ u < n) ∧
        (u < n → nameOf st' u = u ∧
          getNode st' u =
            ⟨(List.ofFn x).getD u 0, 0, u, "", [], .none⟩)) ∧
    (∀ (inc0 : Nat) (point : PyArg α) (st' : GState α) (r : Nat)
        (gobj : List Nat × List (Nat × Nat)),
      graphRun P 1 body point inc0 = .ok (st', r, gobj) →
      0 < point.toList.length → nameOf st' 0 = inc0) := by
  obtain ⟨hci, hinc, hlen, hnodes⟩ := reverseInit_counterInv (List.ofFn x)
  rw [List.length_ofFn] at hinc hlen hnodes
  refine ⟨⟨hinc, hlen, hnodes⟩, ?_, ?_⟩
  · intro st' rs h u hu
    obtain ⟨hp, _, _, hc⟩ := buildBody_spec P body (reverseInit (List.ofFn x))
      st' rs (by omega) h
    have hname : nameOf st' u = u := (hc hci).2 u hu
    refine ⟨by rw [hname], fun hun => ⟨hname, ?_⟩⟩
    rw [hp.2 u (by omega)]
    exact hnodes u hun
  · intro inc0 point st' r gobj h hpos
    rw [graphRun, if_neg (by simp)] at h
    by_cases hl : point.toList.length ≠ n
    · rw [if_pos hl] at h; cases h
    rw [if_neg hl] at h
    rw [not_not] at hl
    obtain ⟨hf1, hf2, hf3, hf4⟩ :=
      foldLeaves_spec point.toList (⟨inc0, []⟩ : GState α)
    cases body with
    | one e =>
        simp only at h
        cases hb : buildG P e
            (point.toList.foldl (fun st p => (mkLeaf st p).1) ⟨inc0, []⟩) with
        | error ε => rw [hb, bindErr] at h; cases h
        | ok out =>
            obtain ⟨st₁, r₁⟩ := out
            rw [hb, bindOk] at h
            simp only [pure, Except.pure, Except.ok.injEq,
              Prod.mk.injEq] at h
            obtain ⟨rfl, rfl, rfl⟩ := h
            obtain ⟨hp, _, _, _⟩ := buildG_spec P e _ st₁ r₁
              (by simp only [List.length_nil, Nat.zero_add] at hf2; omega) hb
            have h0 : getNode st₁ 0 =
                ⟨point.toList.getD 0 0, 0, inc0, "", [], .none⟩ := by
              rw [hp.2 0 (by
                simp only [List.length_nil, Nat.zero_add] at hf2; omega)]
              have := hf4 0 hpos
              simpa using this
            rw [nameOf, h0]
    | many es => cases h

/-- Counterexample to C2 as stated: `Func.graph` does *not* reset the
counter.  With the process-wide counter at 1 (as left by any previous
one-node reverse evaluation), `graph` on the identity function of one input
produces an input node whose creation index is 1, so
"`creation_index < num_inputs` iff the node is a declared input" fails:
the (only) declared input has index `1 ≥ num_inputs = 1`. -/
theorem C2_counterexample :
    graphRun qPrim 1 (.one (.var (0 : Fin 1))) (.seq [(5 : ℚ)]) 1 =
      .ok (⟨2, [⟨5, 0, 1, "", [], .none⟩]⟩, 0, ([0], [])) ∧
    ¬ nameOf (⟨2, [⟨5, 0, 1, "", [], BRule.none⟩]⟩ : GState ℚ) 0 < 1 := by
  constructor
  · with_unfolding_all rfl
  · decide

/-- Witness for the amended C2, at the one-input identity body and
`x = (3)`: the reverse path's initial state has counter `1 = num_inputs`
with the input as node 0 named `v0`, and after the body is built the
creation-index criterion holds; the graph path started at counter 1 names
its input `v1`. -/
theorem C2_witness :
    ((reverseInit (List.ofFn (fun _ : Fin 1 => (3 : ℚ)))).increment = 1 ∧
      (reverseInit (List.ofFn (fun _ : Fin 1 => (3 : ℚ)))).nodes.length = 1 ∧
      ∀ j < 1,
        getNode (reverseInit (List.ofFn (fun _ : Fin 1 => (3 : ℚ)))) j =
          ⟨(List.ofFn (fun _ : Fin 1 => (3 : ℚ))).getD j 0, 0, j, "", [],
           .none⟩) ∧
    (nameOf (reverseInit (List.ofFn (fun _ : Fin 1 => (3 : ℚ)))) 0 < 1 ↔
      0 < 1) ∧
    nameOf (⟨2, [⟨5, 0, 1, "", [], BRule.none⟩]⟩ : GState ℚ) 0 = 1 :=
  ⟨(C2_counter_reset qPrim (fun _ : Fin 1 => (3 : ℚ))
      (.one (.var 0))).1,
   ((C2_counter_reset qPrim (fun _ : Fin 1 => (3 : ℚ)) (.one (.var 0))).2.1
      (reverseInit (List.ofFn (fun _ : Fin 1 => (3 : ℚ)))) [0]
      (by with_unfolding_all rfl) 0 (by decide)).1,
   (C2_counter_reset qPrim (fun _ : Fin 1 => (3 : ℚ)) (.one (.var 0))).2.2
      1 (.seq [5]) ⟨2, [⟨5, 0, 1, "", [], BRule.none⟩]⟩ 0 ([0], [])
      (by with_unfolding_all rfl) (by decide)⟩

end BuildInv

section ClaimC4

variable [LinearOrderedField α]

/-- A backward rule "accumulates (`+=`) into each parent's adjoint": firing
it *adds* its local-partial contribution (per unit of the result node's
adjoint, re-read between the statements) to each target's current adjoint
instead of overwriting it, and leaves every other adjoint unchanged. -/
def RuleAccumulates (P : Prim α) (rule : BRule α) : Prop :=
  ∀ u u' : GState α, runRule P u rule = .ok u' →
    (∀ t ∈ ruleTargets rule, t < u.nodes.length ∧ t ≠ ruleResD rule) →
    ∀ j, getDer u' j =
      getDer u j + ruleCoeff P u rule j * getDer u (ruleResD rule)

theorem ruleAccumulates_all (P : Prim α) (rule : BRule α) :
    RuleAccumulates P rule :=
  fun u u' h htgt => runRule_ok_der P u rule u' h htgt

/-- The shape C4 claims for a binary operation on node `self` with a bare
scalar operand `c`: a fresh leaf node holding `c` is created first
(consuming one counter slot), then the result node whose parents are the
two operand nodes, whose backward rule reads the result node's adjoint and
accumulates into both operands' adjoints. -/
def PromotesAndPairs (P : Prim α) (st : GState α) (self : Nat) (c : α)
    (out : GState α × Nat) : Prop :=
  out.1.nodes.length = st.nodes.length + 2 ∧
  out.1.increment = st.increment + 2 ∧
  getNode out.1 st.nodes.length = ⟨c, 0, st.increment, "", [], .none⟩ ∧
  out.2 = st.nodes.length + 1 ∧
  parentsOf out.1 out.2 = [self, st.nodes.length] ∧
  ruleTargets (ruleOf out.1 out.2) = [self, st.nodes.length] ∧
  ruleResD (ruleOf out.1 out.2) = out.2 ∧
  RuleAccumulates P (ruleOf out.1 out.2)

/-- Any operation of the common promoted-binary shape satisfies
`PromotesAndPairs`. -/
theorem promotedBin_shape (P : Prim α) (st : GState α) (self : Nat)
    (c v : α) (opstr : String) (rule : BRule α)
    (hself : self < st.nodes.length)
    (hres : ruleResD rule = st.nodes.length + 1)
    (htg : ruleTargets rule = [self, st.nodes.length]) :
    PromotesAndPairs P st self c
      (mkNode (mkLeaf st c).1 v (parentsPair self st.nodes.length) opstr
        rule) := by
  have h1len : (mkLeaf st c).1.nodes.length = st.nodes.length + 1 :=
    mkNode_len st c [] "" .none
  have hpp : parentsPair self st.nodes.length = [self, st.nodes.length] := by
    rw [parentsPair, if_neg (by omega)]
  refine ⟨?_, ?_, ?_, ?_, ?_, ?_, ?_, ruleAccumulates_all P _⟩
  · rw [mkNode_len, h1len]
  · rw [mkNode_inc]; rfl
  · rw [getNode_mkNode_old _ v _ opstr rule st.nodes.length (by omega),
      mkLeaf, getNode_mkNode_new]
  · rw [mkNode_idx, h1len]
  · rw [mkNode_idx, parentsOf, getNode_mkNode_new, hpp]
  · rw [mkNode_idx, ruleOf, getNode_mkNode_new]
    exact htg
  · rw [mkNode_idx, ruleOf, getNode_mkNode_new]
    dsimp only
    rw [hres, h1len]

/-- **C4 (amended)**: nine of the ten binary dunders (`add`, `radd`, `sub`,
`rsub`, `mul`, `rmul`, `truediv`, `rtruediv`, `pow`) with a bare numeric
operand first wrap it in a fresh leaf node (consuming one counter slot) and
make the result node's parents the two operand nodes, with a backward rule
accumulating (`+=`) into each parent's adjoint.  `rpow`, however, does
**not** promote its numeric base: it creates a single node whose only
parent is `self`, with a rule accumulating into `self` alone. -/
theorem C4_numeric_operand (P : Prim α) (st : GState α) (self : Nat) (c : α)
    (hself : self < st.nodes.length) :
    PromotesAndPairs P st self c (rnAdd st self (.inl c)) ∧
    PromotesAndPairs P st self c (rnRadd st self c) ∧
    PromotesAndPairs P st self c (rnSub st self (.inl c)) ∧
    PromotesAndPairs P st self c (rnRsub st self c) ∧
    PromotesAndPairs P st self c (rnMul st self (.inl c)) ∧
    PromotesAndPairs P st self c (rnRmul st self c) ∧
    PromotesAndPairs P st self c (rnPow P st self (.inl c)) ∧
    (∀ out, rnDiv st self (.inl c) = .ok out →
      PromotesAndPairs P st self c out) ∧
    (∀ out, rnRdiv st self c = .ok out →
      PromotesAndPairs P st self c out) ∧
    ((rnRpow P st self c).1.nodes.length = st.nodes.length + 1 ∧
     (rnRpow P st self c).1.increment = st.increment + 1 ∧
     (rnRpow P st self c).2 = st.nodes.length ∧
     parentsOf (rnRpow P st self c).1 (rnRpow P st self c).2 = [self] ∧
     ruleTargets (ruleOf (rnRpow P st self c).1 (rnRpow P st self c).2) =
       [self] ∧
     RuleAccumulates P
       (ruleOf (rnRpow P st self c).1 (rnRpow P st self c).2)) := by
  refine ⟨?_, ?_, ?_, ?_, ?_, ?_, ?_, ?_, ?_,
    mkNode_len st _ [self] "^" _, rfl, rfl, ?_, ?_, ruleAccumulates_all P _⟩
  · exact promotedBin_shape P st self c _ "+" _ hself
      (by simp [ruleResD, mkLeaf, mkNode]) (by simp [ruleTargets])
  · exact promotedBin_shape P st self c _ "+" _ hself
      (by simp [ruleResD, mkLeaf, mkNode]) (by simp [ruleTargets])
  · exact promotedBin_shape P st self c _ "-" _ hself
      (by simp [ruleResD, mkLeaf, mkNode]) (by simp [ruleTargets])
  · exact promotedBin_shape P st self c _ "-" _ hself
      (by simp [ruleResD, mkLeaf, mkNode]) (by simp [ruleTargets])
  · exact promotedBin_shape P st self c _ "x" _ hself
      (by simp [ruleResD, mkLeaf, mkNode]) (by simp [ruleTargets])
  · exact promotedBin_shape P st self c _ "x" _ hself
      (by simp [ruleResD, mkLeaf, mkNode]) (by simp [ruleTargets])
  · exact promotedBin_shape P st self c _ "^" _ hself
      (by simp [ruleResD, mkLeaf, mkNode]) (by simp [ruleTargets])
  · intro out h
    rw [rnDiv] at h
    dsimp only [promote, mkLeaf, mkNode] at h
    split_ifs at h
    simp only [Except.ok.injEq] at h
    subst h
    exact promotedBin_shape P st self c _ "/" _ hself
      (by simp [ruleResD, mkLeaf, mkNode]) (by simp [ruleTargets])
  · intro out h
    rw [rnRdiv] at h
    dsimp only [mkLeaf, mkNode] at h
    split_ifs at h
    simp only [Except.ok.injEq] at h
    subst h
    exact promotedBin_shape P st self c _ "/" _ hself
      (by simp [ruleResD, mkLeaf, mkNode]) (by simp [ruleTargets])
  · rw [rnRpow, mkNode_idx, parentsOf, getNode_mkNode_new]
  · rw [rnRpow, mkNode_idx, ruleOf, getNode_mkNode_new]
    simp [ruleTargets]

/-- Counterexample to C4 as stated: `__rpow__` applied to the single-node
graph `x = rNode(3)` (counter at 1) as `2 ** x` adds only **one** node — no
leaf is created for the base `2` — and the result's parents are `[x]`
alone, not the two operand nodes. -/
theorem C4_counterexample :
    (rnRpow qPrim (⟨1, [⟨3, 0, 0, "", [], BRule.none⟩]⟩ : GState ℚ)
        0 2).1.nodes.length = 2 ∧
    parentsOf (rnRpow qPrim (⟨1, [⟨3, 0, 0, "", [], BRule.none⟩]⟩ :
        GState ℚ) 0 2).1
      (rnRpow qPrim (⟨1, [⟨3, 0, 0, "", [], BRule.none⟩]⟩ : GState ℚ)
        0 2).2 = [0] ∧
    ¬ (rnRpow qPrim (⟨1, [⟨3, 0, 0, "", [], BRule.none⟩]⟩ : GState ℚ)
        0 2).1.nodes.length = 1 + 2 := by
  refine ⟨?_, ?_, ?_⟩ <;> with_unfolding_all decide

/-- Witness for the amended C4 on the one-node graph `x = rNode(3)`:
`x + 2` has the promoted two-parent shape, and so does `x / 2` (its
concrete result state shown explicitly: leaf `2` appended, then the
division node with parents `[0, 1]`). -/
theorem C4_witness :
    PromotesAndPairs qPrim (⟨1, [⟨3, 0, 0, "", [], BRule.none⟩]⟩ : GState ℚ)
      0 2 (rnAdd ⟨1, [⟨3, 0, 0, "", [], BRule.none⟩]⟩ 0 (.inl 2)) ∧
    PromotesAndPairs qPrim (⟨1, [⟨3, 0, 0, "", [], BRule.none⟩]⟩ : GState ℚ)
      0 2
      (⟨3, [⟨3, 0, 0, "", [], BRule.none⟩, ⟨2, 0, 1, "", [], BRule.none⟩,
            ⟨3 / 2, 0, 2, "/", [0, 1], BRule.div 0 1 2⟩]⟩, 2) :=
  ⟨(C4_numeric_operand qPrim ⟨1, [⟨3, 0, 0, "", [], BRule.none⟩]⟩ 0 2
      (by decide)).1,
   (C4_numeric_operand qPrim ⟨1, [⟨3, 0, 0, "", [], BRule.none⟩]⟩ 0 2
      (by decide)).2.2.2.2.2.2.2.1 _ (by with_unfolding_all rfl)⟩

end ClaimC4

section ClaimC9

variable [LinearOrderedField α]

/-- A rule adds nothing to the adjoint of a node it does not target. -/
theorem ruleCoeff_not_target (P : Prim α) (u : GState α) (rule : BRule α)
    (x : Nat) (hx : x ∉ ruleTargets rule) : ruleCoeff P u rule x = 0 := by
  cases rule <;> simp_all [ruleTargets, ruleCoeff]

theorem length_zeroSpec : ∀ (l : List Nat) (st : GState α),
    (zeroSpec st l).nodes.length = st.nodes.length := by
  intro l
  induction l with
  | nil => intro st; rfl
  | cons j l ih =>
      intro st
      rw [zeroSpec, ih (setDer st j 0), length_setDer]

theorem getDer_zeroSpec_ne (i : Nat) : ∀ (l : List Nat) (st : GState α),
    i ∉ l → getDer (zeroSpec st l) i = getDer st i := by
  intro l
  induction l with
  | nil => intro st _; rfl
  | cons j l ih =>
      intro st hi
      rw [zeroSpec, ih (setDer st j 0) (fun h => hi (List.mem_cons_of_mem j h))]
      exact getDer_setDer_ne st j i 0
        (fun h => hi (by rw [h]; exact List.mem_cons_self j l))

theorem getDer_zeroSpec_mem (i : Nat) : ∀ (l : List Nat) (st : GState α),
    i ∈ l → i < st.nodes.length → getDer (zeroSpec st l) i = 0 := by
  intro l
  induction l with
  | nil => intro st h _; simp at h
  | cons j l ih =>
      intro st hi hlen
      rw [zeroSpec]
      by_cases hil : i ∈ l
      · exact ih (setDer st j 0) hil (by rw [length_setDer]; exact hlen)
      · have hij : i = j := by
          rcases List.mem_cons.mp hi with h | h
          · exact h
          · exact absurd h hil
        subst hij
        rw [getDer_zeroSpec_ne i l (setDer st i 0) hil]
        exact getDer_setDer_self st i 0 hlen

/-- Reachability only descends the arena on a well-formed graph. -/
theorem reach_le (st : GState α)
    (hwf : ∀ y, ∀ p ∈ parentsOf st y, p < y) :
    ∀ a b, Reach st a b → b ≤ a := by
  intro a b hr
  induction hr with
  | refl i => exact le_refl i
  | step hp _ ih => exact le_trans ih (le_of_lt (hwf _ _ hp))

/-- The reversed walk splits along list concatenation. -/
theorem walkSpec_append (P : Prim α) (n : Nat) (l₁ l₂ : List Nat) :
    ∀ (row : List α) (st : GState α),
      walkSpec P n (l₁ ++ l₂) row st =
        match walkSpec P n l₁ row st with
        | .error e => .error e
        | .ok (row', st') => walkSpec P n l₂ row' st' := by
  induction l₁ with
  | nil => intro row st; rfl
  | cons i l₁ ih =>
      intro row st
      rw [List.cons_append]
      simp only [walkSpec]
      cases hr : runRule P st (ruleOf st i) with
      | error e => rfl
      | ok st' => exact ih _ st'

/-- A reversed walk over nodes none of whose rules target `x` leaves `x`'s
adjoint unchanged (and changes nothing static). -/
theorem walk_keeps_der (P : Prim α) (n x : Nat) :
    ∀ (l : List Nat) (row row' : List α) (u u' : GState α),
      walkSpec P n l row u = .ok (row', u') →
      (∀ i ∈ l, ∀ t ∈ ruleTargets (ruleOf u i),
        t ≠ x ∧ t < u.nodes.length ∧ t ≠ ruleResD (ruleOf u i)) →
      getDer u' x = getDer u x ∧ SEq u u' := by
  intro l
  induction l with
  | nil =>
      intro row row' u u' h _
      simp only [walkSpec, Except.ok.injEq, Prod.mk.injEq] at h
      rw [← h.2]
      exact ⟨rfl, seqRefl u⟩
  | cons i l ih =>
      intro row row' u u' h hhyp
      simp only [walkSpec] at h
      cases hr : runRule P u (ruleOf u i) with
      | error e => rw [hr] at h; cases h
      | ok u₁ =>
          rw [hr] at h
          have hseq : SEq u u₁ := runRule_SEq P u _ u₁ hr
          have hder := runRule_ok_der P u (ruleOf u i) u₁ hr
            (fun t ht => ⟨(hhyp i (List.mem_cons_self i l) t ht).2.1,
                          (hhyp i (List.mem_cons_self i l) t ht).2.2⟩)
          have hnx : x ∉ ruleTargets (ruleOf u i) := fun hmx =>
            (hhyp i (List.mem_cons_self i l) x hmx).1 rfl
          have hx1 : getDer u₁ x = getDer u x := by
            rw [hder x, ruleCoeff_not_target P u _ x hnx]
            ring
          obtain ⟨hd, hs⟩ := ih _ row' u₁ u' h (fun i' hi' t ht => by
            rw [(hseq.2 i').2.2.2] at ht
            obtain ⟨a, b, c⟩ := hhyp i' (List.mem_cons_of_mem i hi') t ht
            refine ⟨a, ?_, ?_⟩
            · rw [hseq.1]; exact b
            · rw [(hseq.2 i').2.2.2]; exact c)
          exact ⟨hd.trans hx1, seqTrans hseq hs⟩

/-- Core of C9: append to a well-formed graph a result node whose parents
are `[x]` but whose rule runs *both* accumulation statements on `x`
(targets `[x, x]`), then run `backward` from it: `x` ends with the *sum* of
the two local partials (`co`, the rule's total coefficient at `x`). -/
theorem backward_diamond (P : Prim α) (n : Nat) (st : GState α) (x : Nat)
    (v co : α) (opstr : String) (rule : BRule α)
    (hx : x < st.nodes.length) (hg : GoodG st)
    (hres : ruleResD rule = st.nodes.length)
    (htgts : ruleTargets rule = [x, x])
    (hco : ∀ u : GState α, getVal u x = getVal st x →
      ruleCoeff P u rule x = co) :
    ∀ (row : List α) (st'' : GState α),
      backward P n st.nodes.length (mkNode st v [x] opstr rule).1 =
        .ok (row, st'') →
      getDer st'' x = co := by
  intro row st'' h
  have hlen1 : (mkNode st v [x] opstr rule).1.nodes.length =
      st.nodes.length + 1 := mkNode_len st v [x] opstr rule
  have hnodeL : getNode (mkNode st v [x] opstr rule).1 st.nodes.length =
      ⟨v, 0, st.increment, opstr, [x], rule⟩ :=
    getNode_mkNode_new st v [x] opstr rule
  have hparL : parentsOf (mkNode st v [x] opstr rule).1 st.nodes.length =
      [x] := by rw [parentsOf, hnodeL]
  have hruleL : ruleOf (mkNode st v [x] opstr rule).1 st.nodes.length =
      rule := by rw [ruleOf, hnodeL]
  have hrwf : RuleWF rule st.nodes.length [x] := by
    cases rule <;> simp_all [RuleWF, ruleTargets, ruleResD]
  have hg₁ : GoodG (mkNode st v [x] opstr rule).1 :=
    (mkNode_spec st v [x] opstr rule (by simpa using hx)
      (List.nodup_singleton x) hrwf).2.1 hg
  obtain ⟨hnd, hmem, hpw, hcl, hroot⟩ :=
    sortNodes_spec (mkNode st v [x] opstr rule).1 hg₁.wf st.nodes.length
  have hbs : backward P n st.nodes.length (mkNode st v [x] opstr rule).1 =
      walkSpec P n
        (sortNodes (mkNode st v [x] opstr rule).1 st.nodes.length).reverse
        (List.replicate n 0)
        (setDer
          (zeroSpec (mkNode st v [x] opstr rule).1
            (sortNodes (mkNode st v [x] opstr rule).1 st.nodes.length))
          st.nodes.length 1) := by
    rw [backward, zeroDers_eq_zeroSpec]
    exact foldlM_sweep_eq_walkSpec P n _ _ _
  rw [hbs] at h
  obtain ⟨topo, htopo⟩ :
      ∃ l, sortNodes (mkNode st v [x] opstr rule).1 st.nodes.length = l :=
    ⟨_, rfl⟩
  rw [htopo] at h hnd hmem hcl hroot
  have hreach : ∀ a b, Reach (mkNode st v [x] opstr rule).1 a b → b ≤ a :=
    reach_le _ hg₁.wf
  have htople : ∀ y ∈ topo, y = st.nodes.length ∨ y ≤ x := by
    intro y hy
    have hr := (hmem y).1 hy
    cases hr with
    | refl => exact Or.inl rfl
    | step hp hr' =>
        rw [hparL] at hp
        simp only [List.mem_singleton] at hp
        rw [hp] at hr'
        exact Or.inr (hreach x y hr')
  have hxtopo : x ∈ topo :=
    hcl st.nodes.length hroot x (by rw [hparL]; exact List.mem_singleton_self x)
  have hzs : SEq (mkNode st v [x] opstr rule).1
      (zeroSpec (mkNode st v [x] opstr rule).1 topo) := by
    rw [← zeroDers_eq_zeroSpec]
    exact zeroDers_SEq _ topo
  have hseq12 : SEq (mkNode st v [x] opstr rule).1
      (setDer (zeroSpec (mkNode st v [x] opstr rule).1 topo)
        st.nodes.length 1) :=
    seqTrans hzs (setDer_SEq _ _ 1)
  have hkey : ∀ (w : GState α), SEq (mkNode st v [x] opstr rule).1 w →
      ∀ y, y ≤ x → ∀ t ∈ ruleTargets (ruleOf w y),
        t < x ∧ t < w.nodes.length ∧ t ≠ ruleResD (ruleOf w y) := by
    intro w hsw y hy t ht
    rw [(hsw.2 y).2.2.2] at ht
    have hgoal : t < x ∧ t < (mkNode st v [x] opstr rule).1.nodes.length ∧
        t ≠ ruleResD (ruleOf (mkNode st v [x] opstr rule).1 y) := by
      have hrw := hg₁.rules y
      cases hru : ruleOf (mkNode st v [x] opstr rule).1 y
      case none => rw [hru] at ht; simp [ruleTargets] at ht
      all_goals
        rw [hru] at ht hrw
        obtain ⟨h1, h2⟩ := hrw
        have htp : t < y := hg₁.wf y t (h2 t ht)
        exact ⟨by omega, by omega, by rw [h1]; omega⟩
    refine ⟨hgoal.1, ?_, ?_⟩
    · rw [hsw.1]; exact hgoal.2.1
    · rw [(hsw.2 y).2.2.2]; exact hgoal.2.2
  have hLrev : st.nodes.length ∈ topo.reverse := List.mem_reverse.mpr hroot
  obtain ⟨l1, l2, hsplit⟩ := List.append_of_mem hLrev
  have hndrev : (l1 ++ st.nodes.length :: l2).Nodup := by
    rw [← hsplit]
    exact List.nodup_reverse.mpr hnd
  have hL1 : st.nodes.length ∉ l1 := fun hmem1 =>
    (List.disjoint_of_nodup_append hndrev) hmem1
      (List.mem_cons_self st.nodes.length l2)
  have hmemle : ∀ y, y ∈ l1 ∨ y ∈ l2 → y ≤ x := by
    intro y hy
    have hyt : y ∈ topo := by
      rw [← List.mem_reverse, hsplit]
      rcases hy with hy | hy
      · exact List.mem_append_left _ hy
      · exact List.mem_append_right _ (List.mem_cons_of_mem _ hy)
    rcases htople y hyt with h' | h'
    · subst h'
      rcases hy with hy | hy
      · exact absurd hy hL1
      · have := (List.Nodup.of_append_right hndrev)
        exact absurd hy (List.nodup_cons.mp this).1
    · exact h'
  rw [hsplit, walkSpec_append] at h
  cases h1 : walkSpec P n l1 (List.replicate n 0)
      (setDer (zeroSpec (mkNode st v [x] opstr rule).1 topo)
        st.nodes.length 1) with
  | error e => rw [h1] at h; cases h
  | ok mid =>
      obtain ⟨rowm, um⟩ := mid
      rw [h1] at h
      have hAx := walk_keeps_der P n x l1 _ rowm _ um h1 (fun i hi t ht => by
        obtain ⟨a, b, c⟩ := hkey _ hseq12 i (hmemle i (Or.inl hi)) t ht
        exact ⟨by omega, b, c⟩)
      have hAL := walk_keeps_der P n st.nodes.length l1 _ rowm _ um h1
        (fun i hi t ht => by
          obtain ⟨a, b, c⟩ := hkey _ hseq12 i (hmemle i (Or.inl hi)) t ht
          exact ⟨by omega, b, c⟩)
      have hseq1m : SEq (mkNode st v [x] opstr rule).1 um :=
        seqTrans hseq12 hAx.2
      have hrum : ruleOf um st.nodes.length = rule := by
        rw [(hseq1m.2 st.nodes.length).2.2.2, hruleL]
      have humx : getDer um x = 0 := by
        rw [hAx.1,
          getDer_setDer_ne _ st.nodes.length x 1 (by omega)]
        exact getDer_zeroSpec_mem x topo _ hxtopo (by omega)
      have humL : getDer um st.nodes.length = 1 := by
        rw [hAL.1]
        exact getDer_setDer_self _ st.nodes.length 1
          (by rw [length_zeroSpec]; omega)
      simp only [walkSpec] at h
      cases hr2 : runRule P um (ruleOf um st.nodes.length) with
      | error e => rw [hr2] at h; cases h
      | ok u2 =>
          rw [hr2] at h
          have htgtB : ∀ t ∈ ruleTargets (ruleOf um st.nodes.length),
              t < um.nodes.length ∧
              t ≠ ruleResD (ruleOf um st.nodes.length) := by
            intro t ht
            rw [hrum] at ht ⊢
            rw [htgts] at ht
            simp at ht
            subst ht
            refine ⟨?_, ?_⟩
            · rw [hseq1m.1, hlen1]; omega
            · rw [hres]; omega
          have hder2 := runRule_ok_der P um (ruleOf um st.nodes.length) u2
            hr2 htgtB
          have hresm : ruleResD (ruleOf um st.nodes.length) =
              st.nodes.length := by rw [hrum, hres]
          have hvum : getVal um x = getVal st x := by
            rw [(hseq1m.2 x).1]
            simp only [getVal, getNode_mkNode_old st v [x] opstr rule x hx]
          have hu2x : getDer u2 x = co := by
            rw [hder2 x, hresm, humx, humL, hrum, hco um hvum]
            ring
          have hseqtot : SEq (mkNode st v [x] opstr rule).1 u2 :=
            seqTrans hseq1m (runRule_SEq P um _ u2 hr2)
          have hC := walk_keeps_der P n x l2 _ row u2 st'' h
            (fun i hi t ht => by
              obtain ⟨a, b, c⟩ := hkey _ hseqtot i (hmemle i (Or.inr hi)) t ht
              exact ⟨by omega, b, c⟩)
          rw [hC.1, hu2x]

/-- **C9**: a node `x` used as both operands of `+` or `*` appears only
once in the result's parent list, yet the backward rule still executes both
accumulation statements on it: after a successful backward pass from the
result, `x`'s adjoint is `2` for `x + x` and `2 * x.val` for `x * x`. -/
theorem C9_diamond (P : Prim α) (st : GState α) (x n : Nat)
    (hx : x < st.nodes.length) (hg : GoodG st) :
    parentsOf (rnAdd st x (.inr x)).1 (rnAdd st x (.inr x)).2 = [x] ∧
    parentsOf (rnMul st x (.inr x)).1 (rnMul st x (.inr x)).2 = [x] ∧
    (∀ (row : List α) (st'' : GState α),
      backward P n (rnAdd st x (.inr x)).2 (rnAdd st x (.inr x)).1 =
        .ok (row, st'') → getDer st'' x = 2) ∧
    (∀ (row : List α) (st'' : GState α),
      backward P n (rnMul st x (.inr x)).2 (rnMul st x (.inr x)).1 =
        .ok (row, st'') → getDer st'' x = 2 * getVal st x) := by
  have hpp : parentsPair x x = [x] := by rw [parentsPair, if_pos rfl]
  have hA : rnAdd st x (.inr x) =
      mkNode st (getVal st x + getVal st x) [x] "+"
        (.add x x st.nodes.length) := by
    rw [show rnAdd st x (.inr x) =
      mkNode st (getVal st x + getVal st x) (parentsPair x x) "+"
        (.add x x st.nodes.length) from rfl, hpp]
  have hM : rnMul st x (.inr x) =
      mkNode st (getVal st x * getVal st x) [x] "x"
        (.mul x x st.nodes.length) := by
    rw [show rnMul st x (.inr x) =
      mkNode st (getVal st x * getVal st x) (parentsPair x x) "x"
        (.mul x x st.nodes.length) from rfl, hpp]
  refine ⟨?_, ?_, ?_, ?_⟩
  · rw [hA, mkNode_idx, parentsOf, getNode_mkNode_new]
  · rw [hM, mkNode_idx, parentsOf, getNode_mkNode_new]
  · intro row st'' h
    rw [hA, mkNode_idx] at h
    refine backward_diamond P n st x _ 2 "+" (.add x x st.nodes.length)
      hx hg rfl rfl (fun u _ => ?_) row st'' h
    rw [show ruleCoeff P u (.add x x st.nodes.length) x =
      (if x = x then (1 : α) else 0) + (if x = x then (1 : α) else 0)
      from rfl, if_pos rfl]
    norm_num
  · intro row st'' h
    rw [hM, mkNode_idx] at h
    refine backward_diamond P n st x _ (2 * getVal st x) "x"
      (.mul x x st.nodes.length) hx hg rfl rfl (fun u hu => ?_) row st'' h
    rw [show ruleCoeff P u (.mul x x st.nodes.length) x =
      (if x = x then getVal u x else 0) + (if x = x then getVal u x else 0)
      from rfl, if_pos rfl, hu]
    ring

/-- The one-node graph `x = rNode(3)` (as left with counter 1). -/
def stQ9 : GState ℚ := ⟨1, [⟨3, 0, 0, "", [], .none⟩]⟩

theorem stQ9_good : GoodG stQ9 := by
  refine ⟨wf_of_bounded stQ9 (by decide), ?_, ?_⟩ <;> intro i
  · by_cases hi : i < stQ9.nodes.length
    · have h0 : i = 0 := by
        simp only [stQ9, List.length_cons, List.length_nil] at hi
        omega
      subst h0
      trivial
    · rw [ruleOf, getNode_oob stQ9 i (by omega)]
      trivial
  · by_cases hi : i < stQ9.nodes.length
    · have h0 : i = 0 := by
        simp only [stQ9, List.length_cons, List.length_nil] at hi
        omega
      subst h0
      exact List.nodup_nil
    · rw [parentsOf, getNode_oob stQ9 i (by omega)]
      exact List.nodup_nil

/-- Witness for C9 on `x = rNode(3)`: `x + x` and `x * x` each list `x`
once as parent; running `backward` leaves `x` with adjoint `2`
(addition) resp. `6 = 2 * 3` (multiplication). -/
theorem C9_witness :
    parentsOf (rnAdd stQ9 0 (.inr 0)).1 (rnAdd stQ9 0 (.inr 0)).2 = [0] ∧
    getDer (⟨2, [⟨3, 2, 0, "", [], BRule.none⟩,
                 ⟨6, 1, 1, "+", [0], BRule.add 0 0 1⟩]⟩ : GState ℚ) 0 = 2 ∧
    getDer (⟨2, [⟨3, 6, 0, "", [], BRule.none⟩,
                 ⟨9, 1, 1, "x", [0], BRule.mul 0 0 1⟩]⟩ : GState ℚ) 0 =
      2 * getVal stQ9 0 :=
  ⟨(C9_diamond qPrim stQ9 0 1 (by decide) stQ9_good).1,
   (C9_diamond qPrim stQ9 0 1 (by decide) stQ9_good).2.2.1 [2]
     ⟨2, [⟨3, 2, 0, "", [], BRule.none⟩,
          ⟨6, 1, 1, "+", [0], BRule.add 0 0 1⟩]⟩
     (by with_unfolding_all rfl),
   (C9_diamond qPrim stQ9 0 1 (by decide) stQ9_good).2.2.2 [6]
     ⟨2, [⟨3, 6, 0, "", [], BRule.none⟩,
          ⟨9, 1, 1, "x", [0], BRule.mul 0 0 1⟩]⟩
     (by with_unfolding_all rfl)⟩

end ClaimC9

/-! ## Forward/reverse equivalence (C3)

The bridge between the two modes is the *sensitivity* `sens P st i u` of
node `u`'s value to input node `i`: `δ_{u,i}` on leaves, and the
coefficient-weighted sum over the (deduplicated) parents otherwise, with
`ruleCoeff` supplying each backward rule's per-parent factor (counting both
accumulation statements).  Forward mode computes it as the dual part of the
seeded evaluation; reverse mode computes it as the input's adjoint. -/

section ClaimC3

variable [LinearOrderedField α]

/-- Leaf discriminator for backward rules. -/
def BRule.isNone : BRule α → Bool
  | .none => true
  | _ => false

theorem isNone_iff (r : BRule α) : r.isNone = true ↔ r = BRule.none := by
  cases r <;> simp [BRule.isNone]

/-- Fuelled sensitivity of a node to input node `i` (fuel `u + 1` always
suffices because the recursion is restricted to parents below `u`). -/
def sensF (P : Prim α) (st : GState α) (i : Nat) : Nat → Nat → α
  | 0, _ => 0
  | fuel + 1, u =>
      if (ruleOf st u).isNone then (if u = i then 1 else 0)
      else (((parentsOf st u).filter (fun p => p < u)).map
        (fun p => ruleCoeff P st (ruleOf st u) p * sensF P st i fuel p)).sum

theorem sensF_congr (P : Prim α) (st : GState α) (i : Nat) :
    ∀ (f₁ f₂ u : Nat), u < f₁ → u < f₂ →
      sensF P st i f₁ u = sensF P st i f₂ u := by
  intro f₁
  induction f₁ with
  | zero => intro f₂ u h; omega
  | succ g ih =>
      intro f₂ u h1 h2
      cases f₂ with
      | zero => omega
      | succ g₂ =>
          rw [sensF, sensF]
          by_cases hn : (ruleOf st u).isNone
          · rw [if_pos hn, if_pos hn]
          · rw [if_neg hn, if_neg hn]
            refine congrArg List.sum (List.map_congr_left ?_)
            intro p hp
            have hpu : p < u := by
              have := (List.mem_filter.mp hp).2
              simpa using this
            rw [ih g₂ p (by omega) (by omega)]

/-- Sensitivity of node `u`'s value to the value of input node `i`. -/
def sens (P : Prim α) (st : GState α) (i u : Nat) : α :=
  sensF P st i (u + 1) u

theorem sens_none (P : Prim α) (st : GState α) (i u : Nat)
    (h : ruleOf st u = BRule.none) :
    sens P st i u = if u = i then 1 else 0 := by
  rw [sens, sensF, h]
  simp [BRule.isNone]

theorem sens_rule (P : Prim α) (st : GState α) (i u : Nat)
    (h : ¬ (ruleOf st u).isNone = true) :
    sens P st i u = (((parentsOf st u).filter (fun p => p < u)).map
      (fun p => ruleCoeff P st (ruleOf st u) p * sens P st i p)).sum := by
  rw [sens, sensF, if_neg h]
  refine congrArg List.sum (List.map_congr_left ?_)
  intro p hp
  have hpu : p < u := by
    have := (List.mem_filter.mp hp).2
    simpa using this
  rw [sensF_congr P st i u (p + 1) p hpu (Nat.lt_succ_self p)]
  rfl

/-- `ruleCoeff` only reads values at the rule's targets. -/
theorem ruleCoeff_congr_tgt (P : Prim α) (u w : GState α) (r : BRule α)
    (p : Nat) (hv : ∀ t ∈ ruleTargets r, getVal u t = getVal w t) :
    ruleCoeff P u r p = ruleCoeff P w r p := by
  cases r with
  | none => rfl
  | add s o rr => rfl
  | sub s o rr => rfl
  | rsub s o rr => rfl
  | mul s o rr =>
      have hs := hv s (by simp [ruleTargets])
      have ho := hv o (by simp [ruleTargets])
      simp only [ruleCoeff, hs, ho]
  | div s o rr =>
      have hs := hv s (by simp [ruleTargets])
      have ho := hv o (by simp [ruleTargets])
      simp only [ruleCoeff, hs, ho]
  | rdiv s o rr =>
      have hs := hv s (by simp [ruleTargets])
      have ho := hv o (by simp [ruleTargets])
      simp only [ruleCoeff, hs, ho]
  | pow s o rr =>
      have hs := hv s (by simp [ruleTargets])
      have ho := hv o (by simp [ruleTargets])
      simp only [ruleCoeff, hs, ho]
  | rpow c s rr =>
      have hs := hv s (by simp [ruleTargets])
      simp only [ruleCoeff, hs]
  | unary uo s rr =>
      have hs := hv s (by simp [ruleTargets])
      simp only [ruleCoeff, hs]

/-- A rule's targets are among the parents it is well-formed for. -/
theorem ruleWF_sub (r : BRule α) (u : Nat) (ps : List Nat)
    (h : RuleWF r u ps) : ∀ t ∈ ruleTargets r, t ∈ ps := by
  cases r
  case none => intro t ht; simp [ruleTargets] at ht
  all_goals exact h.2

theorem ruleWF_res (r : BRule α) (u : Nat) (ps : List Nat)
    (h : RuleWF r u ps) (hnn : ¬ r.isNone = true) : ruleResD r = u := by
  cases r
  case none => simp [BRule.isNone] at hnn
  all_goals exact h.1

/-- Sensitivity is a function of the static graph only. -/
theorem sens_SEq (P : Prim α) (i : Nat) (G u : GState α) (h : SEq G u) :
    ∀ r, sens P u i r = sens P G i r := by
  intro r
  induction r using Nat.strong_induction_on with
  | _ r ih =>
      by_cases hn : (ruleOf G r).isNone = true
      · rw [sens_none P u i r (by
            rw [(h.2 r).2.2.2]; exact (isNone_iff _).mp hn),
          sens_none P G i r ((isNone_iff _).mp hn)]
      · rw [sens_rule P u i r (by rw [(h.2 r).2.2.2]; exact hn),
          sens_rule P G i r hn, (h.2 r).2.2.1, (h.2 r).2.2.2]
        refine congrArg List.sum (List.map_congr_left ?_)
        intro p hp
        have hpu : p < r := by
          have := (List.mem_filter.mp hp).2
          simpa using this
        rw [ih p hpu,
          ruleCoeff_congr_tgt P u G (ruleOf G r) p (fun t _ => (h.2 t).1)]

/-- Sensitivity of an old node is unchanged by appending new nodes. -/
theorem sens_pres (P : Prim α) (i : Nat) (st st₂ : GState α)
    (hg : GoodG st) (hp : Pres st st₂) :
    ∀ u, u < st.nodes.length → sens P st₂ i u = sens P st i u := by
  intro u
  induction u using Nat.strong_induction_on with
  | _ u ih =>
      intro hu
      have hnode : getNode st₂ u = getNode st u := hp.2 u hu
      have hrz : ruleOf st₂ u = ruleOf st u := by
        rw [ruleOf, ruleOf, hnode]
      have hpz : parentsOf st₂ u = parentsOf st u := by
        rw [parentsOf, parentsOf, hnode]
      by_cases hn : (ruleOf st u).isNone = true
      · rw [sens_none P st₂ i u (by rw [hrz]; exact (isNone_iff _).mp hn),
          sens_none P st i u ((isNone_iff _).mp hn)]
      · rw [sens_rule P st₂ i u (by rw [hrz]; exact hn),
          sens_rule P st i u hn, hrz, hpz]
        refine congrArg List.sum (List.map_congr_left ?_)
        intro p hp'
        obtain ⟨hpp, hplt⟩ := List.mem_filter.mp hp'
        have hplt' : p < u := by simpa using hplt
        rw [ih p hplt' (by omega)]
        rw [ruleCoeff_congr_tgt P st₂ st (ruleOf st u) p (fun t ht => by
          have htp : t ∈ parentsOf st u :=
            ruleWF_sub _ _ _ (hg.rules u) t ht
          have htu : t < u := hg.wf u t htp
          rw [getVal, getVal, hp.2 t (by omega)])]

/-- Sensitivity to an unreachable node vanishes. -/
theorem sens_vanish (P : Prim α) (st : GState α) (i : Nat) :
    ∀ u, ¬ Reach st u i → sens P st i u = 0 := by
  intro u
  induction u using Nat.strong_induction_on with
  | _ u ih =>
      intro hnr
      by_cases hn : (ruleOf st u).isNone = true
      · rw [sens_none P st i u ((isNone_iff _).mp hn)]
        rw [if_neg (fun h => hnr (by rw [h]; exact Reach.refl i))]
      · rw [sens_rule P st i u hn]
        refine List.sum_eq_zero ?_
        intro a ha
        obtain ⟨p, hp, rfl⟩ := List.mem_map.mp ha
        obtain ⟨hpp, hplt⟩ := List.mem_filter.mp hp
        have hplt' : p < u := by simpa using hplt
        rw [ih p hplt' (fun hr => hnr (Reach.step hpp hr))]
        ring

theorem list_sum_map_add (l : List Nat) (f g : Nat → α) :
    (l.map (fun c => f c + g c)).sum = (l.map f).sum + (l.map g).sum := by
  induction l with
  | nil => simp
  | cons c l ih => simp [ih]; ring

theorem list_sum_map_mul (k : α) (l : List Nat) (f : Nat → α) :
    (l.map (fun c => k * f c)).sum = k * (l.map f).sum := by
  induction l with
  | nil => simp
  | cons c l ih => simp [ih, mul_add]

/-- Summing a delta-weighted map over a duplicate-free list. -/
theorem sum_delta (l : List Nat) (r : Nat) (f : Nat → α) (hnd : l.Nodup)
    (hr : r ∈ l) :
    (l.map (fun c => (if c = r then (1 : α) else 0) * f c)).sum = f r := by
  induction l with
  | nil => simp at hr
  | cons c l ih =>
      rw [List.map_cons, List.sum_cons]
      obtain ⟨hcl, hnd'⟩ := List.nodup_cons.mp hnd
      rcases List.mem_cons.mp hr with hcr | hrl
      · rw [hcr, if_pos rfl, one_mul]
        have hz : (l.map (fun p => (if p = c then (1 : α) else 0) * f p)).sum
            = 0 := by
          refine List.sum_eq_zero ?_
          intro a ha
          obtain ⟨p, hp, rfl⟩ := List.mem_map.mp ha
          rw [if_neg (fun h => hcl (by rw [← h]; exact hp))]
          ring
        rw [hz, add_zero]
      · have hcr : c ≠ r := fun h => hcl (by rw [h]; exact hrl)
        rw [if_neg hcr, zero_mul, zero_add]
        exact ih hnd' hrl

/-- A nodup-indexed sum restricts to the support sublist. -/
theorem sum_subset_support (l₁ l₂ : List Nat) (g : Nat → α)
    (h₁ : l₁.Nodup) (h₂ : l₂.Nodup) (hsub : ∀ c ∈ l₁, c ∈ l₂)
    (hz : ∀ c ∈ l₂, c ∉ l₁ → g c = 0) :
    (l₂.map g).sum = (l₁.map g).sum := by
  rw [← List.sum_toFinset g h₁, ← List.sum_toFinset g h₂]
  refine (Finset.sum_subset ?_ ?_).symm
  · intro c hc
    rw [List.mem_toFinset] at hc ⊢
    exact hsub c hc
  · intro c hc hnc
    rw [List.mem_toFinset] at hc hnc
    exact hz c hc hnc

theorem list_getD_set_self (l : List α) (j : Nat) (v : α)
    (h : j < l.length) : (l.set j v).getD j 0 = v := by
  rw [List.getD_eq_getElem?_getD, List.getElem?_set_self h]
  rfl

theorem list_getD_set_ne (l : List α) (j k : Nat) (v : α) (h : j ≠ k) :
    (l.set j v).getD k 0 = l.getD k 0 := by
  rw [List.getD_eq_getElem?_getD, List.getD_eq_getElem?_getD,
    List.getElem?_set_ne h]

/-- A static equal twin of a well-formed graph is well-formed. -/
theorem goodG_SEq (G u : GState α) (h : SEq G u) (hg : GoodG G) :
    GoodG u := by
  refine ⟨?_, ?_, ?_⟩
  · intro y p hp
    rw [(h.2 y).2.2.1] at hp
    exact hg.wf y p hp
  · intro y
    rw [(h.2 y).2.2.2, (h.2 y).2.2.1]
    exact hg.rules y
  · intro y
    rw [(h.2 y).2.2.1]
    exact hg.pnodup y

/-- The reversed walk never errors into a changed static graph. -/
theorem walkSpec_SEq (P : Prim α) (nn : Nat) :
    ∀ (l : List Nat) (row row' : List α) (u u' : GState α),
      walkSpec P nn l row u = .ok (row', u') → SEq u u' := by
  intro l
  induction l with
  | nil =>
      intro row row' u u' h
      simp only [walkSpec, Except.ok.injEq, Prod.mk.injEq] at h
      rw [← h.2]
      exact seqRefl u
  | cons c l ih =>
      intro row row' u u' h
      simp only [walkSpec] at h
      cases hr : runRule P u (ruleOf u c) with
      | error e => rw [hr] at h; cases h
      | ok u₁ =>
          rw [hr] at h
          exact seqTrans (runRule_SEq P u _ u₁ hr) (ih _ row' u₁ u' h)

/-- A reversed walk over nodes none of which is named `i` leaves the row's
`i`-th column unchanged. -/
theorem walk_keeps_row (P : Prim α) (nn i : Nat) :
    ∀ (l : List Nat) (row row' : List α) (u u' : GState α),
      walkSpec P nn l row u = .ok (row', u') →
      (∀ c ∈ l, nameOf u c ≠ i) →
      row'.getD i 0 = row.getD i 0 := by
  intro l
  induction l with
  | nil =>
      intro row row' u u' h _
      simp only [walkSpec, Except.ok.injEq, Prod.mk.injEq] at h
      rw [← h.1]
  | cons c l ih =>
      intro row row' u u' h hnm
      simp only [walkSpec] at h
      cases hr : runRule P u (ruleOf u c) with
      | error e => rw [hr] at h; cases h
      | ok u₁ =>
          rw [hr] at h
          have hseq := runRule_SEq P u _ u₁ hr
          have hstep := ih _ row' u₁ u' h (fun c' hc' => by
            rw [(hseq.2 c').2.1]
            exact hnm c' (List.mem_cons_of_mem c hc'))
          rw [hstep]
          split_ifs with hlt
          · exact list_getD_set_ne _ _ i _ (hnm c (List.mem_cons_self c l))
          · rfl

/-- No strictly later element of a pairwise-parent-free, parent-closed,
duplicate-free block can reach the head through parent edges. -/
theorem head_not_reach (G : GState α) (c : Nat) (t : List Nat)
    (hnd : (c :: t).Nodup)
    (hpw : (c :: t).Pairwise (fun a b => a ∉ parentsOf G b))
    (hcl : ∀ y ∈ c :: t, ∀ p ∈ parentsOf G y, p ∈ c :: t) :
    ∀ y z, Reach G y z → z = c → y ∈ t → False := by
  intro y z hr
  induction hr with
  | refl j =>
      intro hjc hyt
      rw [hjc] at hyt
      exact (List.nodup_cons.mp hnd).1 hyt
  | step hp hrr ih =>
      intro hjc hyt
      rename_i y' p j'
      have hpl : p ∈ c :: t :=
        hcl y' (List.mem_cons_of_mem c hyt) p hp
      have hpc : p ≠ c := by
        intro hq
        have hhead := (List.pairwise_cons.mp hpw).1 y' hyt
        rw [hq] at hp
        exact hhead hp
      have hpt : p ∈ t := by
        rcases List.mem_cons.mp hpl with h' | h'
        · exact absurd h' hpc
        · exact h'
      exact ih hjc hpt

/-- **Conservation of adjoints along the reversed walk.**  Over a block
`l` of the reversed topological order that is duplicate-free, never lists
a node before one of its parents, is closed under parents, and contains the
input leaf `i`, the walk ends with `i`'s adjoint equal to
`Σ_{c ∈ l} der(c) · sens(c, i)` evaluated at the *start* of the block, and
the row's `i`-th column holds that adjoint. -/
theorem sweep_conserve (P : Prim α) (nn : Nat) (G : GState α) (i : Nat)
    (hg : GoodG G) (hin : i < nn) :
    ∀ (l : List Nat) (row row' : List α) (u u' : GState α),
      walkSpec P nn l row u = .ok (row', u') →
      SEq G u → row.length = nn →
      l.Nodup →
      l.Pairwise (fun a b => a ∉ parentsOf G b) →
      (∀ c ∈ l, ∀ p ∈ parentsOf G c, p ∈ l) →
      (∀ c ∈ l, c < G.nodes.length) →
      (∀ c ∈ l, nameOf G c = c) →
      i ∈ l → ruleOf G i = BRule.none →
      getDer u' i = (l.map (fun c => getDer u c * sens P G i c)).sum ∧
      row'.getD i 0 = getDer u' i := by
  intro l
  induction l with
  | nil =>
      intro row row' u u' _ _ _ _ _ _ _ _ hi _
      simp at hi
  | cons c t ih =>
      intro row row' u u' h hseq hrow hnd hpw hcl hlt hnm hi hri
      simp only [walkSpec] at h
      cases hr : runRule P u (ruleOf u c) with
      | error e => rw [hr] at h; cases h
      | ok u₁ =>
          rw [hr] at h
          have hsequ₁ : SEq G u₁ := seqTrans hseq (runRule_SEq P u _ u₁ hr)
          have hruc : ruleOf u c = ruleOf G c := (hseq.2 c).2.2.2
          have hnmc : nameOf u c = c := by
            rw [(hseq.2 c).2.1]
            exact hnm c (List.mem_cons_self c t)
          have hnd' : t.Nodup := (List.nodup_cons.mp hnd).2
          have hct : c ∉ t := (List.nodup_cons.mp hnd).1
          have hpw' : t.Pairwise (fun a b => a ∉ parentsOf G b) :=
            (List.pairwise_cons.mp hpw).2
          have hclhd : ∀ b ∈ t, c ∉ parentsOf G b :=
            (List.pairwise_cons.mp hpw).1
          have hcl' : ∀ c' ∈ t, ∀ p ∈ parentsOf G c', p ∈ t := by
            intro c' hc' p hp
            have hpl := hcl c' (List.mem_cons_of_mem c hc') p hp
            rcases List.mem_cons.mp hpl with h' | h'
            · rw [h'] at hp
              exact absurd hp (hclhd c' hc')
            · exact h'
          have hlt' : ∀ c' ∈ t, c' < G.nodes.length := fun c' hc' =>
            hlt c' (List.mem_cons_of_mem c hc')
          have hnm' : ∀ c' ∈ t, nameOf G c' = c' := fun c' hc' =>
            hnm c' (List.mem_cons_of_mem c hc')
          by_cases hci : c = i
          · -- the head is the input leaf itself
            subst hci
            have hu1 : u₁ = u := by
              rw [hruc, hri] at hr
              simp only [runRule, Except.ok.injEq] at hr
              exact hr.symm
            subst hu1
            have htail : ∀ c' ∈ t, ∀ tt ∈ ruleTargets (ruleOf u₁ c'),
                tt ≠ c ∧ tt < u₁.nodes.length ∧
                tt ≠ ruleResD (ruleOf u₁ c') := by
              intro c' hc' tt htt
              rw [(hsequ₁.2 c').2.2.2] at htt ⊢
              have hp := ruleWF_sub _ _ _ (hg.rules c') tt htt
              refine ⟨?_, ?_, ?_⟩
              · intro hq
                rw [hq] at hp
                exact hclhd c' hc' hp
              · rw [hsequ₁.1]
                have := hg.wf c' tt hp
                have := hlt' c' hc'
                omega
              · by_cases hn' : (ruleOf G c').isNone = true
                · rw [(isNone_iff _).mp hn'] at htt
                  simp [ruleTargets] at htt
                · rw [ruleWF_res _ _ _ (hg.rules c') hn']
                  have := hg.wf c' tt hp
                  omega
            have hkd := walk_keeps_der P nn c t _ row' u₁ u' h htail
            have hsc : sens P G c c = 1 := by
              rw [sens_none P G c c hri, if_pos rfl]
            have hzt : ∀ c' ∈ t, sens P G c c' = 0 := fun c' hc' =>
              sens_vanish P G c c' (fun hrch =>
                head_not_reach G c t hnd hpw hcl c' c hrch rfl hc')
            have hsum0 : (t.map (fun c' =>
                getDer u₁ c' * sens P G c c')).sum = 0 := by
              refine List.sum_eq_zero ?_
              intro a ha
              obtain ⟨p, hp, rfl⟩ := List.mem_map.mp ha
              rw [hzt p hp]
              ring
            constructor
            · rw [hkd.1, List.map_cons, List.sum_cons, hsc, hsum0]
              ring
            · have hrown := walk_keeps_row P nn c t _ row' u₁ u' h
                (fun c' hc' => by
                  rw [(hsequ₁.2 c').2.1, hnm' c' hc']
                  intro hq
                  rw [hq] at hc'
                  exact hct hc')
              rw [hrown, hkd.1]
              rw [hnmc, if_pos hin]
              exact list_getD_set_self row c _ (by omega)
          · -- the head is not the input leaf
            have hit : i ∈ t := by
              rcases List.mem_cons.mp hi with h' | h'
              · exact absurd h'.symm hci
              · exact h'
            have hrow₂ : (if nameOf u c < nn then
                row.set (nameOf u c) (getDer u c) else row).length = nn := by
              split_ifs <;> simp [List.length_set, hrow]
            obtain ⟨hd1, hd2⟩ := ih _ row' u₁ u' h hsequ₁ hrow₂ hnd' hpw'
              hcl' hlt' hnm' hit hri
            refine ⟨?_, hd2⟩
            rw [hd1]
            by_cases hcn : (ruleOf G c).isNone = true
            · -- inert head: state unchanged, its sensitivity term is 0
              have hu1 : u₁ = u := by
                rw [hruc, (isNone_iff _).mp hcn] at hr
                simp only [runRule, Except.ok.injEq] at hr
                exact hr.symm
              subst hu1
              have hsc0 : sens P G i c = 0 := by
                rw [sens_none P G i c ((isNone_iff _).mp hcn), if_neg hci]
              rw [List.map_cons, List.sum_cons, hsc0]
              ring
            · -- live head: its rule redistributes its adjoint to its parents
              have hwfc := hg.rules c
              have hressc : ruleResD (ruleOf G c) = c :=
                ruleWF_res _ _ _ hwfc hcn
              have htgt : ∀ tt ∈ ruleTargets (ruleOf G c),
                  tt ∈ parentsOf G c := ruleWF_sub _ _ _ hwfc
              have hder := runRule_ok_der P u (ruleOf u c) u₁ hr
                (fun tt htt => by
                  rw [hruc] at htt ⊢
                  have hp := htgt tt htt
                  have h1 : tt < c := hg.wf c tt hp
                  refine ⟨?_, ?_⟩
                  · rw [hseq.1]
                    have := hlt c (List.mem_cons_self c t)
                    omega
                  · rw [hressc]
                    omega)
              have hpt : ∀ c' ∈ t, getDer u₁ c' * sens P G i c' =
                  getDer u c' * sens P G i c' +
                  getDer u c *
                    (ruleCoeff P G (ruleOf G c) c' * sens P G i c') := by
                intro c' hc'
                rw [hder c', hruc, hressc,
                  ruleCoeff_congr_tgt P u G (ruleOf G c) c'
                    (fun tt _ => (hseq.2 tt).1)]
                ring
              rw [List.map_congr_left hpt, list_sum_map_add,
                list_sum_map_mul]
              have hsum : (t.map (fun c' =>
                  ruleCoeff P G (ruleOf G c) c' * sens P G i c')).sum =
                  sens P G i c := by
                rw [sens_rule P G i c hcn]
                have hfe : (parentsOf G c).filter (fun p => p < c) =
                    parentsOf G c :=
                  List.filter_eq_self.mpr (fun p hp => by
                    simpa using hg.wf c p hp)
                rw [hfe]
                refine sum_subset_support _ _ _ (hg.pnodup c) hnd' ?_ ?_
                · intro p hp
                  have hpl := hcl c (List.mem_cons_self c t) p hp
                  have hpc : p ≠ c := by
                    have := hg.wf c p hp
                    omega
                  rcases List.mem_cons.mp hpl with h' | h'
                  · exact absurd h' hpc
                  · exact h'
                · intro c' hc' hnp
                  rw [ruleCoeff_not_target P G _ c'
                    (fun hmem => hnp (htgt c' hmem))]
                  ring
              rw [hsum, List.map_cons, List.sum_cons]
              ring

/-- The Jacobian row produced by `backward` holds, at each input column,
the sensitivity of the root to that input. -/
theorem backward_sens (P : Prim α) (nn : Nat) (G : GState α) (root i : Nat)
    (hg : GoodG G)
    (hnames : ∀ c, c < G.nodes.length → nameOf G c = c)
    (hroot : root < G.nodes.length)
    (hin : i < nn) (hilen : i < G.nodes.length)
    (hrulei : ruleOf G i = BRule.none) :
    ∀ (row' : List α) (u' : GState α),
      backward P nn root G = .ok (row', u') →
      row'.getD i 0 = sens P G i root := by
  intro row' u' h
  have hbs : backward P nn root G =
      walkSpec P nn (sortNodes G root).reverse (List.replicate nn 0)
        (setDer (zeroSpec G (sortNodes G root)) root 1) := by
    rw [backward, zeroDers_eq_zeroSpec]
    exact foldlM_sweep_eq_walkSpec P nn _ _ _
  rw [hbs] at h
  obtain ⟨hnd, hmem, hpw, hcl, hroot'⟩ := sortNodes_spec G hg.wf root
  obtain ⟨topo, htopo⟩ : ∃ l, sortNodes G root = l := ⟨_, rfl⟩
  rw [htopo] at h hnd hmem hpw hcl hroot'
  have hzseq : SEq G (zeroSpec G topo) := by
    rw [← zeroDers_eq_zeroSpec]
    exact zeroDers_SEq G topo
  have hseq0 : SEq G (setDer (zeroSpec G topo) root 1) :=
    seqTrans hzseq (setDer_SEq _ root 1)
  have hndR : topo.reverse.Nodup := List.nodup_reverse.mpr hnd
  have hpwR : topo.reverse.Pairwise (fun a b => a ∉ parentsOf G b) :=
    List.pairwise_reverse.mpr hpw
  have hclR : ∀ c ∈ topo.reverse, ∀ p ∈ parentsOf G c, p ∈ topo.reverse := by
    intro c hc p hp
    rw [List.mem_reverse] at hc ⊢
    exact hcl c hc p hp
  have hltR : ∀ c ∈ topo.reverse, c < G.nodes.length := by
    intro c hc
    rw [List.mem_reverse] at hc
    have hrch := (hmem c).1 hc
    have := reach_le G hg.wf root c hrch
    omega
  have hnmR : ∀ c ∈ topo.reverse, nameOf G c = c := fun c hc =>
    hnames c (hltR c hc)
  by_cases hio : i ∈ topo
  · obtain ⟨hd1, hd2⟩ := sweep_conserve P nn G i hg hin topo.reverse
      _ row' _ u' h hseq0 (List.length_replicate nn 0) hndR hpwR hclR hltR
      hnmR (List.mem_reverse.mpr hio) hrulei
    have hdelta : ∀ c ∈ topo.reverse,
        getDer (setDer (zeroSpec G topo) root 1) c =
          if c = root then 1 else 0 := by
      intro c hc
      by_cases hcr : c = root
      · rw [hcr, if_pos rfl]
        exact getDer_setDer_self _ root 1 (by rw [length_zeroSpec]; omega)
      · rw [if_neg hcr, getDer_setDer_ne _ root c 1 hcr]
        exact getDer_zeroSpec_mem c topo G (List.mem_reverse.mp hc)
          (hltR c hc)
    rw [hd2, hd1]
    rw [List.map_congr_left (fun c hc => by rw [hdelta c hc])]
    exact sum_delta topo.reverse root (sens P G i) hndR
      (List.mem_reverse.mpr hroot')
  · -- the input does not occur in the order: column stays 0, sens vanishes
    have hnr : ¬ Reach G root i := fun hrch => hio ((hmem i).2 hrch)
    have hrow0 := walk_keeps_row P nn i topo.reverse _ row' _ u' h
      (fun c hc => by
        rw [(hseq0.2 c).2.1, hnmR c hc]
        intro hq
        rw [hq] at hc
        exact hio (List.mem_reverse.mp hc))
    rw [hrow0, sens_vanish P G i root hnr]
    simp

/-! The forward side: the dual part of a seeded evaluation computes the
same sensitivity on the graph built by the reverse side. -/

theorem pair_eq_split {β γ : Type} {p : β × γ} {a : β} {b : γ}
    (h : p = (a, b)) : a = p.1 ∧ b = p.2 := by
  rw [h]
  exact ⟨rfl, rfl⟩

theorem getVal_mkNode_old (st : GState α) (v : α) (ps : List Nat)
    (op : String) (rule : BRule α) (j : Nat) (h : j < st.nodes.length) :
    getVal (mkNode st v ps op rule).1 j = getVal st j := by
  rw [getVal, getNode_mkNode_old st v ps op rule j h]
  rfl

theorem getVal_mkNode_new (st : GState α) (v : α) (ps : List Nat)
    (op : String) (rule : BRule α) :
    getVal (mkNode st v ps op rule).1 st.nodes.length = v := by
  rw [getVal, getNode_mkNode_new]

/-- The dual part an operator's dual branch produces is exactly the
backward rule's chain factor times the incoming dual. -/
theorem dUnaryDual_coeff (P : Prim α) (u : UOp α) (a d dd : α)
    (h : dUnaryDual P u a d = .ok dd) : dd = uCoeff P u a * d := by
  cases u <;>
    simp only [dUnaryDual] at h <;>
    (try split_ifs at h) <;>
    (try exact Except.noConfusion h) <;>
    (injection h with h; rw [← h]; simp only [uCoeff]; ring)

theorem dUnary_shape (P : Prim α) (u : UOp α) (z du : Dual α)
    (h : dUnary P u z = .ok du) :
    du.real = opVal P u z.real ∧ du.dual = uCoeff P u z.real * z.dual := by
  rw [dUnary] at h
  split_ifs at h with hdom
  cases hdd : dUnaryDual P u z.real z.dual with
  | error e => rw [hdd, bindErr] at h; cases h
  | ok dd =>
      rw [hdd, bindOk] at h
      have hd' : (⟨opVal P u z.real, dd⟩ : Dual α) = du := by
        simpa [pure, Except.pure] using h
      rw [← hd']
      exact ⟨rfl, dUnaryDual_coeff P u z.real z.dual dd hdd⟩

/-- Sensitivity of a freshly created two-parent node, in terms of its
rule's per-parent coefficients (the factors collapse correctly when both
parents are the same node). -/
theorem mkBin_sens (P : Prim α) (i : Nat) (st₂ : GState α) (r₁ r₂ : Nat)
    (v cs co : α) (opstr : String) (rule : BRule α)
    (hg₂ : GoodG st₂) (h₁ : r₁ < st₂.nodes.length)
    (h₂ : r₂ < st₂.nodes.length) (hnn : ¬ rule.isNone = true)
    (hcoeff : ∀ p,
      ruleCoeff P (mkNode st₂ v (parentsPair r₁ r₂) opstr rule).1 rule p =
        (if p = r₁ then cs else 0) + (if p = r₂ then co else 0)) :
    sens P (mkNode st₂ v (parentsPair r₁ r₂) opstr rule).1 i
        st₂.nodes.length =
      cs * sens P st₂ i r₁ + co * sens P st₂ i r₂ := by
  have hnodeL := getNode_mkNode_new st₂ v (parentsPair r₁ r₂) opstr rule
  have hrL : ruleOf (mkNode st₂ v (parentsPair r₁ r₂) opstr rule).1
      st₂.nodes.length = rule := by rw [ruleOf, hnodeL]
  have hpL : parentsOf (mkNode st₂ v (parentsPair r₁ r₂) opstr rule).1
      st₂.nodes.length = parentsPair r₁ r₂ := by rw [parentsOf, hnodeL]
  rw [sens_rule P _ i _ (by rw [hrL]; exact hnn), hrL, hpL]
  have hflt : (parentsPair r₁ r₂).filter
      (fun p => p < st₂.nodes.length) = parentsPair r₁ r₂ :=
    List.filter_eq_self.mpr (fun p hp => by
      simpa using parentsPair_lt r₁ r₂ st₂.nodes.length h₁ h₂ p hp)
  rw [hflt]
  have hsens : ∀ p, p < st₂.nodes.length →
      sens P (mkNode st₂ v (parentsPair r₁ r₂) opstr rule).1 i p =
        sens P st₂ i p :=
    fun p hp => sens_pres P i st₂ _ hg₂
      (mkNode_pres st₂ v (parentsPair r₁ r₂) opstr rule) p hp
  have hmap : ((parentsPair r₁ r₂).map (fun p =>
      ruleCoeff P (mkNode st₂ v (parentsPair r₁ r₂) opstr rule).1 rule p *
        sens P (mkNode st₂ v (parentsPair r₁ r₂) opstr rule).1 i p)) =
      (parentsPair r₁ r₂).map (fun p =>
        ((if p = r₁ then cs else 0) + (if p = r₂ then co else 0)) *
          sens P st₂ i p) := by
    refine List.map_congr_left ?_
    intro p hp
    have hplt : p < st₂.nodes.length :=
      parentsPair_lt r₁ r₂ _ h₁ h₂ p hp
    rw [hcoeff p, hsens p hplt]
  rw [hmap]
  by_cases hrr : r₁ = r₂
  · subst hrr
    rw [parentsPair, if_pos rfl]
    simp only [List.map_cons, List.map_nil, List.sum_cons, List.sum_nil,
      eq_self_iff_true, if_true, add_zero]
    ring
  · rw [parentsPair, if_neg hrr]
    simp only [List.map_cons, List.map_nil, List.sum_cons, List.sum_nil,
      eq_self_iff_true, if_true, if_neg hrr, if_neg (Ne.symm hrr),
      add_zero, zero_add]
    try ring

/-- Sensitivity of a freshly created single-parent node. -/
theorem mkUn_sens (P : Prim α) (i : Nat) (st₂ : GState α) (r₁ : Nat)
    (v c : α) (opstr : String) (rule : BRule α)
    (hg₂ : GoodG st₂) (h₁ : r₁ < st₂.nodes.length)
    (hnn : ¬ rule.isNone = true)
    (hcoeff : ∀ p, ruleCoeff P (mkNode st₂ v [r₁] opstr rule).1 rule p =
      if p = r₁ then c else 0) :
    sens P (mkNode st₂ v [r₁] opstr rule).1 i st₂.nodes.length =
      c * sens P st₂ i r₁ := by
  have hnodeL := getNode_mkNode_new st₂ v [r₁] opstr rule
  have hrL : ruleOf (mkNode st₂ v [r₁] opstr rule).1 st₂.nodes.length =
      rule := by rw [ruleOf, hnodeL]
  have hpL : parentsOf (mkNode st₂ v [r₁] opstr rule).1 st₂.nodes.length =
      [r₁] := by rw [parentsOf, hnodeL]
  rw [sens_rule P _ i _ (by rw [hrL]; exact hnn), hrL, hpL]
  have hflt : ([r₁] : List Nat).filter (fun p => p < st₂.nodes.length) =
      [r₁] :=
    List.filter_eq_self.mpr (fun p hp => by
      simp only [List.mem_singleton] at hp
      subst hp
      simpa using h₁)
  rw [hflt]
  simp only [List.map_cons, List.map_nil, List.sum_cons, List.sum_nil]
  rw [hcoeff r₁, if_pos rfl,
    sens_pres P i st₂ _ hg₂ (mkNode_pres st₂ v [r₁] opstr rule) r₁ h₁]
  ring

/-- A fresh constant leaf has zero sensitivity to any input that already
existed. -/
theorem leaf_sens (P : Prim α) (i : Nat) (st₁ : GState α) (cv : α)
    (hi : i < st₁.nodes.length) :
    sens P (mkLeaf st₁ cv).1 i st₁.nodes.length = 0 := by
  rw [sens_none P _ i _ (by rw [ruleOf, mkLeaf, getNode_mkNode_new]),
    if_neg (by omega)]

/-- The invariants of the state in which a body is (re)built: the `n`
declared inputs exist, carry the point's coordinates, and are leaves; the
graph is well-formed. -/
def SeedOK (n : Nat) (x : Fin n → α) (st : GState α) : Prop :=
  n ≤ st.nodes.length ∧ GoodG st ∧
  (∀ j : Fin n, getVal st j.val = x j) ∧
  (∀ j : Fin n, ruleOf st j.val = BRule.none)

theorem seedOK_pres {n : Nat} (x : Fin n → α) (st st' : GState α)
    (h : SeedOK n x st) (hp : Pres st st') (hg' : GoodG st') :
    SeedOK n x st' := by
  refine ⟨le_trans h.1 hp.1, hg', ?_, ?_⟩
  · intro j
    rw [getVal, hp.2 j.val (lt_of_lt_of_le j.isLt h.1)]
    exact h.2.2.1 j
  · intro j
    rw [ruleOf, hp.2 j.val (lt_of_lt_of_le j.isLt h.1)]
    exact h.2.2.2 j

theorem getVal_mkLeaf_old (st : GState α) (c : α) (j : Nat)
    (h : j < st.nodes.length) : getVal (mkLeaf st c).1 j = getVal st j :=
  getVal_mkNode_old st c [] "" .none j h

theorem getVal_mkLeaf_new (st : GState α) (c : α) :
    getVal (mkLeaf st c).1 st.nodes.length = c :=
  getVal_mkNode_new st c [] "" .none

theorem sens_mkLeaf_old (P : Prim α) (i : Nat) (st : GState α) (c : α)
    (hg : GoodG st) (j : Nat) (h : j < st.nodes.length) :
    sens P (mkLeaf st c).1 i j = sens P st i j :=
  sens_pres P i st _ hg (mkNode_pres st c [] "" .none) j h

/-- **The forward/reverse bridge.**  On a state satisfying the input
invariants, building an expression and evaluating it over the duals seeded
for input `i` produce, respectively, a node whose value is the dual's real
part and whose sensitivity to input node `i` is the dual's dual part —
provided the primitive power satisfies the power rule (`hpow`) and squares
multiplicatively (`hpow2`) away from zero. -/
theorem evalD_sens (P : Prim α)
    (hpow : ∀ a b : α, a ≠ 0 → P.pow a b * b / a = b * P.pow a (b - 1))
    (hpow2 : ∀ b : α, b ≠ 0 → P.pow b 2 = b * b)
    {n : Nat} (x : Fin n → α) (i : Fin n) (e : Expr n α) :
    ∀ (st st' : GState α) (r : Nat) (du : Dual α),
      SeedOK n x st →
      buildG P e st = .ok (st', r) →
      evalD P (seedDuals x i) e = .ok du →
      du.real = getVal st' r ∧ du.dual = sens P st' i.val r := by
  induction e with
  | var j =>
      intro st st' r du hok hb hd
      simp only [buildG, Except.ok.injEq, Prod.mk.injEq] at hb
      obtain ⟨rfl, rfl⟩ := hb
      simp only [evalD, Except.ok.injEq] at hd
      subst hd
      constructor
      · exact (hok.2.2.1 j).symm
      · show (if j = i then (1 : α) else 0) = sens P st i.val j.val
        rw [sens_none P st i.val j.val (hok.2.2.2 j)]
        by_cases hji : j = i
        · rw [if_pos hji, if_pos (by rw [hji])]
        · rw [if_neg hji, if_neg (fun h => hji (Fin.ext h))]
  | addE e₁ e₂ ih₁ ih₂ =>
      intro st st' r du hok hb hd
      simp only [buildG] at hb
      cases hb₁ : buildG P e₁ st with
      | error ε => rw [hb₁, bindErr] at hb; cases hb
      | ok o₁ =>
      obtain ⟨st₁, r₁⟩ := o₁
      rw [hb₁, bindOk] at hb
      cases hb₂ : buildG P e₂ st₁ with
      | error ε => rw [hb₂, bindErr] at hb; cases hb
      | ok o₂ =>
      obtain ⟨st₂, r₂⟩ := o₂
      rw [hb₂, bindOk] at hb
      have hb' : rnAdd st₂ r₁ (.inr r₂) = (st', r) := by
        simpa [pure, Except.pure] using hb
      simp only [evalD] at hd
      cases hd₁ : evalD P (seedDuals x i) e₁ with
      | error ε => rw [hd₁, bindErr] at hd; cases hd
      | ok du₁ =>
      rw [hd₁, bindOk] at hd
      cases hd₂ : evalD P (seedDuals x i) e₂ with
      | error ε => rw [hd₂, bindErr] at hd; cases hd
      | ok du₂ =>
      rw [hd₂, bindOk] at hd
      have hd' : dAdd du₁ (.inr du₂) = du := by
        simpa [pure, Except.pure] using hd
      obtain ⟨hp₁, hr₁, hg₁, _⟩ := buildG_spec P e₁ st st₁ r₁ hok.1 hb₁
      have hok₁ : SeedOK n x st₁ := seedOK_pres x st st₁ hok hp₁ (hg₁ hok.2.1)
      obtain ⟨hp₂, hr₂, hg₂, _⟩ := buildG_spec P e₂ st₁ st₂ r₂ hok₁.1 hb₂
      have hgood₂ : GoodG st₂ := hg₂ hok₁.2.1
      obtain ⟨hre₁, hdu₁⟩ := ih₁ st st₁ r₁ du₁ hok hb₁ hd₁
      obtain ⟨hre₂, hdu₂⟩ := ih₂ st₁ st₂ r₂ du₂ hok₁ hb₂ hd₂
      have hr₁₂ : r₁ < st₂.nodes.length := lt_of_lt_of_le hr₁ hp₂.1
      have hv₁ : getVal st₂ r₁ = getVal st₁ r₁ := by
        rw [getVal, hp₂.2 r₁ hr₁]
        rfl
      have hs₁ : sens P st₂ i.val r₁ = sens P st₁ i.val r₁ :=
        sens_pres P i.val st₁ st₂ (hg₁ hok.2.1) hp₂ r₁ hr₁
      obtain ⟨rfl, rfl⟩ := pair_eq_split hb'
      have hmk : rnAdd st₂ r₁ (.inr r₂) = mkNode st₂
          (getVal st₂ r₁ + getVal st₂ r₂) (parentsPair r₁ r₂) "+"
          (.add r₁ r₂ st₂.nodes.length) := rfl
      rw [hmk, mkNode_idx]
      constructor
      · rw [getVal_mkNode_new, ← hd']
        show du₁.real + du₂.real = _
        rw [hre₁, hre₂, hv₁]
      · rw [mkBin_sens P i.val st₂ r₁ r₂ _ 1 1 "+" (.add r₁ r₂ st₂.nodes.length) hgood₂ hr₁₂ hr₂
          (by simp [BRule.isNone]) (fun p => rfl), ← hd']
        show du₁.dual + du₂.dual = _
        rw [hdu₁, hdu₂, hs₁]
        ring
  | addC e c ih =>
      intro st st' r du hok hb hd
      simp only [buildG] at hb
      cases hb₁ : buildG P e st with
      | error ε => rw [hb₁, bindErr] at hb; cases hb
      | ok o₁ =>
      obtain ⟨st₁, r₁⟩ := o₁
      rw [hb₁, bindOk] at hb
      have hb' : rnAdd st₁ r₁ (.inl c) = (st', r) := by
        simpa [pure, Except.pure] using hb
      simp only [evalD] at hd
      cases hd₁ : evalD P (seedDuals x i) e with
      | error ε => rw [hd₁, bindErr] at hd; cases hd
      | ok du₁ =>
      rw [hd₁, bindOk] at hd
      have hd' : dAdd du₁ (.inl c) = du := by
        simpa [pure, Except.pure] using hd
      obtain ⟨hp₁, hr₁, hg₁, _⟩ := buildG_spec P e st st₁ r₁ hok.1 hb₁
      have hgood₁ : GoodG st₁ := hg₁ hok.2.1
      obtain ⟨hre₁, hdu₁⟩ := ih st st₁ r₁ du₁ hok hb₁ hd₁
      have hgood₂ : GoodG (mkLeaf st₁ c).1 := (mkLeaf_spec st₁ c).2.2.1 hgood₁
      have hi₁ : i.val < st₁.nodes.length := by
        have := i.isLt
        have := hok.1
        have := hp₁.1
        omega
      have hr₁₂ : r₁ < (mkLeaf st₁ c).1.nodes.length := by
        rw [mkLeaf, mkNode_len]
        omega
      have hℓ : st₁.nodes.length < (mkLeaf st₁ c).1.nodes.length := by
        rw [mkLeaf, mkNode_len]
        omega
      obtain ⟨rfl, rfl⟩ := pair_eq_split hb'
      have hmk : rnAdd st₁ r₁ (.inl c) = mkNode (mkLeaf st₁ c).1
          (getVal (mkLeaf st₁ c).1 r₁ +
            getVal (mkLeaf st₁ c).1 st₁.nodes.length)
          (parentsPair r₁ st₁.nodes.length) "+"
          (.add r₁ st₁.nodes.length (mkLeaf st₁ c).1.nodes.length) := rfl
      rw [hmk, mkNode_idx]
      constructor
      · rw [getVal_mkNode_new, ← hd']
        show c + du₁.real = _
        rw [hre₁, getVal_mkLeaf_old st₁ c r₁ hr₁, getVal_mkLeaf_new]
        ring
      · rw [mkBin_sens P i.val (mkLeaf st₁ c).1 r₁ st₁.nodes.length _ 1 1
          "+" (.add r₁ st₁.nodes.length (mkLeaf st₁ c).1.nodes.length)
          hgood₂ hr₁₂ hℓ (by simp [BRule.isNone]) (fun p => rfl),
          ← hd']
        show du₁.dual = _
        rw [hdu₁, sens_mkLeaf_old P i.val st₁ c hgood₁ r₁ hr₁,
          leaf_sens P i.val st₁ c hi₁]
        ring
  | subE e₁ e₂ ih₁ ih₂ =>
      intro st st' r du hok hb hd
      simp only [buildG] at hb
      cases hb₁ : buildG P e₁ st with
      | error ε => rw [hb₁, bindErr] at hb; cases hb
      | ok o₁ =>
      obtain ⟨st₁, r₁⟩ := o₁
      rw [hb₁, bindOk] at hb
      cases hb₂ : buildG P e₂ st₁ with
      | error ε => rw [hb₂, bindErr] at hb; cases hb
      | ok o₂ =>
      obtain ⟨st₂, r₂⟩ := o₂
      rw [hb₂, bindOk] at hb
      have hb' : rnSub st₂ r₁ (.inr r₂) = (st', r) := by
        simpa [pure, Except.pure] using hb
      simp only [evalD] at hd
      cases hd₁ : evalD P (seedDuals x i) e₁ with
      | error ε => rw [hd₁, bindErr] at hd; cases hd
      | ok du₁ =>
      rw [hd₁, bindOk] at hd
      cases hd₂ : evalD P (seedDuals x i) e₂ with
      | error ε => rw [hd₂, bindErr] at hd; cases hd
      | ok du₂ =>
      rw [hd₂, bindOk] at hd
      have hd' : dSub du₁ (.inr du₂) = du := by
        simpa [pure, Except.pure] using hd
      obtain ⟨hp₁, hr₁, hg₁, _⟩ := buildG_spec P e₁ st st₁ r₁ hok.1 hb₁
      have hok₁ : SeedOK n x st₁ := seedOK_pres x st st₁ hok hp₁ (hg₁ hok.2.1)
      obtain ⟨hp₂, hr₂, hg₂, _⟩ := buildG_spec P e₂ st₁ st₂ r₂ hok₁.1 hb₂
      have hgood₂ : GoodG st₂ := hg₂ hok₁.2.1
      obtain ⟨hre₁, hdu₁⟩ := ih₁ st st₁ r₁ du₁ hok hb₁ hd₁
      obtain ⟨hre₂, hdu₂⟩ := ih₂ st₁ st₂ r₂ du₂ hok₁ hb₂ hd₂
      have hr₁₂ : r₁ < st₂.nodes.length := lt_of_lt_of_le hr₁ hp₂.1
      have hv₁ : getVal st₂ r₁ = getVal st₁ r₁ := by
        rw [getVal, hp₂.2 r₁ hr₁]
        rfl
      have hs₁ : sens P st₂ i.val r₁ = sens P st₁ i.val r₁ :=
        sens_pres P i.val st₁ st₂ (hg₁ hok.2.1) hp₂ r₁ hr₁
      obtain ⟨rfl, rfl⟩ := pair_eq_split hb'
      have hmk : rnSub st₂ r₁ (.inr r₂) = mkNode st₂
          (getVal st₂ r₁ - getVal st₂ r₂) (parentsPair r₁ r₂) "-"
          (.sub r₁ r₂ st₂.nodes.length) := rfl
      rw [hmk, mkNode_idx]
      constructor
      · rw [getVal_mkNode_new, ← hd']
        show du₁.real + (-1) * du₂.real = _
        rw [hre₁, hre₂, hv₁]
        ring
      · rw [mkBin_sens P i.val st₂ r₁ r₂ _ 1 (-1) "-" (.sub r₁ r₂ st₂.nodes.length) hgood₂ hr₁₂ hr₂
          (by simp [BRule.isNone]) (fun p => rfl), ← hd']
        show du₁.dual + (-1) * du₂.dual = _
        rw [hdu₁, hdu₂, hs₁]
        ring
  | subC e c ih =>
      intro st st' r du hok hb hd
      simp only [buildG] at hb
      cases hb₁ : buildG P e st with
      | error ε => rw [hb₁, bindErr] at hb; cases hb
      | ok o₁ =>
      obtain ⟨st₁, r₁⟩ := o₁
      rw [hb₁, bindOk] at hb
      have hb' : rnSub st₁ r₁ (.inl c) = (st', r) := by
        simpa [pure, Except.pure] using hb
      simp only [evalD] at hd
      cases hd₁ : evalD P (seedDuals x i) e with
      | error ε => rw [hd₁, bindErr] at hd; cases hd
      | ok du₁ =>
      rw [hd₁, bindOk] at hd
      have hd' : dSub du₁ (.inl c) = du := by
        simpa [pure, Except.pure] using hd
      obtain ⟨hp₁, hr₁, hg₁, _⟩ := buildG_spec P e st st₁ r₁ hok.1 hb₁
      have hgood₁ : GoodG st₁ := hg₁ hok.2.1
      obtain ⟨hre₁, hdu₁⟩ := ih st st₁ r₁ du₁ hok hb₁ hd₁
      have hgood₂ : GoodG (mkLeaf st₁ c).1 := (mkLeaf_spec st₁ c).2.2.1 hgood₁
      have hi₁ : i.val < st₁.nodes.length := by
        have := i.isLt
        have := hok.1
        have := hp₁.1
        omega
      have hr₁₂ : r₁ < (mkLeaf st₁ c).1.nodes.length := by
        rw [mkLeaf, mkNode_len]
        omega
      have hℓ : st₁.nodes.length < (mkLeaf st₁ c).1.nodes.length := by
        rw [mkLeaf, mkNode_len]
        omega
      obtain ⟨rfl, rfl⟩ := pair_eq_split hb'
      have hmk : rnSub st₁ r₁ (.inl c) = mkNode (mkLeaf st₁ c).1
          (getVal (mkLeaf st₁ c).1 r₁ -
            getVal (mkLeaf st₁ c).1 st₁.nodes.length)
          (parentsPair r₁ st₁.nodes.length) "-"
          (.sub r₁ st₁.nodes.length (mkLeaf st₁ c).1.nodes.length) := rfl
      rw [hmk, mkNode_idx]
      constructor
      · rw [getVal_mkNode_new, ← hd']
        show c * (-1) + du₁.real = _
        rw [hre₁, getVal_mkLeaf_old st₁ c r₁ hr₁, getVal_mkLeaf_new]
        ring
      · rw [mkBin_sens P i.val (mkLeaf st₁ c).1 r₁ st₁.nodes.length _ 1 (-1)
          "-" (.sub r₁ st₁.nodes.length (mkLeaf st₁ c).1.nodes.length)
          hgood₂ hr₁₂ hℓ (by simp [BRule.isNone]) (fun p => rfl),
          ← hd']
        show du₁.dual = _
        rw [hdu₁, sens_mkLeaf_old P i.val st₁ c hgood₁ r₁ hr₁,
          leaf_sens P i.val st₁ c hi₁]
        ring
  | rsubC c e ih =>
      intro st st' r du hok hb hd
      simp only [buildG] at hb
      cases hb₁ : buildG P e st with
      | error ε => rw [hb₁, bindErr] at hb; cases hb
      | ok o₁ =>
      obtain ⟨st₁, r₁⟩ := o₁
      rw [hb₁, bindOk] at hb
      have hb' : rnRsub st₁ r₁ c = (st', r) := by
        simpa [pure, Except.pure] using hb
      simp only [evalD] at hd
      cases hd₁ : evalD P (seedDuals x i) e with
      | error ε => rw [hd₁, bindErr] at hd; cases hd
      | ok du₁ =>
      rw [hd₁, bindOk] at hd
      have hd' : dRsub c du₁ = du := by
        simpa [pure, Except.pure] using hd
      obtain ⟨hp₁, hr₁, hg₁, _⟩ := buildG_spec P e st st₁ r₁ hok.1 hb₁
      have hgood₁ : GoodG st₁ := hg₁ hok.2.1
      obtain ⟨hre₁, hdu₁⟩ := ih st st₁ r₁ du₁ hok hb₁ hd₁
      have hgood₂ : GoodG (mkLeaf st₁ c).1 := (mkLeaf_spec st₁ c).2.2.1 hgood₁
      have hi₁ : i.val < st₁.nodes.length := by
        have := i.isLt
        have := hok.1
        have := hp₁.1
        omega
      have hr₁₂ : r₁ < (mkLeaf st₁ c).1.nodes.length := by
        rw [mkLeaf, mkNode_len]
        omega
      have hℓ : st₁.nodes.length < (mkLeaf st₁ c).1.nodes.length := by
        rw [mkLeaf, mkNode_len]
        omega
      obtain ⟨rfl, rfl⟩ := pair_eq_split hb'
      have hmk : rnRsub st₁ r₁ c = mkNode (mkLeaf st₁ c).1
          (getVal (mkLeaf st₁ c).1 st₁.nodes.length -
            getVal (mkLeaf st₁ c).1 r₁)
          (parentsPair r₁ st₁.nodes.length) "-"
          (.rsub r₁ st₁.nodes.length (mkLeaf st₁ c).1.nodes.length) := rfl
      rw [hmk, mkNode_idx]
      constructor
      · rw [getVal_mkNode_new, ← hd']
        show c + (-1) * du₁.real = _
        rw [hre₁, getVal_mkLeaf_old st₁ c r₁ hr₁, getVal_mkLeaf_new]
        ring
      · rw [mkBin_sens P i.val (mkLeaf st₁ c).1 r₁ st₁.nodes.length _ (-1) 1
          "-" (.rsub r₁ st₁.nodes.length (mkLeaf st₁ c).1.nodes.length)
          hgood₂ hr₁₂ hℓ (by simp [BRule.isNone]) (fun p => rfl),
          ← hd']
        show (-1) * du₁.dual = _
        rw [hdu₁, sens_mkLeaf_old P i.val st₁ c hgood₁ r₁ hr₁,
          leaf_sens P i.val st₁ c hi₁]
        ring
  | mulE e₁ e₂ ih₁ ih₂ =>
      intro st st' r du hok hb hd
      simp only [buildG] at hb
      cases hb₁ : buildG P e₁ st with
      | error ε => rw [hb₁, bindErr] at hb; cases hb
      | ok o₁ =>
      obtain ⟨st₁, r₁⟩ := o₁
      rw [hb₁, bindOk] at hb
      cases hb₂ : buildG P e₂ st₁ with
      | error ε => rw [hb₂, bindErr] at hb; cases hb
      | ok o₂ =>
      obtain ⟨st₂, r₂⟩ := o₂
      rw [hb₂, bindOk] at hb
      have hb' : rnMul st₂ r₁ (.inr r₂) = (st', r) := by
        simpa [pure, Except.pure] using hb
      simp only [evalD] at hd
      cases hd₁ : evalD P (seedDuals x i) e₁ with
      | error ε => rw [hd₁, bindErr] at hd; cases hd
      | ok du₁ =>
      rw [hd₁, bindOk] at hd
      cases hd₂ : evalD P (seedDuals x i) e₂ with
      | error ε => rw [hd₂, bindErr] at hd; cases hd
      | ok du₂ =>
      rw [hd₂, bindOk] at hd
      have hd' : dMul du₁ (.inr du₂) = du := by
        simpa [pure, Except.pure] using hd
      obtain ⟨hp₁, hr₁, hg₁, _⟩ := buildG_spec P e₁ st st₁ r₁ hok.1 hb₁
      have hok₁ : SeedOK n x st₁ := seedOK_pres x st st₁ hok hp₁ (hg₁ hok.2.1)
      obtain ⟨hp₂, hr₂, hg₂, _⟩ := buildG_spec P e₂ st₁ st₂ r₂ hok₁.1 hb₂
      have hgood₂ : GoodG st₂ := hg₂ hok₁.2.1
      obtain ⟨hre₁, hdu₁⟩ := ih₁ st st₁ r₁ du₁ hok hb₁ hd₁
      obtain ⟨hre₂, hdu₂⟩ := ih₂ st₁ st₂ r₂ du₂ hok₁ hb₂ hd₂
      have hr₁₂ : r₁ < st₂.nodes.length := lt_of_lt_of_le hr₁ hp₂.1
      have hv₁ : getVal st₂ r₁ = getVal st₁ r₁ := by
        rw [getVal, hp₂.2 r₁ hr₁]
        rfl
      have hs₁ : sens P st₂ i.val r₁ = sens P st₁ i.val r₁ :=
        sens_pres P i.val st₁ st₂ (hg₁ hok.2.1) hp₂ r₁ hr₁
      obtain ⟨rfl, rfl⟩ := pair_eq_split hb'
      have hmk : rnMul st₂ r₁ (.inr r₂) = mkNode st₂
          (getVal st₂ r₁ * getVal st₂ r₂) (parentsPair r₁ r₂) "x"
          (.mul r₁ r₂ st₂.nodes.length) := rfl
      rw [hmk, mkNode_idx]
      constructor
      · rw [getVal_mkNode_new, ← hd']
        show du₁.real * du₂.real = _
        rw [hre₁, hre₂, hv₁]
      · rw [mkBin_sens P i.val st₂ r₁ r₂ _ (getVal st₂ r₂) (getVal st₂ r₁)
          "x" (.mul r₁ r₂ st₂.nodes.length) hgood₂ hr₁₂ hr₂ (by simp [BRule.isNone]) (fun p => by
            simp only [ruleCoeff]
            rw [getVal_mkNode_old st₂ _ _ _ _ r₂ hr₂,
              getVal_mkNode_old st₂ _ _ _ _ r₁ hr₁₂]), ← hd']
        show du₁.real * du₂.dual + du₁.dual * du₂.real = _
        rw [hre₁, hre₂, hdu₁, hdu₂, hs₁, hv₁]
        ring
  | mulC e c ih =>
      intro st st' r du hok hb hd
      simp only [buildG] at hb
      cases hb₁ : buildG P e st with
      | error ε => rw [hb₁, bindErr] at hb; cases hb
      | ok o₁ =>
      obtain ⟨st₁, r₁⟩ := o₁
      rw [hb₁, bindOk] at hb
      have hb' : rnMul st₁ r₁ (.inl c) = (st', r) := by
        simpa [pure, Except.pure] using hb
      simp only [evalD] at hd
      cases hd₁ : evalD P (seedDuals x i) e with
      | error ε => rw [hd₁, bindErr] at hd; cases hd
      | ok du₁ =>
      rw [hd₁, bindOk] at hd
      have hd' : dMul du₁ (.inl c) = du := by
        simpa [pure, Except.pure] using hd
      obtain ⟨hp₁, hr₁, hg₁, _⟩ := buildG_spec P e st st₁ r₁ hok.1 hb₁
      have hgood₁ : GoodG st₁ := hg₁ hok.2.1
      obtain ⟨hre₁, hdu₁⟩ := ih st st₁ r₁ du₁ hok hb₁ hd₁
      have hgood₂ : GoodG (mkLeaf st₁ c).1 := (mkLeaf_spec st₁ c).2.2.1 hgood₁
      have hi₁ : i.val < st₁.nodes.length := by
        have := i.isLt
        have := hok.1
        have := hp₁.1
        omega
      have hr₁₂ : r₁ < (mkLeaf st₁ c).1.nodes.length := by
        rw [mkLeaf, mkNode_len]
        omega
      have hℓ : st₁.nodes.length < (mkLeaf st₁ c).1.nodes.length := by
        rw [mkLeaf, mkNode_len]
        omega
      obtain ⟨rfl, rfl⟩ := pair_eq_split hb'
      have hmk : rnMul st₁ r₁ (.inl c) = mkNode (mkLeaf st₁ c).1
          (getVal (mkLeaf st₁ c).1 r₁ *
            getVal (mkLeaf st₁ c).1 st₁.nodes.length)
          (parentsPair r₁ st₁.nodes.length) "x"
          (.mul r₁ st₁.nodes.length (mkLeaf st₁ c).1.nodes.length) := rfl
      rw [hmk, mkNode_idx]
      constructor
      · rw [getVal_mkNode_new, ← hd']
        show c * du₁.real = _
        rw [hre₁, getVal_mkLeaf_old st₁ c r₁ hr₁, getVal_mkLeaf_new]
        ring
      · rw [mkBin_sens P i.val (mkLeaf st₁ c).1 r₁ st₁.nodes.length _
          (getVal (mkLeaf st₁ c).1 st₁.nodes.length)
          (getVal (mkLeaf st₁ c).1 r₁)
          "x" (.mul r₁ st₁.nodes.length (mkLeaf st₁ c).1.nodes.length)
          hgood₂ hr₁₂ hℓ (by simp [BRule.isNone]) (fun p => by
            simp only [ruleCoeff]
            rw [getVal_mkNode_old _ _ _ _ _ st₁.nodes.length hℓ,
              getVal_mkNode_old _ _ _ _ _ r₁ hr₁₂]), ← hd']
        show c * du₁.dual = _
        rw [hdu₁, sens_mkLeaf_old P i.val st₁ c hgood₁ r₁ hr₁,
          leaf_sens P i.val st₁ c hi₁, getVal_mkLeaf_new]
        ring
  | divE e₁ e₂ ih₁ ih₂ =>
      intro st st' r du hok hb hd
      simp only [buildG] at hb
      cases hb₁ : buildG P e₁ st with
      | error ε => rw [hb₁, bindErr] at hb; cases hb
      | ok o₁ =>
      obtain ⟨st₁, r₁⟩ := o₁
      rw [hb₁, bindOk] at hb
      cases hb₂ : buildG P e₂ st₁ with
      | error ε => rw [hb₂, bindErr] at hb; cases hb
      | ok o₂ =>
      obtain ⟨st₂, r₂⟩ := o₂
      rw [hb₂, bindOk] at hb
      have hb' : (if getVal st₂ r₂ = 0 then
          (.error .zeroDivErr : Except PyErr (GState α × Nat)) else
          .ok (mkNode st₂ (getVal st₂ r₁ / getVal st₂ r₂)
            (parentsPair r₁ r₂) "/" (.div r₁ r₂ st₂.nodes.length))) =
          .ok (st', r) := by simpa using hb
      split_ifs at hb' with hz
      simp only [Except.ok.injEq] at hb'
      simp only [evalD] at hd
      cases hd₁ : evalD P (seedDuals x i) e₁ with
      | error ε => rw [hd₁, bindErr] at hd; cases hd
      | ok du₁ =>
      rw [hd₁, bindOk] at hd
      cases hd₂ : evalD P (seedDuals x i) e₂ with
      | error ε => rw [hd₂, bindErr] at hd; cases hd
      | ok du₂ =>
      rw [hd₂, bindOk] at hd
      have hd' : (if du₂.real = 0 then
          (.error .zeroDivErr : Except PyErr (Dual α)) else
          if P.pow du₂.real 2 = 0 then .error .zeroDivErr else
          .ok ⟨du₁.real / du₂.real,
            (du₁.dual * du₂.real - du₁.real * du₂.dual) /
              P.pow du₂.real 2⟩) = .ok du := by simpa using hd
      split_ifs at hd' with hz1 hz2
      simp only [Except.ok.injEq] at hd'
      obtain ⟨hp₁, hr₁, hg₁, _⟩ := buildG_spec P e₁ st st₁ r₁ hok.1 hb₁
      have hok₁ : SeedOK n x st₁ := seedOK_pres x st st₁ hok hp₁ (hg₁ hok.2.1)
      obtain ⟨hp₂, hr₂, hg₂, _⟩ := buildG_spec P e₂ st₁ st₂ r₂ hok₁.1 hb₂
      have hgood₂ : GoodG st₂ := hg₂ hok₁.2.1
      obtain ⟨hre₁, hdu₁⟩ := ih₁ st st₁ r₁ du₁ hok hb₁ hd₁
      obtain ⟨hre₂, hdu₂⟩ := ih₂ st₁ st₂ r₂ du₂ hok₁ hb₂ hd₂
      have hr₁₂ : r₁ < st₂.nodes.length := lt_of_lt_of_le hr₁ hp₂.1
      have hv₁ : getVal st₂ r₁ = getVal st₁ r₁ := by
        rw [getVal, hp₂.2 r₁ hr₁]
        rfl
      have hs₁ : sens P st₂ i.val r₁ = sens P st₁ i.val r₁ :=
        sens_pres P i.val st₁ st₂ (hg₁ hok.2.1) hp₂ r₁ hr₁
      obtain ⟨rfl, rfl⟩ := pair_eq_split hb'
      rw [mkNode_idx]
      constructor
      · rw [getVal_mkNode_new, ← hd']
        show du₁.real / du₂.real = _
        rw [hre₁, hre₂, hv₁]
      · rw [mkBin_sens P i.val st₂ r₁ r₂ _ (1 / getVal st₂ r₂)
          (-getVal st₂ r₁ / P.pow (getVal st₂ r₂) 2) "/"
          (.div r₁ r₂ st₂.nodes.length) hgood₂ hr₁₂ hr₂
          (by simp [BRule.isNone]) (fun p => by
            simp only [ruleCoeff]
            rw [getVal_mkNode_old st₂ _ _ _ _ r₂ hr₂,
              getVal_mkNode_old st₂ _ _ _ _ r₁ hr₁₂]), ← hd']
        show (du₁.dual * du₂.real - du₁.real * du₂.dual) /
            P.pow du₂.real 2 = _
        rw [hre₁, hre₂, hdu₁, hdu₂, hs₁, hv₁]
        have hB : getVal st₂ r₂ ≠ 0 := by
          rw [hre₂] at hz1
          exact hz1
        rw [hpow2 (getVal st₂ r₂) hB]
        field_simp
        ring
  | divC e c ih =>
      intro st st' r du hok hb hd
      simp only [buildG] at hb
      cases hb₁ : buildG P e st with
      | error ε => rw [hb₁, bindErr] at hb; cases hb
      | ok o₁ =>
      obtain ⟨st₁, r₁⟩ := o₁
      rw [hb₁, bindOk] at hb
      have hb' : (if getVal (mkLeaf st₁ c).1 st₁.nodes.length = 0 then
          (.error .zeroDivErr : Except PyErr (GState α × Nat)) else
          .ok (mkNode (mkLeaf st₁ c).1
            (getVal (mkLeaf st₁ c).1 r₁ /
              getVal (mkLeaf st₁ c).1 st₁.nodes.length)
            (parentsPair r₁ st₁.nodes.length) "/"
            (.div r₁ st₁.nodes.length (mkLeaf st₁ c).1.nodes.length))) =
          .ok (st', r) := by simpa using hb
      split_ifs at hb' with hz
      simp only [Except.ok.injEq] at hb'
      simp only [evalD] at hd
      cases hd₁ : evalD P (seedDuals x i) e with
      | error ε => rw [hd₁, bindErr] at hd; cases hd
      | ok du₁ =>
      rw [hd₁, bindOk] at hd
      have hd' : (if c = 0 then
          (.error .zeroDivErr : Except PyErr (Dual α)) else
          .ok ⟨du₁.real / c, du₁.dual / c⟩) = .ok du := by simpa using hd
      split_ifs at hd' with hz1
      simp only [Except.ok.injEq] at hd'
      obtain ⟨hp₁, hr₁, hg₁, _⟩ := buildG_spec P e st st₁ r₁ hok.1 hb₁
      have hgood₁ : GoodG st₁ := hg₁ hok.2.1
      obtain ⟨hre₁, hdu₁⟩ := ih st st₁ r₁ du₁ hok hb₁ hd₁
      have hgood₂ : GoodG (mkLeaf st₁ c).1 := (mkLeaf_spec st₁ c).2.2.1 hgood₁
      have hi₁ : i.val < st₁.nodes.length := by
        have := i.isLt
        have := hok.1
        have := hp₁.1
        omega
      have hr₁₂ : r₁ < (mkLeaf st₁ c).1.nodes.length := by
        rw [mkLeaf, mkNode_len]
        omega
      have hℓ : st₁.nodes.length < (mkLeaf st₁ c).1.nodes.length := by
        rw [mkLeaf, mkNode_len]
        omega
      obtain ⟨rfl, rfl⟩ := pair_eq_split hb'
      rw [mkNode_idx]
      constructor
      · rw [getVal_mkNode_new, ← hd']
        show du₁.real / c = _
        rw [hre₁, getVal_mkLeaf_old st₁ c r₁ hr₁, getVal_mkLeaf_new]
      · rw [mkBin_sens P i.val (mkLeaf st₁ c).1 r₁ st₁.nodes.length _
          (1 / getVal (mkLeaf st₁ c).1 st₁.nodes.length)
          (-getVal (mkLeaf st₁ c).1 r₁ /
            P.pow (getVal (mkLeaf st₁ c).1 st₁.nodes.length) 2) "/"
          (.div r₁ st₁.nodes.length (mkLeaf st₁ c).1.nodes.length)
          hgood₂ hr₁₂ hℓ (by simp [BRule.isNone]) (fun p => by
            simp only [ruleCoeff]
            rw [getVal_mkNode_old _ _ _ _ _ st₁.nodes.length hℓ,
              getVal_mkNode_old _ _ _ _ _ r₁ hr₁₂]), ← hd']
        show du₁.dual / c = _
        rw [hdu₁, sens_mkLeaf_old P i.val st₁ c hgood₁ r₁ hr₁,
          leaf_sens P i.val st₁ c hi₁, getVal_mkLeaf_new]
        ring
  | rdivC c e ih =>
      intro st st' r du hok hb hd
      simp only [buildG] at hb
      cases hb₁ : buildG P e st with
      | error ε => rw [hb₁, bindErr] at hb; cases hb
      | ok o₁ =>
      obtain ⟨st₁, r₁⟩ := o₁
      rw [hb₁, bindOk] at hb
      have hb' : (if getVal (mkLeaf st₁ c).1 r₁ = 0 then
          (.error .zeroDivErr : Except PyErr (GState α × Nat)) else
          .ok (mkNode (mkLeaf st₁ c).1
            (getVal (mkLeaf st₁ c).1 st₁.nodes.length /
              getVal (mkLeaf st₁ c).1 r₁)
            (parentsPair r₁ st₁.nodes.length) "/"
            (.rdiv r₁ st₁.nodes.length (mkLeaf st₁ c).1.nodes.length))) =
          .ok (st', r) := by simpa using hb
      split_ifs at hb' with hz
      simp only [Except.ok.injEq] at hb'
      simp only [evalD] at hd
      cases hd₁ : evalD P (seedDuals x i) e with
      | error ε => rw [hd₁, bindErr] at hd; cases hd
      | ok du₁ =>
      rw [hd₁, bindOk] at hd
      have hd' : dRdiv P c du₁ = .ok du := by simpa using hd
      rw [dRdiv] at hd'
      split_ifs at hd' with hz1 hz2
      simp only [Except.ok.injEq] at hd'
      obtain ⟨hp₁, hr₁, hg₁, _⟩ := buildG_spec P e st st₁ r₁ hok.1 hb₁
      have hgood₁ : GoodG st₁ := hg₁ hok.2.1
      obtain ⟨hre₁, hdu₁⟩ := ih st st₁ r₁ du₁ hok hb₁ hd₁
      have hgood₂ : GoodG (mkLeaf st₁ c).1 := (mkLeaf_spec st₁ c).2.2.1 hgood₁
      have hi₁ : i.val < st₁.nodes.length := by
        have := i.isLt
        have := hok.1
        have := hp₁.1
        omega
      have hr₁₂ : r₁ < (mkLeaf st₁ c).1.nodes.length := by
        rw [mkLeaf, mkNode_len]
        omega
      have hℓ : st₁.nodes.length < (mkLeaf st₁ c).1.nodes.length := by
        rw [mkLeaf, mkNode_len]
        omega
      obtain ⟨rfl, rfl⟩ := pair_eq_split hb'
      rw [mkNode_idx]
      constructor
      · rw [getVal_mkNode_new, ← hd']
        show c / du₁.real = _
        rw [hre₁, getVal_mkLeaf_old st₁ c r₁ hr₁, getVal_mkLeaf_new]
      · rw [mkBin_sens P i.val (mkLeaf st₁ c).1 r₁ st₁.nodes.length _
          (-getVal (mkLeaf st₁ c).1 st₁.nodes.length /
            P.pow (getVal (mkLeaf st₁ c).1 r₁) 2)
          (1 / getVal (mkLeaf st₁ c).1 r₁) "/"
          (.rdiv r₁ st₁.nodes.length (mkLeaf st₁ c).1.nodes.length)
          hgood₂ hr₁₂ hℓ (by simp [BRule.isNone]) (fun p => by
            simp only [ruleCoeff]
            rw [getVal_mkNode_old _ _ _ _ _ st₁.nodes.length hℓ,
              getVal_mkNode_old _ _ _ _ _ r₁ hr₁₂]), ← hd']
        show -c * du₁.dual / P.pow du₁.real 2 = _
        rw [hre₁, hdu₁, sens_mkLeaf_old P i.val st₁ c hgood₁ r₁ hr₁,
          leaf_sens P i.val st₁ c hi₁, getVal_mkLeaf_new,
          getVal_mkLeaf_old st₁ c r₁ hr₁]
        ring
  | powE e₁ e₂ ih₁ ih₂ =>
      intro st st' r du hok hb hd
      simp only [buildG] at hb
      cases hb₁ : buildG P e₁ st with
      | error ε => rw [hb₁, bindErr] at hb; cases hb
      | ok o₁ =>
      obtain ⟨st₁, r₁⟩ := o₁
      rw [hb₁, bindOk] at hb
      cases hb₂ : buildG P e₂ st₁ with
      | error ε => rw [hb₂, bindErr] at hb; cases hb
      | ok o₂ =>
      obtain ⟨st₂, r₂⟩ := o₂
      rw [hb₂, bindOk] at hb
      have hb' : rnPow P st₂ r₁ (.inr r₂) = (st', r) := by
        simpa [pure, Except.pure] using hb
      simp only [evalD] at hd
      cases hd₁ : evalD P (seedDuals x i) e₁ with
      | error ε => rw [hd₁, bindErr] at hd; cases hd
      | ok du₁ =>
      rw [hd₁, bindOk] at hd
      cases hd₂ : evalD P (seedDuals x i) e₂ with
      | error ε => rw [hd₂, bindErr] at hd; cases hd
      | ok du₂ =>
      rw [hd₂, bindOk] at hd
      have hd' : (if du₁.real = 0 then
          (.error .zeroDivErr : Except PyErr (Dual α)) else
          .ok ⟨P.pow du₁.real du₂.real,
            P.pow du₁.real du₂.real *
              (du₂.dual * P.log du₁.real +
                du₁.dual * du₂.real / du₁.real)⟩) = .ok du := by
        simpa using hd
      split_ifs at hd' with ha
      simp only [Except.ok.injEq] at hd'
      obtain ⟨hp₁, hr₁, hg₁, _⟩ := buildG_spec P e₁ st st₁ r₁ hok.1 hb₁
      have hok₁ : SeedOK n x st₁ := seedOK_pres x st st₁ hok hp₁ (hg₁ hok.2.1)
      obtain ⟨hp₂, hr₂, hg₂, _⟩ := buildG_spec P e₂ st₁ st₂ r₂ hok₁.1 hb₂
      have hgood₂ : GoodG st₂ := hg₂ hok₁.2.1
      obtain ⟨hre₁, hdu₁⟩ := ih₁ st st₁ r₁ du₁ hok hb₁ hd₁
      obtain ⟨hre₂, hdu₂⟩ := ih₂ st₁ st₂ r₂ du₂ hok₁ hb₂ hd₂
      have hr₁₂ : r₁ < st₂.nodes.length := lt_of_lt_of_le hr₁ hp₂.1
      have hv₁ : getVal st₂ r₁ = getVal st₁ r₁ := by
        rw [getVal, hp₂.2 r₁ hr₁]
        rfl
      have hs₁ : sens P st₂ i.val r₁ = sens P st₁ i.val r₁ :=
        sens_pres P i.val st₁ st₂ (hg₁ hok.2.1) hp₂ r₁ hr₁
      obtain ⟨rfl, rfl⟩ := pair_eq_split hb'
      have hmk : rnPow P st₂ r₁ (.inr r₂) = mkNode st₂
          (P.pow (getVal st₂ r₁) (getVal st₂ r₂)) (parentsPair r₁ r₂) "^"
          (.pow r₁ r₂ st₂.nodes.length) := rfl
      rw [hmk, mkNode_idx]
      have hA : getVal st₂ r₁ ≠ 0 := by
        rw [hre₁, ← hv₁] at ha
        exact ha
      constructor
      · rw [getVal_mkNode_new, ← hd']
        show P.pow du₁.real du₂.real = _
        rw [hre₁, hre₂, hv₁]
      · rw [mkBin_sens P i.val st₂ r₁ r₂ _
          (getVal st₂ r₂ * P.pow (getVal st₂ r₁) (getVal st₂ r₂ - 1))
          (P.pow (getVal st₂ r₁) (getVal st₂ r₂) * P.log (getVal st₂ r₁))
          "^" (.pow r₁ r₂ st₂.nodes.length) hgood₂ hr₁₂ hr₂
          (by simp [BRule.isNone]) (fun p => by
            simp only [ruleCoeff]
            rw [getVal_mkNode_old st₂ _ _ _ _ r₂ hr₂,
              getVal_mkNode_old st₂ _ _ _ _ r₁ hr₁₂]), ← hd']
        show P.pow du₁.real du₂.real *
            (du₂.dual * P.log du₁.real + du₁.dual * du₂.real / du₁.real) = _
        rw [hre₁, hre₂, hdu₁, hdu₂, hs₁,
          ← hpow (getVal st₂ r₁) (getVal st₂ r₂) hA, hv₁]
        ring
  | powC e c ih =>
      intro st st' r du hok hb hd
      simp only [buildG] at hb
      cases hb₁ : buildG P e st with
      | error ε => rw [hb₁, bindErr] at hb; cases hb
      | ok o₁ =>
      obtain ⟨st₁, r₁⟩ := o₁
      rw [hb₁, bindOk] at hb
      have hb' : rnPow P st₁ r₁ (.inl c) = (st', r) := by
        simpa [pure, Except.pure] using hb
      simp only [evalD] at hd
      cases hd₁ : evalD P (seedDuals x i) e with
      | error ε => rw [hd₁, bindErr] at hd; cases hd
      | ok du₁ =>
      rw [hd₁, bindOk] at hd
      have hd' : dPow P du₁ (.inl c) = .ok du := by simpa using hd
      simp only [dPow, Except.ok.injEq] at hd'
      obtain ⟨hp₁, hr₁, hg₁, _⟩ := buildG_spec P e st st₁ r₁ hok.1 hb₁
      have hgood₁ : GoodG st₁ := hg₁ hok.2.1
      obtain ⟨hre₁, hdu₁⟩ := ih st st₁ r₁ du₁ hok hb₁ hd₁
      have hgood₂ : GoodG (mkLeaf st₁ c).1 := (mkLeaf_spec st₁ c).2.2.1 hgood₁
      have hi₁ : i.val < st₁.nodes.length := by
        have := i.isLt
        have := hok.1
        have := hp₁.1
        omega
      have hr₁₂ : r₁ < (mkLeaf st₁ c).1.nodes.length := by
        rw [mkLeaf, mkNode_len]
        omega
      have hℓ : st₁.nodes.length < (mkLeaf st₁ c).1.nodes.length := by
        rw [mkLeaf, mkNode_len]
        omega
      obtain ⟨rfl, rfl⟩ := pair_eq_split hb'
      have hmk : rnPow P st₁ r₁ (.inl c) = mkNode (mkLeaf st₁ c).1
          (P.pow (getVal (mkLeaf st₁ c).1 r₁)
            (getVal (mkLeaf st₁ c).1 st₁.nodes.length))
          (parentsPair r₁ st₁.nodes.length) "^"
          (.pow r₁ st₁.nodes.length (mkLeaf st₁ c).1.nodes.length) := rfl
      rw [hmk, mkNode_idx]
      constructor
      · rw [getVal_mkNode_new, ← hd']
        show P.pow du₁.real c = _
        rw [hre₁, getVal_mkLeaf_old st₁ c r₁ hr₁, getVal_mkLeaf_new]
      · rw [mkBin_sens P i.val (mkLeaf st₁ c).1 r₁ st₁.nodes.length _
          (getVal (mkLeaf st₁ c).1 st₁.nodes.length *
            P.pow (getVal (mkLeaf st₁ c).1 r₁)
              (getVal (mkLeaf st₁ c).1 st₁.nodes.length - 1))
          (P.pow (getVal (mkLeaf st₁ c).1 r₁)
              (getVal (mkLeaf st₁ c).1 st₁.nodes.length) *
            P.log (getVal (mkLeaf st₁ c).1 r₁)) "^"
          (.pow r₁ st₁.nodes.length (mkLeaf st₁ c).1.nodes.length)
          hgood₂ hr₁₂ hℓ (by simp [BRule.isNone]) (fun p => by
            simp only [ruleCoeff]
            rw [getVal_mkNode_old _ _ _ _ _ st₁.nodes.length hℓ,
              getVal_mkNode_old _ _ _ _ _ r₁ hr₁₂]), ← hd']
        show c * P.pow du₁.real (c - 1) * du₁.dual = _
        rw [hre₁, hdu₁, sens_mkLeaf_old P i.val st₁ c hgood₁ r₁ hr₁,
          leaf_sens P i.val st₁ c hi₁, getVal_mkLeaf_new,
          getVal_mkLeaf_old st₁ c r₁ hr₁]
        ring
  | rpowC c e ih =>
      intro st st' r du hok hb hd
      simp only [buildG] at hb
      cases hb₁ : buildG P e st with
      | error ε => rw [hb₁, bindErr] at hb; cases hb
      | ok o₁ =>
      obtain ⟨st₁, r₁⟩ := o₁
      rw [hb₁, bindOk] at hb
      have hb' : rnRpow P st₁ r₁ c = (st', r) := by
        simpa [pure, Except.pure] using hb
      simp only [evalD] at hd
      cases hd₁ : evalD P (seedDuals x i) e with
      | error ε => rw [hd₁, bindErr] at hd; cases hd
      | ok du₁ =>
      rw [hd₁, bindOk] at hd
      have hd' : dRpow P c du₁ = du := by
        simpa [pure, Except.pure] using hd
      obtain ⟨hp₁, hr₁, hg₁, _⟩ := buildG_spec P e st st₁ r₁ hok.1 hb₁
      have hgood₁ : GoodG st₁ := hg₁ hok.2.1
      obtain ⟨hre₁, hdu₁⟩ := ih st st₁ r₁ du₁ hok hb₁ hd₁
      obtain ⟨rfl, rfl⟩ := pair_eq_split hb'
      have hmk : rnRpow P st₁ r₁ c = mkNode st₁
          (P.pow c (getVal st₁ r₁)) [r₁] "^"
          (.rpow c r₁ st₁.nodes.length) := rfl
      rw [hmk, mkNode_idx]
      constructor
      · rw [getVal_mkNode_new, ← hd']
        show P.pow c du₁.real = _
        rw [hre₁]
      · rw [mkUn_sens P i.val st₁ r₁ _
          (P.pow c (getVal st₁ r₁) * P.log c) "^"
          (.rpow c r₁ st₁.nodes.length) hgood₁ hr₁
          (by simp [BRule.isNone]) (fun p => by
            simp only [ruleCoeff]
            rw [getVal_mkNode_old st₁ _ _ _ _ r₁ hr₁]), ← hd']
        show P.pow c du₁.real * du₁.dual * P.log c = _
        rw [hre₁, hdu₁]
        ring
  | un u e ih =>
      intro st st' r du hok hb hd
      simp only [buildG] at hb
      cases hb₁ : buildG P e st with
      | error ε => rw [hb₁, bindErr] at hb; cases hb
      | ok o₁ =>
      obtain ⟨st₁, r₁⟩ := o₁
      rw [hb₁, bindOk] at hb
      have hb' : rnUnary P u st₁ r₁ = .ok (st', r) := by simpa using hb
      rw [rnUnary] at hb'
      split_ifs at hb' with hdom
      simp only [Except.ok.injEq] at hb'
      simp only [evalD] at hd
      cases hd₁ : evalD P (seedDuals x i) e with
      | error ε => rw [hd₁, bindErr] at hd; cases hd
      | ok du₁ =>
      rw [hd₁, bindOk] at hd
      have hd' : dUnary P u du₁ = .ok du := by simpa using hd
      obtain ⟨hdr, hdd⟩ := dUnary_shape P u du₁ du hd'
      obtain ⟨hp₁, hr₁, hg₁, _⟩ := buildG_spec P e st st₁ r₁ hok.1 hb₁
      have hgood₁ : GoodG st₁ := hg₁ hok.2.1
      obtain ⟨hre₁, hdu₁⟩ := ih st st₁ r₁ du₁ hok hb₁ hd₁
      obtain ⟨rfl, rfl⟩ := pair_eq_split hb'
      rw [mkNode_idx]
      constructor
      · rw [getVal_mkNode_new, hdr, hre₁]
      · rw [mkUn_sens P i.val st₁ r₁ _
          (uCoeff P u (getVal st₁ r₁)) (uOperStr u)
          (.unary u r₁ st₁.nodes.length) hgood₁ hr₁
          (by simp [BRule.isNone]) (fun p => by
            simp only [ruleCoeff]
            rw [getVal_mkNode_old st₁ _ _ _ _ r₁ hr₁]), hdd, hre₁, hdu₁]

/-! Assembling whole runs.  `forwardRun` is a fold of seeded columns;
`reverseRun` is one backward pass per output on the shared graph. -/

theorem getD_ofFn {n : Nat} (x : Fin n → α) (j : Fin n) :
    (List.ofFn x).getD j.val 0 = x j := by
  rw [List.getD_eq_getElem?_getD, List.getElem?_ofFn]
  simp [List.ofFnNthVal, j.isLt]

theorem getD_append_lt {β : Type} (l₁ l₂ : List β) (d : β) (k : Nat)
    (h : k < l₁.length) : (l₁ ++ l₂).getD k d = l₁.getD k d := by
  rw [List.getD_eq_getElem?_getD, List.getD_eq_getElem?_getD,
    List.getElem?_append, if_pos h]

theorem getD_append_len {β : Type} (l : List β) (a d : β) :
    (l ++ [a]).getD l.length d = a := by
  rw [List.getD_eq_getElem?_getD, List.getElem?_append_right (le_refl _)]
  simp

theorem getD_map_lt {β γ : Type} (f : β → γ) (l : List β) (dβ : β) (dγ : γ)
    (j : Nat) (hj : j < l.length) :
    (l.map f).getD j dγ = f (l.getD j dβ) := by
  rw [List.getD_eq_getElem _ dγ (by simpa using hj),
    List.getD_eq_getElem _ dβ hj, List.getElem_map]

theorem getD_map_finRange {β : Type} {n : Nat} (F : Fin n → β) (d : β)
    (i : Nat) (hi : i < n) :
    (((List.finRange n).map F).getD i d) = F ⟨i, hi⟩ := by
  rw [getD_map_lt F (List.finRange n) ⟨i, hi⟩ d i (by simpa using hi)]
  congr 1
  have h2 : i < (List.finRange n).length := by simpa using hi
  rw [List.getD_eq_getElem _ _ h2]
  apply Fin.ext
  simp [List.getElem_finRange, Fin.coe_cast]

theorem list_eq_of_getD {β : Type} (l₁ l₂ : List β) (d : β)
    (hlen : l₁.length = l₂.length)
    (h : ∀ j, j < l₁.length → l₁.getD j d = l₂.getD j d) : l₁ = l₂ := by
  apply List.ext_getElem hlen
  intro j h₁ h₂
  have := h j h₁
  rwa [List.getD_eq_getElem _ d h₁, List.getD_eq_getElem _ d h₂] at this

theorem foldl_const_eq {β γ : Type} (F : γ → β) (v : β) :
    ∀ (l : List γ) (a : β), (∀ i ∈ l, F i = v) → l ≠ [] →
      l.foldl (fun _ i => F i) a = v := by
  intro l
  induction l with
  | nil => intro a _ h; exact absurd rfl h
  | cons i l ih =>
      intro a hF _
      rw [List.foldl_cons]
      by_cases hl : l = []
      · subst hl
        simpa using hF i (by simp)
      · exact ih (F i) (fun i' hi' => hF i' (List.mem_cons_of_mem _ hi')) hl

/-- The state `Func._reverse` builds its graph in satisfies the input
invariants. -/
theorem reverseInit_seedOK {n : Nat} (x : Fin n → α) :
    SeedOK n x (reverseInit (List.ofFn x)) := by
  obtain ⟨hci, hinc, hlen, hnodes⟩ := reverseInit_counterInv (List.ofFn x)
  rw [List.length_ofFn] at hlen hnodes
  refine ⟨by omega, ⟨?_, ?_, ?_⟩, ?_, ?_⟩
  · intro y p hp
    by_cases hy : y < n
    · rw [parentsOf, hnodes y hy] at hp
      simp at hp
    · rw [parentsOf, getNode_oob _ y (by omega)] at hp
      simp at hp
  · intro y
    by_cases hy : y < n
    · rw [ruleOf, parentsOf, hnodes y hy]
      trivial
    · rw [ruleOf, parentsOf, getNode_oob _ y (by omega)]
      trivial
  · intro y
    by_cases hy : y < n
    · rw [parentsOf, hnodes y hy]
      exact List.nodup_nil
    · rw [parentsOf, getNode_oob _ y (by omega)]
      exact List.nodup_nil
  · intro j
    rw [getVal, hnodes j.val j.isLt]
    exact getD_ofFn x j
  · intro j
    rw [ruleOf, hnodes j.val j.isLt]

theorem backward_SEq (P : Prim α) (nn root : Nat) (u : GState α)
    (row' : List α) (u' : GState α)
    (h : backward P nn root u = .ok (row', u')) : SEq u u' := by
  have hbs : backward P nn root u =
      walkSpec P nn (sortNodes u root).reverse (List.replicate nn 0)
        (setDer (zeroSpec u (sortNodes u root)) root 1) := by
    rw [backward, zeroDers_eq_zeroSpec]
    exact foldlM_sweep_eq_walkSpec P nn _ _ _
  rw [hbs] at h
  have h1 : SEq u (setDer (zeroSpec u (sortNodes u root)) root 1) :=
    seqTrans (by rw [← zeroDers_eq_zeroSpec]; exact zeroDers_SEq u _)
      (setDer_SEq _ _ _)
  exact seqTrans h1 (walkSpec_SEq P nn _ _ row' _ u' h)

/-- One backward pass on (any static twin of) the built graph returns the
sensitivities of the root to each input in the input's column. -/
theorem backward_row (P : Prim α) {n : Nat} (x : Fin n → α)
    (G u : GState α) (root : Nat) (hok : SeedOK n x G)
    (hci : ∀ c, c < G.nodes.length → nameOf G c = c)
    (hseq : SEq G u) (hroot : root < G.nodes.length) :
    ∀ (row' : List α) (u' : GState α),
      backward P n root u = .ok (row', u') →
      (∀ i : Fin n, row'.getD i.val 0 = sens P G i.val root) ∧
      SEq G u' := by
  intro row' u' h
  have hgu : GoodG u := goodG_SEq G u hseq hok.2.1
  constructor
  · intro i
    have hres := backward_sens P n u root i.val hgu
      (fun c hc => by
        rw [(hseq.2 c).2.1]
        exact hci c (by rw [← hseq.1]; exact hc))
      (by rw [hseq.1]; exact hroot)
      i.isLt
      (by rw [hseq.1]; have := i.isLt; have := hok.1; omega)
      (by rw [(hseq.2 i.val).2.2.2]; exact hok.2.2.2 i)
      row' u' h
    rw [hres, sens_SEq P i.val G u hseq root]
  · exact seqTrans hseq (backward_SEq P n root u row' u' h)

/-- The backward-pass loop of `Func._reverse` over the output roots. -/
theorem reverse_fold (P : Prim α) {n : Nat} (x : Fin n → α) (G : GState α)
    (hok : SeedOK n x G)
    (hci : ∀ c, c < G.nodes.length → nameOf G c = c) :
    ∀ (rs : List Nat) (acc : List (List α)) (u : GState α)
      (rows : List (List α)) (uend : GState α),
      SEq G u →
      (∀ r ∈ rs, r < G.nodes.length) →
      rs.foldlM (fun acc r => do
          let (row, st') ← backward P n r acc.2
          pure (acc.1 ++ [row], st')) (acc, u) = .ok (rows, uend) →
      rows.length = acc.length + rs.length ∧
      (∀ k, k < acc.length → rows.getD k [] = acc.getD k []) ∧
      (∀ j, j < rs.length → ∀ i : Fin n,
        (rows.getD (acc.length + j) []).getD i.val 0 =
          sens P G i.val (rs.getD j 0)) := by
  intro rs
  induction rs with
  | nil =>
      intro acc u rows uend _ _ h
      simp only [List.foldlM_nil, pure, Except.pure, Except.ok.injEq,
        Prod.mk.injEq] at h
      obtain ⟨rfl, rfl⟩ := h
      exact ⟨by simp, fun k _ => rfl, fun j hj => by simp at hj⟩
  | cons r rs ih =>
      intro acc u rows uend hseq hrb h
      rw [List.foldlM_cons] at h
      cases hbw : backward P n r u with
      | error e => rw [hbw, bindErr] at h; cases h
      | ok ou =>
          obtain ⟨row, u₁⟩ := ou
          rw [hbw, bindOk, pureBind] at h
          obtain ⟨hrow, hseq₁⟩ := backward_row P x G u r hok hci hseq
            (hrb r (List.mem_cons_self r rs)) row u₁ hbw
          obtain ⟨hlen, hpre, hent⟩ := ih (acc ++ [row]) u₁ rows uend hseq₁
            (fun r' hr' => hrb r' (List.mem_cons_of_mem r hr')) h
          refine ⟨?_, ?_, ?_⟩
          · rw [hlen]
            simp only [List.length_append, List.length_cons,
              List.length_nil]
            omega
          · intro k hk
            rw [hpre k (by simp [List.length_append]; omega),
              getD_append_lt acc [row] [] k hk]
          · intro j hj i
            cases j with
            | zero =>
                rw [Nat.add_zero]
                have := hpre acc.length (by simp [List.length_append])
                rw [this, getD_append_len acc row []]
                simp only [List.getD_cons_zero]
                exact hrow i
            | succ j' =>
                have hidx : acc.length + (j' + 1) =
                    (acc ++ [row]).length + j' := by
                  simp [List.length_append]
                  omega
                rw [hidx]
                have := hent j' (by
                  simp only [List.length_cons] at hj
                  omega) i
                rw [this]
                simp

/-- The body build / dual evaluation of a tuple-returning function, output
by output. -/
theorem many_bridge (P : Prim α)
    (hpow : ∀ a b : α, a ≠ 0 → P.pow a b * b / a = b * P.pow a (b - 1))
    (hpow2 : ∀ b : α, b ≠ 0 → P.pow b 2 = b * b)
    {n : Nat} (x : Fin n → α) (i : Fin n) :
    ∀ (es : List (Expr n α)) (st : GState α) (acc : List Nat)
      (st' : GState α) (rs : List Nat) (ds : List (Dual α)),
      SeedOK n x st →
      es.foldlM (fun acc e => do
          let (st, r) ← buildG P e acc.1
          pure (st, acc.2 ++ [r])) (st, acc) = .ok (st', rs) →
      es.mapM (evalD P (seedDuals x i)) = .ok ds →
      Pres st st' ∧ GoodG st' ∧ (CounterInv st → CounterInv st') ∧
      ds.length = es.length ∧
      rs.length = acc.length + es.length ∧
      (∀ k, k < acc.length → rs.getD k 0 = acc.getD k 0) ∧
      (∀ j, j < es.length →
        rs.getD (acc.length + j) 0 < st'.nodes.length ∧
        (ds.getD j ⟨0, 0⟩).real = getVal st' (rs.getD (acc.length + j) 0) ∧
        (ds.getD j ⟨0, 0⟩).dual =
          sens P st' i.val (rs.getD (acc.length + j) 0)) := by
  intro es
  induction es with
  | nil =>
      intro st acc st' rs ds hok hfold hmap
      simp only [List.foldlM_nil, pure, Except.pure, Except.ok.injEq,
        Prod.mk.injEq] at hfold
      obtain ⟨rfl, rfl⟩ := hfold
      simp only [List.mapM, List.mapM.loop, pure, Except.pure,
        Except.ok.injEq] at hmap
      refine ⟨presRefl st, hok.2.1, fun c => c, ?_, by simp,
        fun k _ => rfl, fun j hj => by simp at hj⟩
      rw [← hmap]
      rfl
  | cons e es ih =>
      intro st acc st' rs ds hok hfold hmap
      rw [List.foldlM_cons] at hfold
      cases hb₁ : buildG P e st with
      | error ε => rw [hb₁, bindErr] at hfold; cases hfold
      | ok o₁ =>
      obtain ⟨st₁, r₁⟩ := o₁
      rw [hb₁, bindOk, pureBind] at hfold
      rw [List.mapM_cons] at hmap
      cases hd₁ : evalD P (seedDuals x i) e with
      | error ε => rw [hd₁, bindErr] at hmap; cases hmap
      | ok du =>
      rw [hd₁, bindOk] at hmap
      cases hds : es.mapM (evalD P (seedDuals x i)) with
      | error ε => rw [hds, bindErr] at hmap; cases hmap
      | ok ds' =>
      rw [hds, bindOk] at hmap
      have hmap' : du :: ds' = ds := by
        simpa [pure, Except.pure] using hmap
      subst hmap'
      obtain ⟨hp₁, hr₁, hg₁, hc₁⟩ := buildG_spec P e st st₁ r₁ hok.1 hb₁
      have hok₁ : SeedOK n x st₁ := seedOK_pres x st st₁ hok hp₁ (hg₁ hok.2.1)
      obtain ⟨hreal, hdual⟩ := evalD_sens P hpow hpow2 x i e st st₁ r₁ du
        hok hb₁ hd₁
      obtain ⟨hpI, hgI, hcI, hdlen, hrlen, hpre, hent⟩ :=
        ih st₁ (acc ++ [r₁]) st' rs ds' hok₁ hfold hds
      refine ⟨presTrans hp₁ hpI, hgI, fun c => hcI (hc₁ c), ?_, ?_, ?_, ?_⟩
      · simp [hdlen]
      · rw [hrlen]
        simp [List.length_append]
        omega
      · intro k hk
        rw [hpre k (by simp [List.length_append]; omega),
          getD_append_lt acc [r₁] 0 k hk]
      · intro j hj
        cases j with
        | zero =>
            rw [Nat.add_zero]
            have hget : rs.getD acc.length 0 = r₁ := by
              rw [hpre acc.length (by simp [List.length_append]),
                getD_append_len acc r₁ 0]
            rw [hget]
            simp only [List.getD_cons_zero]
            have hr₁' : r₁ < st'.nodes.length := lt_of_lt_of_le hr₁ hpI.1
            refine ⟨hr₁', ?_, ?_⟩
            · rw [hreal, getVal, getVal, hpI.2 r₁ hr₁]
            · rw [hdual,
                sens_pres P i.val st₁ st' (hg₁ hok.2.1) hpI r₁ hr₁]
        | succ j' =>
            have hidx : acc.length + (j' + 1) = (acc ++ [r₁]).length + j' := by
              simp [List.length_append]
              omega
            rw [hidx]
            have := hent j' (by
              simp only [List.length_cons] at hj
              omega)
            simpa using this

/-- The value/column a seeded forward evaluation returns (junk on error). -/
def valF (P : Prim α) (m : Nat) {n : Nat} (body : FBody n α)
    (x : Fin n → α) (i : Fin n) : List α :=
  match forwardCol P m body (seedDuals x i) with
  | .ok (vals, _) => vals
  | .error _ => []

def colF (P : Prim α) (m : Nat) {n : Nat} (body : FBody n α)
    (x : Fin n → α) (i : Fin n) : List α :=
  match forwardCol P m body (seedDuals x i) with
  | .ok (_, col) => col
  | .error _ => []

/-- The per-input loop of `Func._forward` unrolled. -/
theorem forward_fold (P : Prim α) (m : Nat) {n : Nat} (body : FBody n α)
    (x : Fin n → α) :
    ∀ (l : List (Fin n)) (acc : List α × List (List α)) (vals : List α)
      (cols : List (List α)),
      l.foldlM (fun acc i => do
          let (vals, col) ← forwardCol P m body (seedDuals x i)
          pure (vals, acc.2 ++ [col])) acc = .ok (vals, cols) →
      (∀ i ∈ l, forwardCol P m body (seedDuals x i) =
        .ok (valF P m body x i, colF P m body x i)) ∧
      cols = acc.2 ++ l.map (colF P m body x) ∧
      vals = l.foldl (fun _ i => valF P m body x i) acc.1 := by
  intro l
  induction l with
  | nil =>
      intro acc vals cols h
      obtain ⟨a1, a2⟩ := acc
      simp only [List.foldlM_nil, pure, Except.pure, Except.ok.injEq,
        Prod.mk.injEq] at h
      obtain ⟨rfl, rfl⟩ := h
      exact ⟨fun i hi => by simp at hi, by simp, rfl⟩
  | cons i l ih =>
      intro acc vals cols h
      rw [List.foldlM_cons] at h
      cases hfc : forwardCol P m body (seedDuals x i) with
      | error e => rw [hfc, bindErr] at h; cases h
      | ok vc =>
          obtain ⟨v, c⟩ := vc
          rw [hfc, bindOk, pureBind] at h
          have hv : valF P m body x i = v := by rw [valF, hfc]
          have hc : colF P m body x i = c := by rw [colF, hfc]
          obtain ⟨hok, hcols, hvals⟩ := ih (v, acc.2 ++ [c]) vals cols h
          refine ⟨?_, ?_, ?_⟩
          · intro i' hi'
            rcases List.mem_cons.mp hi' with h' | h'
            · rw [h', hfc, hv, hc]
            · exact hok i' h'
          · rw [hcols, List.map_cons, hc]
            simp
          · rw [hvals, List.foldl_cons, hv]

/-- The output-root list of `buildBody`'s `.many` fold grows by one index per
output expression. -/
theorem buildMany_length (P : Prim α) {n : Nat} :
    ∀ (es : List (Expr n α)) (stacc : GState α × List Nat)
      (st' : GState α) (rs : List Nat),
      es.foldlM (fun acc e => do
          let (st, r) ← buildG P e acc.1
          pure (st, acc.2 ++ [r])) stacc = .ok (st', rs) →
      rs.length = stacc.2.length + es.length := by
  intro es
  induction es with
  | nil =>
      intro stacc st' rs h
      obtain ⟨st0, acc0⟩ := stacc
      simp only [List.foldlM_nil, pure, Except.pure, Except.ok.injEq,
        Prod.mk.injEq] at h
      obtain ⟨rfl, rfl⟩ := h
      simp
  | cons e es ih =>
      intro stacc st' rs h
      obtain ⟨st0, acc0⟩ := stacc
      rw [List.foldlM_cons] at h
      cases hb : buildG P e st0 with
      | error ε => rw [hb, bindErr] at h; cases h
      | ok o =>
          obtain ⟨st₁, r₁⟩ := o
          rw [hb, bindOk, pureBind] at h
          have := ih (st₁, acc0 ++ [r₁]) st' rs h
          simp only [List.length_append, List.length_cons,
            List.length_nil] at this ⊢
          omega

/-- **C3**: for every function built from the overloaded operators and the
elementary operator library (any single- or multi-output body of `Expr`s
over any linearly ordered field) and every point at which both modes return
normally, the forward-mode Jacobian (`Func._forward`: one column per input)
and the reverse-mode Jacobian (`Func._reverse`: one row per output) agree
entrywise as transposes of each other, and the value vectors agree.  The two
`P.pow` hypotheses are the real-power identities `a^b * b / a = b * a^(b-1)`
(for `a ≠ 0`) and `b^2 = b * b` that the dual-number and graph-node power
rules rely on; real `rpow` satisfies both away from a zero base. -/
theorem C3_forward_reverse (P : Prim α)
    (hpow : ∀ a b : α, a ≠ 0 → P.pow a b * b / a = b * P.pow a (b - 1))
    (hpow2 : ∀ b : α, b ≠ 0 → P.pow b 2 = b * b)
    {n : Nat} (m : Nat) (body : FBody n α) (x : Fin n → α)
    (valsF valsR : List α) (cols rows : List (List α))
    (hf : forwardRun P m body x = .ok (valsF, cols))
    (hr : reverseRun P m body x = .ok (valsR, rows)) :
    cols.length = n ∧ rows.length = m ∧
    (∀ i j : Nat, i < n → j < m →
      (cols.getD i []).getD j 0 = (rows.getD j []).getD i 0) ∧
    (0 < n → valsF = valsR) := by
  have hf' : (List.finRange n).foldlM (fun acc i => do
      let (vals, col) ← forwardCol P m body (seedDuals x i)
      pure (vals, acc.2 ++ [col]))
      (List.replicate m 0, ([] : List (List α))) = .ok (valsF, cols) := hf
  obtain ⟨hcolok, hcols, hvalsF⟩ := forward_fold P m body x (List.finRange n)
    (List.replicate m 0, ([] : List (List α))) valsF cols hf'
  have hcols' : cols = (List.finRange n).map (colF P m body x) := by
    simpa using hcols
  have hvalsF' : valsF = (List.finRange n).foldl
      (fun _ i => valF P m body x i) (List.replicate m 0) := by
    simpa using hvalsF
  have hok₀ : SeedOK n x (reverseInit (List.ofFn x)) := reverseInit_seedOK x
  have hci₀ : CounterInv (reverseInit (List.ofFn x) : GState α) :=
    (reverseInit_counterInv (List.ofFn x)).1
  have hne : 0 < n → List.finRange n ≠ [] := by
    intro hn hemp
    have := congrArg List.length hemp
    simp at this
    omega
  cases body with
  | one e =>
      simp only [reverseRun] at hr
      cases hbG : buildG P e (reverseInit (List.ofFn x)) with
      | error ε => rw [hbG, bindErr] at hr; cases hr
      | ok o =>
      obtain ⟨G, r⟩ := o
      rw [hbG, bindOk] at hr
      simp only [] at hr
      split_ifs at hr with hm
      cases hbw : backward P n r G with
      | error ε => rw [hbw, bindErr] at hr; cases hr
      | ok ou =>
      obtain ⟨row, u'⟩ := ou
      rw [hbw, bindOk] at hr
      have hr' : [getVal G r] = valsR ∧ [row] = rows := by
        simpa [pure, Except.pure] using hr
      obtain ⟨hv, hw⟩ := hr'
      subst hv
      subst hw
      obtain ⟨hpG, hrG, hgG, hciG⟩ :=
        buildG_spec P e (reverseInit (List.ofFn x)) G r hok₀.1 hbG
      have hgG' : GoodG G := hgG hok₀.2.1
      have hokG : SeedOK n x G := seedOK_pres x _ G hok₀ hpG hgG'
      have hciG' : CounterInv G := hciG hci₀
      obtain ⟨hrowE, _⟩ :=
        backward_row P x G G r hokG hciG'.2 (seqRefl G) hrG row u' hbw
      have hcol : ∀ i : Fin n,
          valF P m (.one e) x i = [getVal G r] ∧
          colF P m (.one e) x i = [sens P G i.val r] := by
        intro i
        have hfc := hcolok i (List.mem_finRange i)
        simp only [forwardCol] at hfc
        cases hev : evalD P (seedDuals x i) e with
        | error ε => rw [hev, bindErr] at hfc; cases hfc
        | ok du =>
            rw [hev, bindOk] at hfc
            simp only [if_pos hm] at hfc
            have h2 : [du.real] = valF P m (.one e) x i ∧
                [du.dual] = colF P m (.one e) x i := by
              simpa [pure, Except.pure] using hfc
            obtain ⟨h2v, h2c⟩ := h2
            obtain ⟨hreal, hdual⟩ := evalD_sens P hpow hpow2 x i e
              (reverseInit (List.ofFn x)) G r du hok₀ hbG hev
            exact ⟨by rw [← h2v, hreal], by rw [← h2c, hdual]⟩
      refine ⟨?_, ?_, ?_, ?_⟩
      · rw [hcols']
        simp
      · simpa using hm
      · intro i j hi hj
        have hj0 : j = 0 := by omega
        subst hj0
        rw [hcols', getD_map_finRange (colF P m (.one e) x) [] i hi,
          (hcol ⟨i, hi⟩).2]
        simp only [List.getD_cons_zero]
        exact (hrowE ⟨i, hi⟩).symm
      · intro hn
        rw [hvalsF', foldl_const_eq (valF P m (.one e) x) [getVal G r]
          (List.finRange n) (List.replicate m 0)
          (fun i _ => (hcol i).1) (hne hn)]
  | many es =>
      simp only [reverseRun] at hr
      cases hbB : buildBody P (.many es) (reverseInit (List.ofFn x)) with
      | error ε => rw [hbB, bindErr] at hr; cases hr
      | ok o =>
      obtain ⟨G, rs⟩ := o
      rw [hbB, bindOk] at hr
      simp only [] at hr
      split_ifs at hr with hlm
      cases hfold : rs.foldlM (fun acc r => do
          let (row, st') ← backward P n r acc.2
          pure (acc.1 ++ [row], st')) (([] : List (List α)), G) with
      | error ε => rw [hfold, bindErr] at hr; cases hr
      | ok o2 =>
      obtain ⟨rows₀, uend⟩ := o2
      rw [hfold, bindOk] at hr
      have hr' : rs.map (getVal G) = valsR ∧ rows₀ = rows := by
        simpa [pure, Except.pure] using hr
      obtain ⟨hv, hw⟩ := hr'
      subst hv
      subst hw
      obtain ⟨hpG, hrsG, hgG, hciG⟩ := buildBody_spec P (.many es)
        (reverseInit (List.ofFn x)) G rs hok₀.1 hbB
      have hgG' : GoodG G := hgG hok₀.2.1
      have hokG : SeedOK n x G := seedOK_pres x _ G hok₀ hpG hgG'
      have hciG' : CounterInv G := hciG hci₀
      simp only [buildBody] at hbB
      have hrslen : rs.length = es.length := by
        have := buildMany_length P es
          (reverseInit (List.ofFn x), ([] : List Nat)) G rs hbB
        simpa using this
      obtain ⟨hrowslen, _, hrowsent⟩ := reverse_fold P x G hokG hciG'.2 rs
        ([] : List (List α)) G rows₀ uend (seqRefl G) hrsG hfold
      simp only [List.length_nil, Nat.zero_add] at hrowslen hrowsent
      have hcol : ∀ i : Fin n,
          (valF P m (.many es) x i).length = m ∧
          (∀ j, j < m → (valF P m (.many es) x i).getD j 0 =
            getVal G (rs.getD j 0)) ∧
          (∀ j, j < m → (colF P m (.many es) x i).getD j 0 =
            sens P G i.val (rs.getD j 0)) := by
        intro i
        have hfc := hcolok i (List.mem_finRange i)
        simp only [forwardCol] at hfc
        cases hmap : es.mapM (evalD P (seedDuals x i)) with
        | error ε => rw [hmap, bindErr] at hfc; cases hfc
        | ok ds =>
            rw [hmap, bindOk] at hfc
            have hdslen : ds.length = es.length :=
              mapM_ok_length (evalD P (seedDuals x i)) es ds hmap
            simp only [if_pos (show ds.length = m by rw [hdslen, hlm])] at hfc
            have h2 : ds.map Dual.real = valF P m (.many es) x i ∧
                ds.map Dual.dual = colF P m (.many es) x i := by
              simpa [pure, Except.pure] using hfc
            obtain ⟨h2v, h2c⟩ := h2
            obtain ⟨_, _, _, hdlen2, hrslen2, _, hent⟩ :=
              many_bridge P hpow hpow2 x i es (reverseInit (List.ofFn x))
                ([] : List Nat) G rs ds hok₀ hbB hmap
            simp only [List.length_nil, Nat.zero_add] at hent
            refine ⟨?_, ?_, ?_⟩
            · rw [← h2v, List.length_map, hdslen, hlm]
            · intro j hj
              rw [← h2v, getD_map_lt Dual.real ds ⟨0, 0⟩ 0 j (by omega)]
              exact (hent j (by omega)).2.1
            · intro j hj
              rw [← h2c, getD_map_lt Dual.dual ds ⟨0, 0⟩ 0 j (by omega)]
              exact (hent j (by omega)).2.2
      refine ⟨?_, ?_, ?_, ?_⟩
      · rw [hcols']
        simp
      · rw [hrowslen, hrslen]
        exact hlm
      · intro i j hi hj
        rw [hcols', getD_map_finRange (colF P m (.many es) x) [] i hi,
          (hcol ⟨i, hi⟩).2.2 j hj]
        exact (hrowsent j (by omega) ⟨i, hi⟩).symm
      · intro hn
        have hconst : ∀ i ∈ List.finRange n,
            valF P m (.many es) x i = rs.map (getVal G) := by
          intro i _
          refine list_eq_of_getD _ _ 0 ?_ ?_
          · rw [(hcol i).1, List.length_map, hrslen, hlm]
          · intro j hj
            rw [(hcol i).1] at hj
            rw [(hcol i).2.1 j hj, getD_map_lt (getVal G) rs 0 0 j (by omega)]
        rw [hvalsF', foldl_const_eq (valF P m (.many es) x)
          (rs.map (getVal G)) (List.finRange n) (List.replicate m 0)
          hconst (hne hn)]

end ClaimC3

/-! ## A computable rational power model satisfying the power laws -/

section RatPow

/-- A computable stand-in for the real power function on rationals:
`a^⌊b⌋` away from a zero base.  It satisfies the two algebraic identities
the power rules use, so the C3 equivalence applies to it. -/
def qpowFn (a b : ℚ) : ℚ := if a = 0 then (0 : ℚ) else a ^ ⌊b⌋

def qPowPrim : Prim ℚ := { qPrim with pow := qpowFn }

theorem qpowFn_hpow (a b : ℚ) (ha : a ≠ 0) :
    qpowFn a b * b / a = b * qpowFn a (b - 1) := by
  rw [qpowFn, qpowFn, if_neg ha, if_neg ha]
  have hfloor : ⌊b - 1⌋ = ⌊b⌋ - 1 := by
    have := Int.floor_sub_int b 1
    simpa using this
  rw [hfloor, zpow_sub_one₀ ha, div_eq_mul_inv]
  ring

theorem qpowFn_hpow2 (b : ℚ) (hb : b ≠ 0) : qpowFn b 2 = b * b := by
  rw [qpowFn, if_neg hb]
  have h2 : ⌊(2 : ℚ)⌋ = 2 := by norm_num
  rw [h2]
  have hcast : ((2 : ℤ)) = ((2 : ℕ) : ℤ) := by norm_num
  rw [hcast, zpow_natCast, pow_two]

theorem C3_witness :
    ([[(6 : ℚ)]] : List (List ℚ)).length = 1 ∧
    ([[(6 : ℚ)]] : List (List ℚ)).length = 1 ∧
    (∀ i j : Nat, i < 1 → j < 1 →
      (([[(6 : ℚ)]] : List (List ℚ)).getD i []).getD j 0 =
        (([[(6 : ℚ)]] : List (List ℚ)).getD j []).getD i 0) ∧
    (0 < 1 → [(9 : ℚ)] = [(9 : ℚ)]) :=
  C3_forward_reverse qPowPrim
    (fun a b ha => qpowFn_hpow a b ha)
    (fun b hb => qpowFn_hpow2 b hb)
    1 (FBody.one (Expr.mulE (Expr.var 0) (Expr.var 0)))
    (fun _ : Fin 1 => (3 : ℚ)) [9] [9] [[6]] [[6]]
    (by with_unfolding_all rfl) (by with_unfolding_all rfl)

end RatPow

end Autodiff
